import Mathlib

/-!
# Verification of the sequence-map crate

A shallow embedding of the `sequence-map` Rust crate: a write-once map from
unsigned 64-bit keys to strings, laid out as a single contiguous byte buffer
(root header, fixed-stride trie table blocks, interned NUL-terminated string
payload).

Modelling conventions, matching the 64-bit little-endian layout the crate's
own test fixes:
* the byte buffer `Vec<u8>` is a `List Nat` of byte values;
* multi-byte fields are read and written little-endian (`usize` is 8 bytes,
  the header `type_tag` is a 4-byte `u32`, a cell is 17 packed bytes);
* Rust `&str` values are their UTF-8 byte lists (`List Nat`); Rust string
  equality is byte equality;
* `panic!`-free fallible operations return `Except String _`, with `.error`
  standing for a Rust panic / failed `assert!`;
* the unbounded `loop` in `Builder::insert` and `Map::get_cstr` is given a
  fuel parameter of 130 iterations; a fuel exhaustion is `.error "fuel"`.
  (The termination development below proves the fuel is never exhausted on
  buffers the builder constructs.)
* `BTreeMap<String, usize>` is modelled as an association list; the crate
  only uses exact-key `get` and `insert`, for which this is faithful.
-/

namespace SequenceMap

/-! ## Byte-level primitives -/

/-- Read one byte; out-of-range reads give 0 (reachable code never reads
out of range, see the invariant development below). -/
def readByte (buf : List Nat) (i : Nat) : Nat := buf.getD i 0

/-- Write one byte (out-of-range writes are dropped; reachable code never
writes out of range). -/
def writeByte (buf : List Nat) (i v : Nat) : List Nat := buf.set i v

/-- Little-endian read of `n` bytes starting at `off`. -/
def readLE (buf : List Nat) : Nat → Nat → Nat
  | _, 0 => 0
  | off, n+1 => readByte buf off + 256 * readLE buf (off+1) n

/-- Little-endian write of the low `n` bytes of `v` starting at `off`.
This is how the zerocopy views store `u32`/`usize`/`u64` fields on a
64-bit little-endian target. -/
def writeLE : List Nat → Nat → Nat → Nat → List Nat
  | buf, _, 0, _ => buf
  | buf, off, n+1, v => writeLE (writeByte buf off (v % 256)) (off+1) n (v / 256)

/-- `size_of::<header::Root>()` = 4 (u32 tag) + 4 (pad) + 8 + 8. -/
def rootSize : Nat := 24

/-- `size_of::<header::TableHeader>()` = 4 (u32 tag) + 4 (pad) + 1 (bits) + 7 (pad). -/
def tableHeaderSize : Nat := 16

/-- `size_of::<cell::Instance>()` (packed) = 1 (tag) + 8 (index) + 8 (stored key). -/
def cellSize : Nat := 17

/-- Byte size of one table block: header followed by `2^bits` cells. -/
def blockSize (bits : Nat) : Nat := tableHeaderSize + 2^bits * cellSize

/-! ## Cells (`cell.rs`) -/

/-- Byte offset of cell `s` inside the table block at offset `t`. -/
def cellOff (t s : Nat) : Nat := t + tableHeaderSize + s * cellSize

/-- `Instance::get_type` reads the 1-byte tag: 0 = Empty, 1 = StringPtr,
2 = TablePtr, anything else Unknown. -/
def cellType (buf : List Nat) (t s : Nat) : Nat := readByte buf (cellOff t s)

/-- The `index` field of a cell (a `usize`). -/
def cellIndex (buf : List Nat) (t s : Nat) : Nat := readLE buf (cellOff t s + 1) 8

/-- The `string_key` field of a cell (a `u64`). -/
def cellKey (buf : List Nat) (t s : Nat) : Nat := readLE buf (cellOff t s + 9) 8

/-- `Instance::become_type`: sets the tag and index and zeroes `string_key`. -/
def becomeType (buf : List Nat) (t s ty idx : Nat) : List Nat :=
  writeLE (writeLE (writeByte buf (cellOff t s) ty) (cellOff t s + 1) 8 idx)
    (cellOff t s + 9) 8 0

/-- `Instance::become_string_ptr`: `become_type(StringPtr, index)` then store the key. -/
def becomeStringPtr (buf : List Nat) (t s idx key : Nat) : List Nat :=
  writeLE (becomeType buf t s 1 idx) (cellOff t s + 9) 8 key

/-- `Instance::become_table_ptr`: `become_type(TablePtr, index)` (zeroes the key). -/
def becomeTablePtr (buf : List Nat) (t s idx : Nat) : List Nat :=
  becomeType buf t s 2 idx

/-! ## Table views (`header.rs`) -/

namespace Table

/-- The `bits` byte of the table header at offset `t`. -/
def bits (buf : List Nat) (t : Nat) : Nat := readByte buf (t + 8)

/-- `Table::index`: the low `bits` of the running key select the cell. -/
def index (buf : List Nat) (t key : Nat) : Nat := key &&& ((1 <<< bits buf t) - 1)

/-- `Table::next_key`: consume `bits` bits of the running key. -/
def nextKey (buf : List Nat) (t key : Nat) : Nat := key >>> bits buf t

/-- `Table::decrement_bits`: decrease the remaining width, clamped at zero. -/
def decrementBits (buf : List Nat) (t remaining : Nat) : Nat :=
  if remaining < bits buf t then 0 else remaining - bits buf t

end Table

/-- `TableMut::init` on fresh zeroed bytes appended at the end of `buf`:
writes the Table type tag (2) and the `bits` byte. The new block starts at
`buf.length` (the value `Builder::append_table` returns). -/
def appendTableBytes (bits : Nat) (buf : List Nat) : List Nat :=
  let index := buf.length
  let grown := buf ++ List.replicate (blockSize bits) 0
  writeByte (writeLE grown index 4 2) (index + 8) bits

/-! ## String intern pool (`string_slice.rs`) -/

/-- `BTreeMap::get` on the association-list model of `seen`. -/
def seenLookup : List (List Nat × Nat) → List Nat → Option Nat
  | [], _ => none
  | (k, i) :: rest, s => if k = s then some i else seenLookup rest s

/-- `Intern`: the byte pool holding each distinct string once as
`bytes ++ [0]`, plus the map of seen strings to their pool offsets. -/
structure Intern where
  strings : List Nat
  seen : List (List Nat × Nat)
deriving DecidableEq, Repr

def Intern.new : Intern := ⟨[], []⟩

/-- `Intern::add`: a seen string returns its prior offset and changes
nothing; a fresh string is appended as `s ++ [0]` (`String::init`) and its
start offset recorded and returned. -/
def Intern.add (it : Intern) (s : List Nat) : Intern × Nat :=
  match seenLookup it.seen s with
  | some index => (it, index)
  | none =>
      let index := it.strings.length
      (⟨it.strings ++ s ++ [0], (s, index) :: it.seen⟩, index)

/-- Fold of `Intern.add` over a list of values (ignoring returned offsets). -/
def Intern.addAll : Intern → List (List Nat) → Intern
  | it, [] => it
  | it, v :: vs => Intern.addAll (it.add v).1 vs

/-! ## Builder (`lib.rs`) -/

structure Builder where
  bits : Nat
  index : List Nat
  strings : Intern
deriving DecidableEq, Repr

/-- `Builder::reserve_header`: a zeroed root header with type tag ROOT (1)
and both offsets zero. -/
def reserveHeader : List Nat :=
  writeLE (writeLE (writeLE (List.replicate rootSize 0) 0 4 1) 8 8 0) 16 8 0

/-- `Builder::new` (its `assert!(bits >= 2 && bits <= 16)` is carried as a
hypothesis of every theorem below). -/
def Builder.new (bits : Nat) : Builder :=
  { bits := bits, index := reserveHeader, strings := Intern.new }

/-- `Builder::append_table`: append a zero-initialized table block at the
current end of the index vector and return its offset. -/
def Builder.appendTable (b : Builder) : Builder × Nat :=
  ({ b with index := appendTableBytes b.bits b.index }, b.index.length)

/-- The trie-walk loop of `Builder::insert`, with an explicit fuel for the
`loop`.  Each `TableMut::overlay_mut` assertion (`htype == Table`) is an
explicit check; the Unknown cell tag panics.  State is the pair
(index bytes, intern pool). -/
def insertLoop (bits key : Nat) (value : List Nat) :
    Nat → List Nat × Intern → Nat → Nat → Nat → Except String (List Nat × Intern)
  | 0, _, _, _, _ => .error "fuel"
  | fuel+1, (buf, strings), remainingBits, runningKey, tableIndex =>
    if remainingBits = 0 then .ok (buf, strings) else
    if readLE buf tableIndex 4 ≠ 2 then .error "overlay: not a table" else
    let slot := Table.index buf tableIndex runningKey
    match cellType buf tableIndex slot with
    | 0 =>
        -- Empty: allocate (or dedupe) the string, make this cell a StringPtr
        -- holding the full key, and exit the loop (remaining_bits = 0).
        let added := strings.add value
        .ok (becomeStringPtr buf tableIndex slot added.2 key, added.1)
    | 1 =>
        -- StringPtr: double insert returns unchanged, otherwise split.
        let strIndex := cellIndex buf tableIndex slot
        let strKey := cellKey buf tableIndex slot
        if strKey = key then .ok (buf, strings) else
        if 64 < remainingBits then .error "assert remaining_bits <= 64" else
        let newStrKey := strKey >>> (64 - remainingBits)
        let newTableIndex := buf.length
        let buf1 := appendTableBytes bits buf
        let buf2 := becomeTablePtr buf1 tableIndex slot newTableIndex
        if readLE buf2 newTableIndex 4 ≠ 2 then .error "overlay: not a table" else
        let movedKey := Table.nextKey buf2 newTableIndex newStrKey
        let newCellIndex := Table.index buf2 newTableIndex movedKey
        let buf3 := becomeStringPtr buf2 newTableIndex newCellIndex strIndex strKey
        insertLoop bits key value fuel (buf3, strings) remainingBits runningKey tableIndex
    | 2 =>
        -- TablePtr: descend; the key is advanced and the remaining width
        -- decremented using the *target* table's bits.
        let next := cellIndex buf tableIndex slot
        if readLE buf next 4 ≠ 2 then .error "overlay: not a table" else
        insertLoop bits key value fuel (buf, strings)
          (Table.decrementBits buf next remainingBits)
          (Table.nextKey buf next runningKey) next
    | _ => .error "unknown cell type"

/-- `Builder::insert`.  The `Builder::header` assertions (length and ROOT
type tag) guard entry; a zero `root_table_offset` lazily creates the root
table. -/
def Builder.insert (b : Builder) (key : Nat) (value : List Nat) :
    Except String Builder :=
  if rootSize ≤ b.index.length ∧ readLE b.index 0 4 = 1 then
    let b1 :=
      if readLE b.index 8 8 ≠ 0 then b
      else
        let appended := b.appendTable
        { appended.1 with index := writeLE appended.1.index 8 8 appended.2 }
    let tableIndex := readLE b1.index 8 8
    if tableIndex = 0 then .error "assert table_index != 0" else
    match insertLoop b1.bits key value 130 (b1.index, b1.strings) 64 key tableIndex with
    | .ok st => .ok { b1 with index := st.1, strings := st.2 }
    | .error e => .error e
  else .error "root header"

/-- `Builder::build`: set the root header's `string_offset` to the index
length and append the intern pool. -/
def Builder.build (b : Builder) : Except String (List Nat) :=
  if rootSize ≤ b.index.length ∧ readLE b.index 0 4 = 1 then
    .ok (writeLE b.index 16 8 b.index.length ++ b.strings.strings)
  else .error "root header"

/-- Run a list of `(key, value)` inserts left to right. -/
def runInserts : Builder → List (Nat × List Nat) → Except String Builder
  | b, [] => .ok b
  | b, (k, v) :: ps =>
      match b.insert k v with
      | .ok b2 => runInserts b2 ps
      | .error e => .error e

/-! ## Map (`lib.rs`, read side) -/

/-- `CStr::from_ptr`: the bytes from `off` up to (excluding) the first NUL. -/
def readCStringAux (buf : List Nat) : Nat → Nat → List Nat
  | _, 0 => []
  | off, fuel+1 =>
      let b := readByte buf off
      if b = 0 then [] else b :: readCStringAux buf (off+1) fuel

/-- Read the NUL-terminated byte string starting at `off`. -/
def readCString (buf : List Nat) (off : Nat) : List Nat :=
  readCStringAux buf off (buf.length - off)

/-- The lookup loop of `Map::get_cstr`, with fuel for the `loop`.  The
`Table::overlay` assertion is an explicit check; the Unknown tag panics;
falling out of the loop (`remaining_bits == 0`) is a miss. -/
def getLoop (rep : List Nat) (stringOffset key : Nat) :
    Nat → Nat → Nat → Nat → Except String (Option (List Nat))
  | 0, _, _, _ => .error "fuel"
  | fuel+1, remainingBits, runningKey, tableIndex =>
    if remainingBits = 0 then .ok none else
    if readLE rep tableIndex 4 ≠ 2 then .error "overlay: not a table" else
    let slot := Table.index rep tableIndex runningKey
    match cellType rep tableIndex slot with
    | 0 => .ok none
    | 1 =>
        let strIndex := cellIndex rep tableIndex slot
        let strKey := cellKey rep tableIndex slot
        if key = strKey then .ok (some (readCString rep (stringOffset + strIndex)))
        else .ok none
    | 2 =>
        getLoop rep stringOffset key fuel
          (Table.decrementBits rep tableIndex remainingBits)
          (Table.nextKey rep tableIndex runningKey)
          (cellIndex rep tableIndex slot)
    | _ => .error "unknown cell"

/-- `Map::get_cstr`.  `Map::header` only asserts the buffer holds a root
header; `assert!(table_index > 0)` aborts on an empty map. -/
def Map.get_cstr (rep : List Nat) (key : Nat) : Except String (Option (List Nat)) :=
  if rootSize ≤ rep.length then
    let tableIndex := readLE rep 8 8
    let stringOffset := readLE rep 16 8
    if tableIndex = 0 then .error "assert table_index > 0" else
    getLoop rep stringOffset key 130 64 key tableIndex
  else .error "header check"

/-- Continuation byte check, `0x80..=0xBF`. -/
def contB (b : Nat) : Bool := 0x80 ≤ b && b ≤ 0xBF

/-- The UTF-8 validity check performed by `CStr::to_str`
(`str::from_utf8`), on byte lists. -/
def validUTF8 : List Nat → Bool
  | [] => true
  | a :: l =>
      if a ≤ 0x7F then validUTF8 l
      else if a < 0xC2 then false
      else if a ≤ 0xDF then
        match l with
        | b :: l2 => contB b && validUTF8 l2
        | [] => false
      else if a ≤ 0xEF then
        match l with
        | b :: c :: l3 =>
            (if a = 0xE0 then decide (0xA0 ≤ b) && decide (b ≤ 0xBF)
             else if a = 0xED then decide (0x80 ≤ b) && decide (b ≤ 0x9F)
             else contB b) && contB c && validUTF8 l3
        | _ => false
      else if a ≤ 0xF4 then
        match l with
        | b :: c :: d :: l4 =>
            (if a = 0xF0 then decide (0x90 ≤ b) && decide (b ≤ 0xBF)
             else if a = 0xF4 then decide (0x80 ≤ b) && decide (b ≤ 0x8F)
             else contB b) && contB c && contB d && validUTF8 l4
        | _ => false
      else false

/-- `Map::get`: `get_cstr` followed by `CStr::to_str().expect("UTF-8
encoding")`.  In this byte-list model the conversion keeps the bytes and
panics on invalid UTF-8. -/
def Map.get (rep : List Nat) (key : Nat) : Except String (Option (List Nat)) :=
  match Map.get_cstr rep key with
  | .ok (some s) => if validUTF8 s then .ok (some s) else .error "UTF-8 encoding"
  | .ok none => .ok none
  | .error e => .error e

/-! ## Specification-side helpers (not from the source) -/

/-- First-match association lookup: the value the spec's first-write-wins
map associates with `key` after the given insert sequence. -/
def lookupFirst : List (Nat × List Nat) → Nat → Option (List Nat)
  | [], _ => none
  | (k, v) :: ps, key => if k = key then some v else lookupFirst ps key

/-- Number of occurrences of `pat` as a contiguous sublist of `buf`. -/
def occurrences (pat buf : List Nat) : Nat :=
  ((List.range (buf.length + 1)).filter
    (fun i => decide ((buf.drop i).take pat.length = pat))).length

/-- The distinct values of a list in order of first appearance, continuing
a given accumulator. -/
def dedupExtend (es : List (List Nat)) (vs : List (List Nat)) : List (List Nat) :=
  vs.foldl (fun acc v => if v ∈ acc then acc else acc ++ [v]) es

/-- The distinct values of a list in order of first appearance. -/
def dedupFirst (vs : List (List Nat)) : List (List Nat) := dedupExtend [] vs

/-- Number of entries equal to `v` (specification helper). -/
def countVal (v : List Nat) : List (List Nat) → Nat
  | [] => 0
  | w :: rest => (if w = v then 1 else 0) + countVal v rest

/-- The byte pool laid out for a list of distinct entries: each entry's
bytes followed by one NUL. -/
def poolOf : List (List Nat) → List Nat
  | [] => []
  | v :: rest => v ++ 0 :: poolOf rest

/-- `v` is stored at offset `i` of `pool` as a NUL-terminated entry. -/
def EntryAt (pool : List Nat) (i : Nat) (v : List Nat) : Prop :=
  i + v.length < pool.length ∧ (∀ j, j < v.length → readByte pool (i + j) = v.getD j 0) ∧
  readByte pool (i + v.length) = 0 ∧ (0 : Nat) ∉ v

/-- Every string recorded in `seen` is stored at its recorded offset. -/
def PoolOk (it : Intern) : Prop := ∀ p ∈ it.seen, EntryAt it.strings p.2 p.1

/-- Ghost walk over the trie of a builder index buffer: follow the key's
slots from table `t` at consumed-bit count `c`, returning the string-pool
index stored for the key, if any.  (Specification helper; mirrors the cell
dispatch of `Map::get_cstr` before the string is resolved.) -/
def walkIdx (buf : List Nat) (B : Nat) : Nat → Nat → Nat → Nat → Option Nat
  | 0, _, _, _ => none
  | fuel+1, t, c, k =>
      if 64 ≤ c then none else
      match cellType buf t (k / 2^c % 2^B) with
      | 0 => none
      | 1 =>
          if cellKey buf t (k / 2^c % 2^B) = k then
            some (cellIndex buf t (k / 2^c % 2^B))
          else none
      | 2 => walkIdx buf B fuel (cellIndex buf t (k / 2^c % 2^B)) (c + B) k
      | _ => none

/-- Offsets of the form `rootSize + j * blockSize B`: the root header is
followed by consecutively appended table blocks. -/
def Aligned (B t : Nat) : Prop := ∃ j, t = rootSize + j * blockSize B

/-- Well-formedness of the cell at slot `s` of the table at offset `t`
whose trie position is `(c, p)` (`c` consumed bits, path value `p`),
relative to the ghost table-position assignment `A`. -/
def CellOk (buf pool : List Nat) (B : Nat) (A : Nat → Option (Nat × Nat))
    (t c p s : Nat) : Prop :=
  if cellType buf t s = 0 then cellIndex buf t s = 0 ∧ cellKey buf t s = 0
  else if cellType buf t s = 1 then
    cellKey buf t s < 2^64 ∧ cellKey buf t s % 2^(c+B) = p + s * 2^c ∧
    ∃ v, EntryAt pool (cellIndex buf t s) v
  else if cellType buf t s = 2 then
    cellKey buf t s = 0 ∧ A (cellIndex buf t s) = some (c + B, p + s * 2^c)
  else False

/-- Well-formedness of the table block at offset `t`, at trie position
`(c, p)`. -/
def TableOk (buf pool : List Nat) (B : Nat) (A : Nat → Option (Nat × Nat))
    (t c p : Nat) : Prop :=
  Aligned B t ∧ t + blockSize B ≤ buf.length ∧
  readLE buf t 4 = 2 ∧ Table.bits buf t = B ∧
  c < 64 ∧ p < 2^c ∧
  ∀ s, s < 2^B → CellOk buf pool B A t c p s

/-- The flat buffer invariant: the index region is the root header followed
by table blocks; `A` assigns to every block its trie position, and every
block is well formed at its position. -/
structure FlatInv (buf pool : List Nat) (B : Nat)
    (A : Nat → Option (Nat × Nat)) : Prop where
  hlen : Aligned B buf.length
  hroot1 : readLE buf 0 4 = 1
  hfull : ∀ t, Aligned B t → t + blockSize B ≤ buf.length → (A t).isSome
  hdom : ∀ t x, A t = some x → Aligned B t ∧ t + blockSize B ≤ buf.length
  htab : ∀ t c p, A t = some (c, p) → TableOk buf pool B A t c p

/-- Builder-state invariant: the buffer invariant, pool well-formedness,
and the root-table offset being 0 (nothing inserted yet) or 24 (the first
appended block, which is the trie root). -/
def BuilderOk (b : Builder) (A : Nat → Option (Nat × Nat)) : Prop :=
  FlatInv b.index b.strings.strings b.bits A ∧ PoolOk b.strings ∧
  ((readLE b.index 8 8 = 0 ∧ b.index.length = rootSize) ∨
   (readLE b.index 8 8 = 24 ∧ A 24 = some (0, 0)))

/-- The abstract content of a builder state: the value bytes its trie
associates with `k` (specification helper). -/
def builderGet (b : Builder) (k : Nat) : Option (List Nat) :=
  if readLE b.index 8 8 = 0 then none
  else (walkIdx b.index b.bits 65 24 0 k).map (fun si => readCString b.strings.strings si)

/-- All keys fit in a `u64` and all values are NUL-free (Rust guarantees
the former by typing; NUL-free values are the spec's "null-terminable
strings"). -/
def ValidRun (ps : List (Nat × List Nat)) : Prop :=
  ∀ p ∈ ps, p.1 < 2^64 ∧ (0 : Nat) ∉ p.2

/-- Total byte size of the values of a run (upper bound for the pool). -/
def runBytes : List (Nat × List Nat) → Nat
  | [] => 0
  | p :: ps => p.2.length + 1 + runBytes ps

/-- The run is small enough that no `usize`/`u64` field overflows (real
machines cannot exceed this without the fatal allocation failure the spec
assigns to that case). -/
def SmallRun (ps : List (Nat × List Nat)) (B : Nat) : Prop :=
  rootSize + (ps.length + 1) * 65 * blockSize B < 2^64 ∧ runBytes ps < 2^64

/-- The 122-byte buffer produced by
`Builder::new(2); insert(42, "Hello!"); insert(84, "World!"); build()`,
as fixed by the crate's own `tests::basic`. -/
def referenceBuffer : List Nat :=
  [1] ++ List.replicate 7 0 ++ [24] ++ List.replicate 7 0 ++
  [108] ++ List.replicate 7 0 ++
  [2] ++ List.replicate 7 0 ++ [2] ++ List.replicate 7 0 ++
  [1, 7] ++ List.replicate 7 0 ++ [84] ++ List.replicate 7 0 ++
  List.replicate 17 0 ++
  [1] ++ List.replicate 8 0 ++ [42] ++ List.replicate 7 0 ++
  List.replicate 17 0 ++
  [72, 101, 108, 108, 111, 33, 0, 87, 111, 114, 108, 100, 33, 0]

/-- Modelled from the spec: the reference hex literal of section 6.1,
transcribed byte for byte (it contains 119 bytes, not 122). -/
def specLiteral : List Nat :=
  [0x01] ++ List.replicate 7 0 ++ [0x18] ++ List.replicate 7 0 ++
  [0x6c] ++ List.replicate 7 0 ++ [0x02] ++ List.replicate 7 0 ++
  [0x02] ++ List.replicate 7 0 ++ [0x01, 0x07] ++ List.replicate 7 0 ++
  [0x54] ++ List.replicate 23 0 ++ [0x01] ++ List.replicate 8 0 ++
  [0x2a] ++ List.replicate 22 0 ++
  [0x48, 0x65, 0x6c, 0x6c, 0x6f, 0x21, 0x00, 0x57, 0x6f, 0x72, 0x6c, 0x64, 0x21, 0x00]

/-- The 24-byte buffer `Builder::new(bits).build()` produces when nothing
was inserted: a root header with `root_table_offset = 0` and
`string_offset = 24`. -/
def emptyBuilt : List Nat :=
  [1, 0, 0, 0, 0, 0, 0, 0, 0, 0, 0, 0, 0, 0, 0, 0, 24, 0, 0, 0, 0, 0, 0, 0]

/-- Insert a list of pairs into a fresh builder with the given `bits`, then
build. -/
def buildRun (bits : Nat) (ps : List (Nat × List Nat)) : Except String (List Nat) :=
  match runInserts (Builder.new bits) ps with
  | .ok b => b.build
  | .error e => .error e

/-- The intern state holds exactly the entries `es` (in order), and `seen`
knows exactly the members of `es` (specification helper for deduplication). -/
def SeenMatches (it : Intern) (es : List (List Nat)) : Prop :=
  it.strings = poolOf es ∧ ∀ s, (seenLookup it.seen s).isSome ↔ s ∈ es

/-- Byte position `j` lies in a cell addressed by `key` in a table of the
assignment `A` at depth at least `c` (the cells an insertion of `key`
entered at depth `c` is allowed to touch). -/
def PathCell (A : Nat → Option (Nat × Nat)) (B c key j : Nat) : Prop :=
  ∃ t0 c0 p0, A t0 = some (c0, p0) ∧ c ≤ c0 ∧ key % 2^c0 = p0 ∧
    cellOff t0 (key / 2^c0 % 2^B) ≤ j ∧ j < cellOff t0 (key / 2^c0 % 2^B) + cellSize

/-- Decidable equality of `Except` results (not derived in this toolchain). -/
instance {ε α : Type} [DecidableEq ε] [DecidableEq α] : DecidableEq (Except ε α) := fun a b =>
  match a, b with
  | .error e1, .error e2 =>
      if h : e1 = e2 then .isTrue (by rw [h]) else .isFalse (fun hh => h (by cases hh; rfl))
  | .error _, .ok _ => .isFalse (fun hh => Except.noConfusion hh)
  | .ok _, .error _ => .isFalse (fun hh => Except.noConfusion hh)
  | .ok a1, .ok a2 =>
      if h : a1 = a2 then .isTrue (by rw [h]) else .isFalse (fun hh => h (by cases hh; rfl))

/-! ## Byte-level toolkit -/

theorem length_writeByte (buf : List Nat) (i v : Nat) :
    (writeByte buf i v).length = buf.length := List.length_set buf i v

theorem length_writeLE (buf : List Nat) (off n v : Nat) :
    (writeLE buf off n v).length = buf.length := by
  induction n generalizing buf off v with
  | zero => rfl
  | succ n ih => rw [writeLE, ih, length_writeByte]

theorem readByte_writeByte_self (buf : List Nat) (i v : Nat) (h : i < buf.length) :
    readByte (writeByte buf i v) i = v := by
  simp [readByte, writeByte, List.getD_eq_getElem?_getD, List.getElem?_set_self, h]

theorem readByte_writeByte_ne (buf : List Nat) (i v j : Nat) (h : j ≠ i) :
    readByte (writeByte buf i v) j = readByte buf j := by
  simp [readByte, writeByte, List.getD_eq_getElem?_getD, List.getElem?_set_ne (Ne.symm h)]

theorem readByte_writeLE (buf : List Nat) (off n v j : Nat) (h : off + n ≤ buf.length) :
    readByte (writeLE buf off n v) j =
      if off ≤ j ∧ j < off + n then v / 256^(j - off) % 256 else readByte buf j := by
  induction n generalizing buf off v with
  | zero =>
      simp only [writeLE]
      have : ¬ (off ≤ j ∧ j < off + 0) := by omega
      rw [if_neg this]
  | succ n ih =>
      rw [writeLE]
      have hlen : off + 1 + n ≤ (writeByte buf off (v % 256)).length := by
        rw [length_writeByte]; omega
      rw [ih _ _ _ hlen]
      by_cases hj : off ≤ j ∧ j < off + (n + 1)
      · rw [if_pos hj]
        by_cases hj0 : j = off
        · have : ¬ (off + 1 ≤ j ∧ j < off + 1 + n) := by omega
          rw [if_neg this, hj0, readByte_writeByte_self _ _ _ (by omega)]
          simp
        · have : off + 1 ≤ j ∧ j < off + 1 + n := by omega
          rw [if_pos this]
          have h1 : j - off = (j - (off + 1)) + 1 := by omega
          rw [h1, pow_succ', Nat.div_div_eq_div_mul]
      · rw [if_neg hj]
        have : ¬ (off + 1 ≤ j ∧ j < off + 1 + n) := by omega
        rw [if_neg this, readByte_writeByte_ne]
        omega

theorem readByte_append_left (buf ext : List Nat) (j : Nat) (h : j < buf.length) :
    readByte (buf ++ ext) j = readByte buf j := by
  simp [readByte, List.getD_eq_getElem?_getD, List.getElem?_append, h]

theorem readByte_append_right (buf ext : List Nat) (i : Nat) :
    readByte (buf ++ ext) (buf.length + i) = readByte ext i := by
  simp [readByte, List.getD_eq_getElem?_getD, List.getElem?_append, Nat.add_sub_cancel_left]

theorem readByte_replicate_zero (n i : Nat) :
    readByte (List.replicate n (0 : Nat)) i = 0 := by
  simp [readByte, List.getD_eq_getElem?_getD]

theorem readByte_lt_length (buf : List Nat) (j : Nat) (h : buf.length ≤ j) :
    readByte buf j = 0 := by
  simp [readByte, List.getD_eq_getElem?_getD, List.getElem?_eq_none (by simpa using h)]

theorem readLE_congr (buf1 buf2 : List Nat) (off n : Nat)
    (h : ∀ i, i < n → readByte buf1 (off + i) = readByte buf2 (off + i)) :
    readLE buf1 off n = readLE buf2 off n := by
  induction n generalizing off with
  | zero => rfl
  | succ n ih =>
      rw [readLE, readLE]
      have h0 := h 0 (by omega)
      simp only [Nat.add_zero] at h0
      rw [h0, ih (off + 1) (fun i hi => by
        have h2 := h (i + 1) (by omega)
        have h3 : off + (i + 1) = off + 1 + i := by omega
        rw [h3] at h2
        exact h2)]

theorem readLE_eq_of_bytes (buf : List Nat) (off n v : Nat)
    (h : ∀ i, i < n → readByte buf (off + i) = v / 256^i % 256) :
    readLE buf off n = v % 256^n := by
  induction n generalizing off v with
  | zero => simp [readLE, Nat.mod_one]
  | succ n ih =>
      rw [readLE]
      have h0 := h 0 (by omega)
      simp only [Nat.add_zero, pow_zero, Nat.div_one] at h0
      have hrest : readLE buf (off + 1) n = (v / 256) % 256^n := by
        refine ih (off + 1) (v / 256) (fun i hi => ?_)
        have h2 := h (i + 1) (by omega)
        have h3 : off + (i + 1) = off + 1 + i := by omega
        rw [h3, pow_succ', ← Nat.div_div_eq_div_mul] at h2
        exact h2
      rw [h0, hrest, pow_succ', Nat.mod_mul]

theorem readLE_writeLE_self (buf : List Nat) (off n v : Nat) (h : off + n ≤ buf.length) :
    readLE (writeLE buf off n v) off n = v % 256^n := by
  refine readLE_eq_of_bytes _ _ _ _ (fun i hi => ?_)
  rw [readByte_writeLE _ _ _ _ _ h, if_pos (by omega), Nat.add_sub_cancel_left]

theorem two_pow_64_eq : (256 : Nat)^8 = 2^64 := by norm_num

theorem readLE_lt (buf : List Nat) (off n : Nat)
    (hb : ∀ i, i < n → readByte buf (off + i) < 256) :
    readLE buf off n < 256^n := by
  induction n generalizing off with
  | zero => simp [readLE]
  | succ n ih =>
      rw [readLE, pow_succ']
      have h0 := hb 0 (by omega)
      simp only [Nat.add_zero] at h0
      have hrest : readLE buf (off + 1) n < 256^n :=
        ih (off + 1) (fun i hi => by
          have h2 := hb (i + 1) (by omega)
          have h3 : off + (i + 1) = off + 1 + i := by omega
          rw [h3] at h2
          exact h2)
      calc readByte buf off + 256 * readLE buf (off + 1) n
          < 256 + 256 * readLE buf (off + 1) n := by omega
        _ ≤ 256 + 256 * (256^n - 1) := by
            have : readLE buf (off + 1) n ≤ 256^n - 1 := by omega
            exact Nat.add_le_add_left (Nat.mul_le_mul_left _ this) _
        _ ≤ 256 * 256^n := by
            have : (1:Nat) ≤ 256^n := Nat.one_le_two_pow.trans (Nat.pow_le_pow_left (by omega) n)
            omega

theorem readLE_eq_zero (buf : List Nat) (off n : Nat)
    (h : ∀ i, i < n → readByte buf (off + i) = 0) :
    readLE buf off n = 0 := by
  have := readLE_eq_of_bytes buf off n 0 (fun i hi => by
    rw [h i hi, Nat.zero_div, Nat.zero_mod])
  simpa using this

/-! ## Sizes and cell offsets -/

theorem blockSize_pos (B : Nat) : 16 ≤ blockSize B := by
  unfold blockSize tableHeaderSize
  omega

theorem cellOff_bounds (B t s : Nat) (hs : s < 2^B) :
    cellOff t s + cellSize ≤ t + blockSize B := by
  unfold cellOff blockSize tableHeaderSize cellSize
  have : (s + 1) * 17 ≤ 2^B * 17 := Nat.mul_le_mul_right _ (by omega)
  omega

theorem cellOff_ge (t s : Nat) : t + 16 ≤ cellOff t s := by
  unfold cellOff tableHeaderSize
  omega

/-- Cells at distinct slots of the same table occupy disjoint byte ranges. -/
theorem cellOff_disjoint (t s1 s2 : Nat) (h : s1 < s2) :
    cellOff t s1 + cellSize ≤ cellOff t s2 := by
  unfold cellOff cellSize
  have : (s1 + 1) * 17 ≤ s2 * 17 := Nat.mul_le_mul_right _ (by omega)
  omega

/-- Distinct aligned table blocks occupy disjoint byte ranges. -/
theorem aligned_disjoint (B t1 t2 : Nat) (h1 : Aligned B t1) (h2 : Aligned B t2)
    (hne : t1 ≠ t2) : t1 + blockSize B ≤ t2 ∨ t2 + blockSize B ≤ t1 := by
  obtain ⟨j1, rfl⟩ := h1
  obtain ⟨j2, rfl⟩ := h2
  rcases Nat.lt_or_ge j1 j2 with h | h
  · left
    have h2 : (j1 + 1) * blockSize B ≤ j2 * blockSize B := Nat.mul_le_mul_right _ (by omega)
    rw [Nat.add_mul, one_mul] at h2
    omega
  · right
    have hj : j2 < j1 := by
      rcases Nat.lt_or_ge j2 j1 with h' | h'
      · exact h'
      · exact absurd (by omega : j1 = j2) (fun hh => hne (by rw [hh]))
    have h2 : (j2 + 1) * blockSize B ≤ j1 * blockSize B := Nat.mul_le_mul_right _ (by omega)
    rw [Nat.add_mul, one_mul] at h2
    omega

/-! ## `become_*` cell mutations -/

theorem length_becomeType (buf : List Nat) (t s ty idx : Nat) :
    (becomeType buf t s ty idx).length = buf.length := by
  unfold becomeType
  rw [length_writeLE, length_writeLE, length_writeByte]

theorem length_becomeStringPtr (buf : List Nat) (t s idx key : Nat) :
    (becomeStringPtr buf t s idx key).length = buf.length := by
  unfold becomeStringPtr
  rw [length_writeLE, length_becomeType]

theorem length_becomeTablePtr (buf : List Nat) (t s idx : Nat) :
    (becomeTablePtr buf t s idx).length = buf.length := by
  unfold becomeTablePtr
  exact length_becomeType buf t s 2 idx

theorem readByte_becomeType (buf : List Nat) (t s ty idx j : Nat)
    (h : cellOff t s + cellSize ≤ buf.length) :
    readByte (becomeType buf t s ty idx) j =
      if j = cellOff t s then ty
      else if cellOff t s + 1 ≤ j ∧ j < cellOff t s + 9 then
        idx / 256^(j - (cellOff t s + 1)) % 256
      else if cellOff t s + 9 ≤ j ∧ j < cellOff t s + 17 then 0
      else readByte buf j := by
  unfold becomeType
  have hc : cellSize = 17 := rfl
  have hl1 : cellOff t s + 9 + 8 ≤ (writeLE (writeByte buf (cellOff t s) ty)
      (cellOff t s + 1) 8 idx).length := by
    rw [length_writeLE, length_writeByte]; omega
  rw [readByte_writeLE _ _ _ _ _ hl1]
  by_cases h3 : cellOff t s + 9 ≤ j ∧ j < cellOff t s + 9 + 8
  · rw [if_pos h3]
    have : ¬ j = cellOff t s := by omega
    rw [if_neg this, if_neg (by omega), if_pos (by omega)]
    simp
  · rw [if_neg h3]
    have hl2 : cellOff t s + 1 + 8 ≤ (writeByte buf (cellOff t s) ty).length := by
      rw [length_writeByte]; omega
    rw [readByte_writeLE _ _ _ _ _ hl2]
    by_cases h2 : cellOff t s + 1 ≤ j ∧ j < cellOff t s + 1 + 8
    · rw [if_pos h2, if_neg (by omega), if_pos (by omega)]
    · rw [if_neg h2]
      by_cases h1 : j = cellOff t s
      · rw [if_pos h1, h1, readByte_writeByte_self _ _ _ (by omega)]
      · rw [if_neg h1, if_neg (by omega), if_neg (by omega),
          readByte_writeByte_ne _ _ _ _ h1]

theorem readByte_becomeStringPtr (buf : List Nat) (t s idx key j : Nat)
    (h : cellOff t s + cellSize ≤ buf.length) :
    readByte (becomeStringPtr buf t s idx key) j =
      if j = cellOff t s then 1
      else if cellOff t s + 1 ≤ j ∧ j < cellOff t s + 9 then
        idx / 256^(j - (cellOff t s + 1)) % 256
      else if cellOff t s + 9 ≤ j ∧ j < cellOff t s + 17 then
        key / 256^(j - (cellOff t s + 9)) % 256
      else readByte buf j := by
  unfold becomeStringPtr
  have hl : cellOff t s + 9 + 8 ≤ (becomeType buf t s 1 idx).length := by
    rw [length_becomeType]
    have hc : cellSize = 17 := rfl
    omega
  rw [readByte_writeLE _ _ _ _ _ hl]
  by_cases h3 : cellOff t s + 9 ≤ j ∧ j < cellOff t s + 9 + 8
  · rw [if_pos h3, if_neg (by omega : ¬ j = cellOff t s), if_neg (by omega),
      if_pos (by omega)]
  · rw [if_neg h3, readByte_becomeType _ _ _ _ _ _ h]
    by_cases h1 : j = cellOff t s
    · rw [if_pos h1, if_pos h1]
    · rw [if_neg h1, if_neg h1]
      by_cases h2 : cellOff t s + 1 ≤ j ∧ j < cellOff t s + 9
      · rw [if_pos h2, if_pos h2]
      · rw [if_neg h2, if_neg h2, if_neg (by omega), if_neg (by omega)]

theorem readByte_becomeTablePtr (buf : List Nat) (t s idx j : Nat)
    (h : cellOff t s + cellSize ≤ buf.length) :
    readByte (becomeTablePtr buf t s idx) j =
      if j = cellOff t s then 2
      else if cellOff t s + 1 ≤ j ∧ j < cellOff t s + 9 then
        idx / 256^(j - (cellOff t s + 1)) % 256
      else if cellOff t s + 9 ≤ j ∧ j < cellOff t s + 17 then 0
      else readByte buf j :=
  readByte_becomeType buf t s 2 idx j h

theorem cellType_becomeStringPtr_self (buf : List Nat) (t s idx key : Nat)
    (h : cellOff t s + cellSize ≤ buf.length) :
    cellType (becomeStringPtr buf t s idx key) t s = 1 := by
  unfold cellType
  rw [readByte_becomeStringPtr _ _ _ _ _ _ h, if_pos rfl]

theorem cellIndex_becomeStringPtr_self (buf : List Nat) (t s idx key : Nat)
    (h : cellOff t s + cellSize ≤ buf.length) (hidx : idx < 2^64) :
    cellIndex (becomeStringPtr buf t s idx key) t s = idx := by
  unfold cellIndex
  have := readLE_eq_of_bytes (becomeStringPtr buf t s idx key) (cellOff t s + 1) 8 idx
    (fun i hi => by
      rw [readByte_becomeStringPtr _ _ _ _ _ _ h, if_neg (by omega),
        if_pos (by omega)]
      have hix : cellOff t s + 1 + i - (cellOff t s + 1) = i := by omega
      rw [hix])
  rw [this, two_pow_64_eq, Nat.mod_eq_of_lt hidx]

theorem cellKey_becomeStringPtr_self (buf : List Nat) (t s idx key : Nat)
    (h : cellOff t s + cellSize ≤ buf.length) (hkey : key < 2^64) :
    cellKey (becomeStringPtr buf t s idx key) t s = key := by
  unfold cellKey
  have := readLE_eq_of_bytes (becomeStringPtr buf t s idx key) (cellOff t s + 9) 8 key
    (fun i hi => by
      rw [readByte_becomeStringPtr _ _ _ _ _ _ h, if_neg (by omega),
        if_neg (by omega), if_pos (by omega)]
      have hix : cellOff t s + 9 + i - (cellOff t s + 9) = i := by omega
      rw [hix])
  rw [this, two_pow_64_eq, Nat.mod_eq_of_lt hkey]

theorem cellType_becomeTablePtr_self (buf : List Nat) (t s idx : Nat)
    (h : cellOff t s + cellSize ≤ buf.length) :
    cellType (becomeTablePtr buf t s idx) t s = 2 := by
  unfold cellType
  rw [readByte_becomeTablePtr _ _ _ _ _ h, if_pos rfl]

theorem cellIndex_becomeTablePtr_self (buf : List Nat) (t s idx : Nat)
    (h : cellOff t s + cellSize ≤ buf.length) (hidx : idx < 2^64) :
    cellIndex (becomeTablePtr buf t s idx) t s = idx := by
  unfold cellIndex
  have := readLE_eq_of_bytes (becomeTablePtr buf t s idx) (cellOff t s + 1) 8 idx
    (fun i hi => by
      rw [readByte_becomeTablePtr _ _ _ _ _ h, if_neg (by omega), if_pos (by omega)]
      have hix : cellOff t s + 1 + i - (cellOff t s + 1) = i := by omega
      rw [hix])
  rw [this, two_pow_64_eq, Nat.mod_eq_of_lt hidx]

theorem cellKey_becomeTablePtr_self (buf : List Nat) (t s idx : Nat)
    (h : cellOff t s + cellSize ≤ buf.length) :
    cellKey (becomeTablePtr buf t s idx) t s = 0 := by
  unfold cellKey
  refine readLE_eq_zero _ _ _ (fun i hi => ?_)
  rw [readByte_becomeTablePtr _ _ _ _ _ h, if_neg (by omega), if_neg (by omega),
    if_pos (by omega)]

/-- A `become_*` mutation leaves every byte outside its 17-byte cell
range unchanged. -/
theorem readByte_becomeStringPtr_frame (buf : List Nat) (t s idx key j : Nat)
    (h : cellOff t s + cellSize ≤ buf.length)
    (hj : j < cellOff t s ∨ cellOff t s + cellSize ≤ j) :
    readByte (becomeStringPtr buf t s idx key) j = readByte buf j := by
  have hc : cellSize = 17 := rfl
  rw [readByte_becomeStringPtr _ _ _ _ _ _ h, if_neg (by omega), if_neg (by omega),
    if_neg (by omega)]

theorem readByte_becomeTablePtr_frame (buf : List Nat) (t s idx j : Nat)
    (h : cellOff t s + cellSize ≤ buf.length)
    (hj : j < cellOff t s ∨ cellOff t s + cellSize ≤ j) :
    readByte (becomeTablePtr buf t s idx) j = readByte buf j := by
  have hc : cellSize = 17 := rfl
  rw [readByte_becomeTablePtr _ _ _ _ _ h, if_neg (by omega), if_neg (by omega),
    if_neg (by omega)]

/-! ## Appending a fresh table block -/

theorem length_appendTableBytes (B : Nat) (buf : List Nat) :
    (appendTableBytes B buf).length = buf.length + blockSize B := by
  unfold appendTableBytes
  rw [length_writeByte, length_writeLE, List.length_append, List.length_replicate]

theorem readByte_appendTableBytes (B : Nat) (buf : List Nat) (j : Nat) :
    readByte (appendTableBytes B buf) j =
      if j < buf.length then readByte buf j
      else if j = buf.length then 2
      else if j = buf.length + 8 then B
      else 0 := by
  unfold appendTableBytes
  have h16 := blockSize_pos B
  have hlen : buf.length + 4 ≤ (buf ++ List.replicate (blockSize B) 0).length := by
    rw [List.length_append, List.length_replicate]; omega
  by_cases h8 : j = buf.length + 8
  · rw [h8, readByte_writeByte_self _ _ _ (by
      rw [length_writeLE, List.length_append, List.length_replicate]; omega)]
    rw [if_neg (by omega), if_neg (by omega), if_pos rfl]
  · rw [readByte_writeByte_ne _ _ _ _ h8, readByte_writeLE _ _ _ _ _ hlen]
    by_cases hin : buf.length ≤ j ∧ j < buf.length + 4
    · rw [if_pos hin]
      by_cases h0 : j = buf.length
      · rw [if_neg (by omega), if_pos h0, h0]
        simp
      · rw [if_neg (by omega), if_neg h0, if_neg h8]
        have : 1 ≤ j - buf.length := by omega
        have h2 : (2 : Nat) / 256^(j - buf.length) = 0 := by
          apply Nat.div_eq_of_lt
          calc (2:Nat) < 256^1 := by norm_num
          _ ≤ 256^(j - buf.length) := Nat.pow_le_pow_right (by norm_num) this
        rw [h2]
    · rw [if_neg hin]
      by_cases hlt : j < buf.length
      · rw [if_pos hlt, readByte_append_left _ _ _ hlt]
      · rw [if_neg hlt, if_neg (by omega), if_neg h8]
        have hj : j = buf.length + (j - buf.length) := by omega
        rw [hj, readByte_append_right]
        exact readByte_replicate_zero _ _

theorem appendTableBytes_type (B : Nat) (buf : List Nat) :
    readLE (appendTableBytes B buf) buf.length 4 = 2 := by
  have := readLE_eq_of_bytes (appendTableBytes B buf) buf.length 4 2
    (fun i hi => by
      rw [readByte_appendTableBytes]
      interval_cases i <;> simp)
  rw [this]
  norm_num

theorem appendTableBytes_bits (B : Nat) (buf : List Nat) :
    Table.bits (appendTableBytes B buf) buf.length = B := by
  unfold Table.bits
  rw [readByte_appendTableBytes, if_neg (by omega), if_neg (by omega), if_pos rfl]

theorem appendTableBytes_cells (B : Nat) (buf : List Nat) (s : Nat) :
    cellType (appendTableBytes B buf) buf.length s = 0 ∧
    cellIndex (appendTableBytes B buf) buf.length s = 0 ∧
    cellKey (appendTableBytes B buf) buf.length s = 0 := by
  have hge := cellOff_ge buf.length s
  refine ⟨?_, ?_, ?_⟩
  · unfold cellType
    rw [readByte_appendTableBytes, if_neg (by omega), if_neg (by omega), if_neg (by omega)]
  · exact readLE_eq_zero _ _ _ (fun i hi => by
      rw [readByte_appendTableBytes, if_neg (by omega), if_neg (by omega), if_neg (by omega)])
  · exact readLE_eq_zero _ _ _ (fun i hi => by
      rw [readByte_appendTableBytes, if_neg (by omega), if_neg (by omega), if_neg (by omega)])

/-- Bytes below the old length are unchanged by the append. -/
theorem readByte_appendTableBytes_frame (B : Nat) (buf : List Nat) (j : Nat)
    (h : j < buf.length) :
    readByte (appendTableBytes B buf) j = readByte buf j := by
  rw [readByte_appendTableBytes, if_pos h]

/-! ## Table view arithmetic -/

theorem Table.index_eq (buf : List Nat) (t key : Nat) :
    Table.index buf t key = key % 2^(Table.bits buf t) := by
  unfold Table.index
  rw [Nat.shiftLeft_eq, one_mul, Nat.and_pow_two_sub_one_eq_mod]

theorem Table.nextKey_eq (buf : List Nat) (t key : Nat) :
    Table.nextKey buf t key = key / 2^(Table.bits buf t) :=
  Nat.shiftRight_eq_div_pow key (Table.bits buf t)

theorem Table.decrementBits_eq (buf : List Nat) (t r : Nat) :
    Table.decrementBits buf t r = r - Table.bits buf t := by
  unfold Table.decrementBits
  split <;> omega

/-! ## Splitting a key modulo `2^(c+B)` -/

theorem mod_pow_split (k c B : Nat) :
    k % 2^(c+B) = k % 2^c + (k / 2^c % 2^B) * 2^c := by
  rw [pow_add, Nat.mod_mul]
  ring

theorem mod_pow_split_iff (k c B p s : Nat) (hp : p < 2^c) (hs : s < 2^B) :
    k % 2^(c+B) = p + s * 2^c ↔ (k % 2^c = p ∧ k / 2^c % 2^B = s) := by
  constructor
  · intro h
    rw [mod_pow_split] at h
    have hk : k % 2^c < 2^c := Nat.mod_lt _ (by positivity)
    have h1 : k % 2^c = p := by
      have := congrArg (· % 2^c) h
      simpa [Nat.add_mul_mod_self_right, Nat.mod_eq_of_lt hk, Nat.mod_eq_of_lt hp] using this
    refine ⟨h1, ?_⟩
    rw [h1] at h
    have h2 : (k / 2^c % 2^B) * 2^c = s * 2^c := by omega
    exact Nat.eq_of_mul_eq_mul_right (by positivity) h2
  · rintro ⟨h1, h2⟩
    rw [mod_pow_split, h1, h2]

/-! ## String pool lemmas -/

theorem EntryAt.append (pool ext : List Nat) (i : Nat) (v : List Nat)
    (h : EntryAt pool i v) : EntryAt (pool ++ ext) i v := by
  obtain ⟨hlen, hbytes, hterm, h0⟩ := h
  refine ⟨by rw [List.length_append]; omega, fun j hj => ?_, ?_, h0⟩
  · rw [readByte_append_left _ _ _ (by omega)]
    exact hbytes j hj
  · rw [readByte_append_left _ _ _ (by omega)]
    exact hterm

theorem readCStringAux_spec (buf : List Nat) (v : List Nat) :
    ∀ off fuel, v.length < fuel → (0:Nat) ∉ v →
    (∀ j, j < v.length → readByte buf (off + j) = v.getD j 0) →
    readByte buf (off + v.length) = 0 →
    readCStringAux buf off fuel = v := by
  induction v with
  | nil =>
      intro off fuel hfuel _ _ hterm
      match fuel, hfuel with
      | f+1, _ =>
        rw [readCStringAux]
        simp only [List.length_nil, Nat.add_zero] at hterm
        simp [hterm]
  | cons b v' ih =>
      intro off fuel hfuel h0 hbytes hterm
      match fuel, hfuel with
      | f+1, hfuel =>
        rw [readCStringAux]
        have hb : readByte buf off = b := by
          have := hbytes 0 (by simp)
          simpa using this
        have hbne : b ≠ 0 := fun hb0 => h0 (by rw [hb0]; exact List.mem_cons_self _ _)
        rw [hb, if_neg hbne]
        congr 1
        refine ih (off + 1) f (by simpa using hfuel) (fun h => h0 (List.mem_cons_of_mem _ h))
          (fun j hj => ?_) ?_
        · have := hbytes (j + 1) (by simpa using Nat.succ_lt_succ hj)
          have harr : off + (j + 1) = off + 1 + j := by omega
          rw [harr] at this
          simpa using this
        · have := hterm
          have harr : off + (b :: v').length = off + 1 + v'.length := by
            simp; omega
          rwa [harr] at this

theorem readCString_of_EntryAt (pool : List Nat) (i : Nat) (v : List Nat)
    (h : EntryAt pool i v) : readCString pool i = v := by
  unfold readCString
  exact readCStringAux_spec pool v i (pool.length - i) (by have := h.1; omega) h.2.2.2
    h.2.1 h.2.2.1

theorem readCString_shift (pre pool : List Nat) (i : Nat) (v : List Nat)
    (h : EntryAt pool i v) : readCString (pre ++ pool) (pre.length + i) = v := by
  unfold readCString
  obtain ⟨hlen, hbytes, hterm, h0⟩ := h
  refine readCStringAux_spec _ v _ _ ?_ h0 (fun j hj => ?_) ?_
  · rw [List.length_append]; omega
  · have harr : pre.length + i + j = pre.length + (i + j) := by omega
    rw [harr, readByte_append_right]
    exact hbytes j hj
  · have harr : pre.length + i + v.length = pre.length + (i + v.length) := by omega
    rw [harr, readByte_append_right]
    exact hterm

theorem seenLookup_mem (seen : List (List Nat × Nat)) (s : List Nat) (i : Nat)
    (h : seenLookup seen s = some i) : (s, i) ∈ seen := by
  induction seen with
  | nil => simp [seenLookup] at h
  | cons p rest ih =>
      obtain ⟨k, j⟩ := p
      rw [seenLookup] at h
      by_cases hk : k = s
      · rw [if_pos hk] at h
        cases h
        rw [hk]
        exact List.mem_cons_self _ _
      · rw [if_neg hk] at h
        exact List.mem_cons_of_mem _ (ih h)

theorem Intern.add_spec (it : Intern) (s : List Nat) (h0 : (0:Nat) ∉ s)
    (hok : PoolOk it) :
    PoolOk (it.add s).1 ∧ EntryAt (it.add s).1.strings (it.add s).2 s ∧
    (∃ ext, (it.add s).1.strings = it.strings ++ ext) ∧
    (it.add s).1.strings.length ≤ it.strings.length + s.length + 1 ∧
    (it.add s).2 ≤ it.strings.length := by
  cases hsl : seenLookup it.seen s with
  | some i =>
      have hadd : it.add s = (it, i) := by
        rw [Intern.add, hsl]
      have hmem := seenLookup_mem _ _ _ hsl
      have hent := hok _ hmem
      rw [hadd]
      exact ⟨hok, hent, ⟨[], by simp⟩, by simp; omega,
        by have := hent.1; simp at this ⊢; omega⟩
  | none =>
      have hadd : it.add s =
          (⟨it.strings ++ s ++ [0], (s, it.strings.length) :: it.seen⟩,
            it.strings.length) := by
        rw [Intern.add, hsl]
      rw [hadd]
      have hent : EntryAt (it.strings ++ s ++ [0]) it.strings.length s := by
        refine ⟨?_, fun j hj => ?_, ?_, h0⟩
        · simp [List.length_append]
        · rw [List.append_assoc, readByte_append_right,
            readByte_append_left _ _ _ (by simpa using hj)]
          simp [readByte, List.getD_eq_getElem?_getD, List.getElem?_append, hj]
        · rw [List.append_assoc, readByte_append_right]
          have : readByte (s ++ [0]) s.length = readByte [0] 0 := by
            have := readByte_append_right s [0] 0
            simpa using this
          rw [this]
          rfl
      refine ⟨?_, hent, ⟨s ++ [0], by rw [List.append_assoc]⟩,
        by simp [List.length_append]; omega, le_refl _⟩
      intro p hp
      rcases List.mem_cons.mp hp with hp1 | hp2
      · rw [hp1]
        exact hent
      · rw [List.append_assoc]
        exact EntryAt.append _ _ _ _ (hok _ hp2)

/-! ## Claim theorems: concrete behaviours -/

/-- C3 counterexample: `Builder::new(2).build()` succeeds and yields the
24-byte empty-map buffer, but `Map::get(0)` on that buffer is a failed
assertion (`assert!(table_index > 0)`), not the absence the claim
promises. -/
theorem C3_empty_get_panics :
    (Builder.new 2).build = .ok emptyBuilt ∧
    Map.get emptyBuilt 0 = .error "assert table_index > 0" := by
  constructor
  · decide
  · rfl

/-- C3 amended: for every `bits ∈ [2,16]`, `Builder::new(bits).build()`
succeeds and produces a buffer whose `root_table_offset` is 0; for every
key, `Map::get` on that buffer fails the `assert!(table_index > 0)`
assertion (a fatal error), rather than returning absence. -/
theorem C3_empty_build (bits : Nat) (h2 : 2 ≤ bits) (h16 : bits ≤ 16) :
    (Builder.new bits).build = .ok emptyBuilt ∧
    readLE emptyBuilt 8 8 = 0 ∧
    ∀ key, Map.get emptyBuilt key = .error "assert table_index > 0" := by
  refine ⟨?_, by decide, fun key => rfl⟩
  calc (Builder.new bits).build = (Builder.new 2).build := rfl
    _ = .ok emptyBuilt := by decide

theorem C3_empty_build_witness :
    2 ≤ 2 ∧ 2 ≤ 16 ∧
    ((Builder.new 2).build = .ok emptyBuilt ∧
      readLE emptyBuilt 8 8 = 0 ∧
      ∀ key, Map.get emptyBuilt key = .error "assert table_index > 0") :=
  ⟨by decide, by decide, C3_empty_build 2 (by decide) (by decide)⟩

/-- C4 counterexample: with no inserts, `build()` still sets
`string_offset`; the returned buffer has `string_offset = 24`, not the
zero-initialized header the claim describes. -/
theorem C4_empty_build_sets_string_offset :
    (Builder.new 2).build = .ok emptyBuilt ∧
    readLE emptyBuilt 16 8 = 24 ∧ emptyBuilt ≠ reserveHeader := by
  refine ⟨by decide, by decide, by decide⟩

/-- C4 amended: `build()` unconditionally sets the root header's
`string_offset` to the index-region length (also when nothing was
inserted): the empty build is the 24-byte root header with
`string_offset = 24` and no string payload, and on any well-formed builder
state the built buffer records the index length in `string_offset`. -/
theorem C4_build_string_offset (bits : Nat) (h2 : 2 ≤ bits) (h16 : bits ≤ 16) :
    ((Builder.new bits).build = .ok emptyBuilt ∧
      readLE emptyBuilt 16 8 = rootSize ∧ emptyBuilt.length = rootSize) ∧
    (∀ b : Builder, rootSize ≤ b.index.length → readLE b.index 0 4 = 1 →
      b.index.length < 2^64 →
      b.build = .ok (writeLE b.index 16 8 b.index.length ++ b.strings.strings) ∧
      readLE (writeLE b.index 16 8 b.index.length ++ b.strings.strings) 16 8 =
        b.index.length) := by
  constructor
  · refine ⟨?_, by decide, by decide⟩
    calc (Builder.new bits).build = (Builder.new 2).build := rfl
      _ = .ok emptyBuilt := by decide
  · intro b hlen htype hsmall
    have hrs : rootSize = 24 := rfl
    constructor
    · unfold Builder.build
      rw [if_pos ⟨hlen, htype⟩]
    · have hwl : 16 + 8 ≤ (writeLE b.index 16 8 b.index.length).length := by
        rw [length_writeLE]; omega
      have hcongr : readLE (writeLE b.index 16 8 b.index.length ++ b.strings.strings) 16 8 =
          readLE (writeLE b.index 16 8 b.index.length) 16 8 := by
        refine readLE_congr _ _ _ _ (fun i hi => ?_)
        exact readByte_append_left _ _ _ (by rw [length_writeLE]; omega)
      rw [hcongr, readLE_writeLE_self _ _ _ _ (by omega), two_pow_64_eq,
        Nat.mod_eq_of_lt hsmall]

theorem C4_build_string_offset_witness :
    2 ≤ 2 ∧ 2 ≤ 16 ∧
    (((Builder.new 2).build = .ok emptyBuilt ∧
      readLE emptyBuilt 16 8 = rootSize ∧ emptyBuilt.length = rootSize) ∧
    (∀ b : Builder, rootSize ≤ b.index.length → readLE b.index 0 4 = 1 →
      b.index.length < 2^64 →
      b.build = .ok (writeLE b.index 16 8 b.index.length ++ b.strings.strings) ∧
      readLE (writeLE b.index 16 8 b.index.length ++ b.strings.strings) 16 8 =
        b.index.length)) :=
  ⟨by decide, by decide, C4_build_string_offset 2 (by decide) (by decide)⟩

/-- C5 counterexample: the concrete run produces the 122-byte buffer of the
crate's `tests::basic`, which is not the spec's reference literal — that
literal transcribes to only 119 bytes (three `00` bytes are missing). -/
theorem C5_spec_literal_differs :
    buildRun 2 [(42, [72, 101, 108, 108, 111, 33]), (84, [87, 111, 114, 108, 100, 33])] =
      .ok referenceBuffer ∧
    referenceBuffer ≠ specLiteral ∧
    specLiteral.length = 119 ∧ referenceBuffer.length = 122 := by
  refine ⟨by decide, by decide, by decide, by decide⟩

/-- C5 amended: `Builder::new(2); insert(42, "Hello!"); insert(84,
"World!"); build()` returns exactly the 122-byte sequence of the crate's
test vector (root header, one table block of four cells, then the payload
"Hello!\x00World!\x00"); the spec's hex rendering of this buffer drops
three zero bytes. -/
theorem C5_reference_run :
    buildRun 2 [(42, [72, 101, 108, 108, 111, 33]), (84, [87, 111, 114, 108, 100, 33])] =
      .ok referenceBuffer := by
  decide

/-- C6 counterexample: after `insert(1, "Hello!"); insert(2, "lo!");
insert(3, "lo!")` (several distinct keys sharing the value "lo!"), the
string payload region of the built buffer contains the byte sequence
"lo!\x00" twice (once as the interned entry, once inside "Hello!\x00"),
not exactly once. -/
theorem C6_payload_occurrence_twice :
    (buildRun 2 [(1, [72, 101, 108, 108, 111, 33]), (2, [108, 111, 33]),
        (3, [108, 111, 33])]).map
      (fun out => occurrences [108, 111, 33, 0] (out.drop (readLE out 16 8))) =
      .ok 2 := by
  decide

/-- C10: `Map::get` agrees with `Map::get_cstr` on every buffer and key:
a hit is returned exactly when `get_cstr` hits and the bytes pass the
UTF-8 conversion check, a miss is returned exactly when `get_cstr`
misses, and `get_cstr` errors propagate unchanged. -/
theorem C10_get_agrees_with_get_cstr (rep : List Nat) (key : Nat) :
    (∀ s, Map.get rep key = .ok (some s) ↔
        Map.get_cstr rep key = .ok (some s) ∧ validUTF8 s = true) ∧
    (Map.get rep key = .ok none ↔ Map.get_cstr rep key = .ok none) ∧
    (∀ e, Map.get_cstr rep key = .error e → Map.get rep key = .error e) := by
  have hg : Map.get rep key =
      (match Map.get_cstr rep key with
       | .ok (some s) => if validUTF8 s then .ok (some s) else .error "UTF-8 encoding"
       | .ok none => .ok none
       | .error e => .error e) := rfl
  cases h : Map.get_cstr rep key with
  | error e =>
      rw [h] at hg
      simp only at hg
      rw [hg]
      simp
  | ok o =>
      cases o with
      | none =>
          rw [h] at hg
          simp only at hg
          rw [hg]
          simp
      | some s0 =>
          rw [h] at hg
          simp only at hg
          by_cases hv : validUTF8 s0 = true
          · rw [if_pos hv] at hg
            rw [hg]
            refine ⟨fun s => ?_, by simp, by simp⟩
            constructor
            · intro h1
              simp only [Except.ok.injEq, Option.some.injEq] at h1
              subst h1
              exact ⟨rfl, hv⟩
            · intro h1
              exact h1.1
          · rw [if_neg hv] at hg
            rw [hg]
            refine ⟨fun s => ?_, by simp, by simp⟩
            constructor
            · intro h1
              cases h1
            · intro h1
              obtain ⟨h1, h2⟩ := h1
              simp only [Except.ok.injEq, Option.some.injEq] at h1
              subst h1
              exact absurd h2 hv

/-! ## Intern deduplication (C6) -/

theorem poolOf_append (es1 es2 : List (List Nat)) :
    poolOf (es1 ++ es2) = poolOf es1 ++ poolOf es2 := by
  induction es1 with
  | nil => simp [poolOf]
  | cons v rest ih => simp [poolOf, ih]

theorem addAll_matches : ∀ (vs : List (List Nat)) (it : Intern) (es : List (List Nat)),
    SeenMatches it es → SeenMatches (it.addAll vs) (dedupExtend es vs) := by
  intro vs
  induction vs with
  | nil => intro it es h; exact h
  | cons v rest ih =>
      intro it es h
      obtain ⟨hstr, hseen⟩ := h
      have hstep : SeenMatches (it.add v).1 (if v ∈ es then es else es ++ [v]) := by
        by_cases hv : v ∈ es
        · rw [if_pos hv]
          have : (seenLookup it.seen v).isSome := (hseen v).mpr hv
          cases hsl : seenLookup it.seen v with
          | none => rw [hsl] at this; cases this
          | some i =>
              have : it.add v = (it, i) := by rw [Intern.add, hsl]
              rw [this]
              exact ⟨hstr, hseen⟩
        · rw [if_neg hv]
          have hnone : seenLookup it.seen v = none := by
            cases hsl : seenLookup it.seen v with
            | none => rfl
            | some i =>
                exact absurd ((hseen v).mp (by rw [hsl]; rfl)) hv
          have : it.add v = (⟨it.strings ++ v ++ [0], (v, it.strings.length) :: it.seen⟩,
              it.strings.length) := by rw [Intern.add, hnone]
          rw [this]
          refine ⟨?_, fun s => ?_⟩
          · rw [hstr, poolOf_append, List.append_assoc]
            rfl
          · show (if v = s then some it.strings.length else seenLookup it.seen s).isSome ↔ _
            by_cases hvs : v = s
            · simp [hvs]
            · rw [if_neg hvs]
              rw [hseen s]
              constructor
              · intro hh; exact List.mem_append_left _ hh
              · intro hh
                rcases List.mem_append.mp hh with hh1 | hh2
                · exact hh1
                · exact absurd (List.mem_singleton.mp hh2).symm hvs
      show SeenMatches (Intern.addAll (it.add v).1 rest) _
      have hde : dedupExtend es (v :: rest) =
          dedupExtend (if v ∈ es then es else es ++ [v]) rest := by
        unfold dedupExtend
        rfl
      rw [hde]
      exact ih _ _ hstep

theorem subset_dedupExtend : ∀ (vs es : List (List Nat)) (x : List Nat),
    x ∈ es → x ∈ dedupExtend es vs := by
  intro vs
  induction vs with
  | nil => intro es x h; exact h
  | cons v rest ih =>
      intro es x h
      show x ∈ dedupExtend (if v ∈ es then es else es ++ [v]) rest
      apply ih
      by_cases hv : v ∈ es
      · rw [if_pos hv]; exact h
      · rw [if_neg hv]; exact List.mem_append_left _ h

theorem mem_dedupExtend : ∀ (vs es : List (List Nat)) (v : List Nat),
    v ∈ vs → v ∈ dedupExtend es vs := by
  intro vs
  induction vs with
  | nil => intro es v h; cases h
  | cons w rest ih =>
      intro es v h
      show v ∈ dedupExtend (if w ∈ es then es else es ++ [w]) rest
      rcases List.mem_cons.mp h with h1 | h2
      · apply subset_dedupExtend
        by_cases hw : w ∈ es
        · rw [if_pos hw, h1]; exact hw
        · rw [if_neg hw, h1]; exact List.mem_append_right _ (List.mem_singleton_self _)
      · exact ih _ _ h2

theorem countVal_eq_zero_of_not_mem (v : List Nat) :
    ∀ l : List (List Nat), v ∉ l → countVal v l = 0 := by
  intro l
  induction l with
  | nil => intro _; rfl
  | cons x r ihr =>
      intro hnot
      rw [countVal, if_neg (fun hx => hnot (by rw [hx]; exact List.mem_cons_self _ _)),
        ihr (fun hr => hnot (List.mem_cons_of_mem _ hr))]

theorem countVal_eq_one_of_nodup_mem (v : List Nat) :
    ∀ l : List (List Nat), l.Nodup → v ∈ l → countVal v l = 1 := by
  intro l
  induction l with
  | nil => intro _ h; cases h
  | cons w rest ih =>
      intro hnd hmem
      rw [List.nodup_cons] at hnd
      rw [countVal]
      rcases List.mem_cons.mp hmem with h1 | h2
      · rw [if_pos h1.symm]
        have hnot : v ∉ rest := by rw [h1]; exact hnd.1
        rw [countVal_eq_zero_of_not_mem v rest hnot]
      · have hne : w ≠ v := fun hw => hnd.1 (by rw [hw]; exact h2)
        rw [if_neg hne, ih hnd.2 h2]

theorem dedupExtend_nodup : ∀ (vs es : List (List Nat)),
    es.Nodup → (dedupExtend es vs).Nodup := by
  intro vs
  induction vs with
  | nil => intro es h; exact h
  | cons v rest ih =>
      intro es h
      show (dedupExtend (if v ∈ es then es else es ++ [v]) rest).Nodup
      apply ih
      by_cases hv : v ∈ es
      · rw [if_pos hv]; exact h
      · rw [if_neg hv]
        rw [List.nodup_append]
        exact ⟨h, List.nodup_singleton _, fun x hx hx2 => by
          rw [List.mem_singleton.mp hx2] at hx
          exact hv hx⟩

/-- C6 amended: `Intern::add` returns the previously recorded offset for a
seen string (leaving the pool untouched), appends `s ++ [0]` and returns
its start offset for a fresh string, and only ever extends the pool (so
offsets never shift); consequently the pool is the concatenation of one
NUL-terminated entry per distinct value in order of first insertion, so
each value occurs exactly once as an entry (as a raw byte substring it may
additionally occur inside another entry, see the counterexample).  The
string payload of a built buffer is exactly the intern pool. -/
theorem C6_intern_dedup :
    (∀ vs : List (List Nat),
      (Intern.new.addAll vs).strings = poolOf (dedupFirst vs) ∧
      (dedupFirst vs).Nodup ∧
      ∀ v ∈ vs, countVal v (dedupFirst vs) = 1) ∧
    (∀ (it : Intern) (s : List Nat) (i : Nat),
      seenLookup it.seen s = some i → it.add s = (it, i)) ∧
    (∀ (it : Intern) (s : List Nat),
      seenLookup it.seen s = none →
      it.add s = (⟨it.strings ++ s ++ [0], (s, it.strings.length) :: it.seen⟩,
        it.strings.length)) ∧
    (∀ (it : Intern) (s : List Nat), ∃ ext, (it.add s).1.strings = it.strings ++ ext) ∧
    (∀ (b : Builder) (out : List Nat), b.build = .ok out →
      out.drop b.index.length = b.strings.strings) := by
  refine ⟨fun vs => ?_, fun it s i h => by rw [Intern.add, h],
    fun it s h => by rw [Intern.add, h], fun it s => ?_, fun b out h => ?_⟩
  · have hm := addAll_matches vs Intern.new []
      ⟨rfl, fun s => by simp [seenLookup, Intern.new]⟩
    have hnd := dedupExtend_nodup vs [] (List.nodup_nil)
    exact ⟨hm.1, hnd, fun v hv =>
      countVal_eq_one_of_nodup_mem v _ hnd (mem_dedupExtend vs [] v hv)⟩
  · cases hsl : seenLookup it.seen s with
    | some i =>
        have : it.add s = (it, i) := by rw [Intern.add, hsl]
        exact ⟨[], by rw [this]; simp⟩
    | none =>
        have : it.add s = (⟨it.strings ++ s ++ [0], (s, it.strings.length) :: it.seen⟩,
            it.strings.length) := by rw [Intern.add, hsl]
        exact ⟨s ++ [0], by rw [this, List.append_assoc]⟩
  · unfold Builder.build at h
    by_cases hc : rootSize ≤ b.index.length ∧ readLE b.index 0 4 = 1
    · rw [if_pos hc] at h
      cases h
      have hdrop := List.drop_left (writeLE b.index 16 8 b.index.length) b.strings.strings
      rw [length_writeLE] at hdrop
      exact hdrop
    · rw [if_neg hc] at h
      cases h

theorem C6_intern_dedup_witness :
    seenLookup (⟨[7, 0], [([7], 0)]⟩ : Intern).seen [7] = some 0 ∧
    (⟨[7, 0], [([7], 0)]⟩ : Intern).add [7] = (⟨[7, 0], [([7], 0)]⟩, 0) :=
  ⟨by decide, C6_intern_dedup.2.1 ⟨[7, 0], [([7], 0)]⟩ [7] 0 (by decide)⟩

/-! ## Invariant machinery -/

theorem CellOk_cases (buf pool : List Nat) (B : Nat) (A : Nat → Option (Nat × Nat))
    (t c p s : Nat) (h : CellOk buf pool B A t c p s) :
    cellType buf t s = 0 ∨ cellType buf t s = 1 ∨ cellType buf t s = 2 := by
  unfold CellOk at h
  by_cases h0 : cellType buf t s = 0
  · exact Or.inl h0
  by_cases h1 : cellType buf t s = 1
  · exact Or.inr (Or.inl h1)
  by_cases h2 : cellType buf t s = 2
  · exact Or.inr (Or.inr h2)
  rw [if_neg h0, if_neg h1, if_neg h2] at h
  cases h

theorem CellOk_empty (buf pool : List Nat) (B : Nat) (A : Nat → Option (Nat × Nat))
    (t c p s : Nat) (h : CellOk buf pool B A t c p s) (h0 : cellType buf t s = 0) :
    cellIndex buf t s = 0 ∧ cellKey buf t s = 0 := by
  unfold CellOk at h
  rwa [if_pos h0] at h

theorem CellOk_str (buf pool : List Nat) (B : Nat) (A : Nat → Option (Nat × Nat))
    (t c p s : Nat) (h : CellOk buf pool B A t c p s) (h1 : cellType buf t s = 1) :
    cellKey buf t s < 2^64 ∧ cellKey buf t s % 2^(c+B) = p + s * 2^c ∧
    ∃ v, EntryAt pool (cellIndex buf t s) v := by
  unfold CellOk at h
  rwa [if_neg (by omega), if_pos h1] at h

theorem CellOk_tbl (buf pool : List Nat) (B : Nat) (A : Nat → Option (Nat × Nat))
    (t c p s : Nat) (h : CellOk buf pool B A t c p s) (h2 : cellType buf t s = 2) :
    cellKey buf t s = 0 ∧ A (cellIndex buf t s) = some (c + B, p + s * 2^c) := by
  unfold CellOk at h
  rwa [if_neg (by omega), if_neg (by omega), if_pos h2] at h

theorem CellOk_mk_empty (buf pool : List Nat) (B : Nat) (A : Nat → Option (Nat × Nat))
    (t c p s : Nat) (h0 : cellType buf t s = 0) (hi : cellIndex buf t s = 0)
    (hk : cellKey buf t s = 0) : CellOk buf pool B A t c p s := by
  unfold CellOk
  rw [if_pos h0]
  exact ⟨hi, hk⟩

theorem CellOk_mk_str (buf pool : List Nat) (B : Nat) (A : Nat → Option (Nat × Nat))
    (t c p s : Nat) (h1 : cellType buf t s = 1) (hlt : cellKey buf t s < 2^64)
    (hcong : cellKey buf t s % 2^(c+B) = p + s * 2^c)
    (hent : ∃ v, EntryAt pool (cellIndex buf t s) v) : CellOk buf pool B A t c p s := by
  unfold CellOk
  rw [if_neg (by omega), if_pos h1]
  exact ⟨hlt, hcong, hent⟩

theorem CellOk_mk_tbl (buf pool : List Nat) (B : Nat) (A : Nat → Option (Nat × Nat))
    (t c p s : Nat) (h2 : cellType buf t s = 2) (hk : cellKey buf t s = 0)
    (hA : A (cellIndex buf t s) = some (c + B, p + s * 2^c)) :
    CellOk buf pool B A t c p s := by
  unfold CellOk
  rw [if_neg (by omega), if_neg (by omega), if_pos h2]
  exact ⟨hk, hA⟩

/-- All three fields of a cell agree between two buffers whose bytes agree
on the cell's 17-byte range. -/
theorem cellReads_congr (buf1 buf2 : List Nat) (t s : Nat)
    (h : ∀ j, cellOff t s ≤ j → j < cellOff t s + cellSize → readByte buf1 j = readByte buf2 j) :
    cellType buf1 t s = cellType buf2 t s ∧ cellIndex buf1 t s = cellIndex buf2 t s ∧
    cellKey buf1 t s = cellKey buf2 t s := by
  have hc : cellSize = 17 := rfl
  refine ⟨h _ (le_refl _) (by omega), ?_, ?_⟩
  · exact readLE_congr _ _ _ _ (fun i hi => h _ (by omega) (by omega))
  · exact readLE_congr _ _ _ _ (fun i hi => h _ (by omega) (by omega))

/-- Transfer `TableOk` to a buffer whose bytes agree on the table's block,
a possibly extended pool, and a possibly extended ghost assignment. -/
theorem TableOk_of_readsEq (buf buf2 pool pool2 : List Nat) (B : Nat)
    (A A2 : Nat → Option (Nat × Nat)) (t c p : Nat)
    (h : TableOk buf pool B A t c p)
    (heq : ∀ j, t ≤ j → j < t + blockSize B → readByte buf2 j = readByte buf j)
    (hlen2 : t + blockSize B ≤ buf2.length)
    (hA : ∀ t0 x, A t0 = some x → A2 t0 = some x)
    (hpool : ∃ ext, pool2 = pool ++ ext) :
    TableOk buf2 pool2 B A2 t c p := by
  obtain ⟨halign, hbound, hh, hb, hc, hp, hcells⟩ := h
  have hth : tableHeaderSize = 16 := rfl
  have h16 := blockSize_pos B
  refine ⟨halign, hlen2, ?_, ?_, hc, hp, fun s hs => ?_⟩
  · rw [← hh]
    exact readLE_congr _ _ _ _ (fun i hi => heq _ (by omega) (by omega))
  · unfold Table.bits
    rw [← hb]
    exact heq _ (by omega) (by omega)
  · have hcell := hcells s hs
    have hco := cellOff_bounds B t s hs
    have hcg := cellOff_ge t s
    have hreads := cellReads_congr buf2 buf t s (fun j hj1 hj2 => heq _ (by omega) (by omega))
    obtain ⟨hty, hix, hky⟩ := hreads
    rcases CellOk_cases _ _ _ _ _ _ _ _ hcell with h0 | h1 | h2
    · obtain ⟨hi, hk⟩ := CellOk_empty _ _ _ _ _ _ _ _ hcell h0
      exact CellOk_mk_empty _ _ _ _ _ _ _ _ (by rw [hty, h0]) (by rw [hix, hi])
        (by rw [hky, hk])
    · obtain ⟨hlt, hcong, v, hent⟩ := CellOk_str _ _ _ _ _ _ _ _ hcell h1
      obtain ⟨ext, hext⟩ := hpool
      exact CellOk_mk_str _ _ _ _ _ _ _ _ (by rw [hty, h1]) (by rw [hky]; exact hlt)
        (by rw [hky]; exact hcong)
        ⟨v, by rw [hix, hext]; exact EntryAt.append _ _ _ _ hent⟩
    · obtain ⟨hk, hA0⟩ := CellOk_tbl _ _ _ _ _ _ _ _ hcell h2
      exact CellOk_mk_tbl _ _ _ _ _ _ _ _ (by rw [hty, h2]) (by rw [hky, hk])
        (by rw [hix]; exact hA _ _ hA0)

/-- Byte ranges of distinct cells (possibly in distinct aligned tables)
are disjoint. -/
theorem cell_disjoint (B t s t0 s0 : Nat) (ht : Aligned B t) (ht0 : Aligned B t0)
    (hs : s < 2^B) (hs0 : s0 < 2^B) (hne : ¬(t = t0 ∧ s = s0)) :
    cellOff t0 s0 + cellSize ≤ cellOff t s ∨ cellOff t s + cellSize ≤ cellOff t0 s0 := by
  by_cases htt : t = t0
  · subst htt
    have hss : s ≠ s0 := fun h => hne ⟨rfl, h⟩
    rcases Nat.lt_or_ge s s0 with h | h
    · exact Or.inr (cellOff_disjoint t s s0 h)
    · exact Or.inl (cellOff_disjoint t s0 s (by omega))
  · have hb := cellOff_bounds B t s hs
    have hb0 := cellOff_bounds B t0 s0 hs0
    have hg := cellOff_ge t s
    have hg0 := cellOff_ge t0 s0
    rcases aligned_disjoint B t t0 ht ht0 htt with h | h
    · exact Or.inr (by omega)
    · exact Or.inl (by omega)

/-- Transfer a single cell's well-formedness across agreeing bytes,
extended pool and extended assignment. -/
theorem CellOk_transfer (buf buf2 pool pool2 : List Nat) (B : Nat)
    (A A2 : Nat → Option (Nat × Nat)) (t c p s : Nat)
    (hcell : CellOk buf pool B A t c p s)
    (heq : ∀ j, cellOff t s ≤ j → j < cellOff t s + cellSize →
      readByte buf2 j = readByte buf j)
    (hA : ∀ t0 x, A t0 = some x → A2 t0 = some x)
    (hpool : ∃ ext, pool2 = pool ++ ext) :
    CellOk buf2 pool2 B A2 t c p s := by
  obtain ⟨hty, hix, hky⟩ := cellReads_congr buf2 buf t s heq
  rcases CellOk_cases _ _ _ _ _ _ _ _ hcell with h0 | h1 | h2
  · obtain ⟨hi, hk⟩ := CellOk_empty _ _ _ _ _ _ _ _ hcell h0
    exact CellOk_mk_empty _ _ _ _ _ _ _ _ (by rw [hty, h0]) (by rw [hix, hi])
      (by rw [hky, hk])
  · obtain ⟨hlt, hcong, v, hent⟩ := CellOk_str _ _ _ _ _ _ _ _ hcell h1
    obtain ⟨ext, hext⟩ := hpool
    exact CellOk_mk_str _ _ _ _ _ _ _ _ (by rw [hty, h1]) (by rw [hky]; exact hlt)
      (by rw [hky]; exact hcong)
      ⟨v, by rw [hix, hext]; exact EntryAt.append _ _ _ _ hent⟩
  · obtain ⟨hk, hA0⟩ := CellOk_tbl _ _ _ _ _ _ _ _ hcell h2
    exact CellOk_mk_tbl _ _ _ _ _ _ _ _ (by rw [hty, h2]) (by rw [hky, hk])
      (by rw [hix]; exact hA _ _ hA0)

theorem FlatInv_rootSize_le (buf pool : List Nat) (B : Nat)
    (A : Nat → Option (Nat × Nat)) (h : FlatInv buf pool B A) :
    rootSize ≤ buf.length := by
  obtain ⟨n, hn⟩ := h.hlen
  rw [hn]
  omega

/-- Overwriting one cell with a `StringPtr` (key stored in full, index
pointing at a pool entry) preserves the buffer invariant.  The mutated
buffer is abstracted by its read behaviour to keep elaboration cheap. -/
theorem FlatInv_place (buf buf2 pool pool2 : List Nat) (B : Nat)
    (A : Nat → Option (Nat × Nat)) (t c p s si key : Nat)
    (hinv : FlatInv buf pool B A)
    (hA : A t = some (c, p))
    (hs : s < 2^B)
    (hkey : key < 2^64)
    (hcong : key % 2^(c+B) = p + s * 2^c)
    (hpool : ∃ ext, pool2 = pool ++ ext)
    (hent : ∃ v, EntryAt pool2 si v)
    (hlen2 : buf2.length = buf.length)
    (hframe : ∀ j, (j < cellOff t s ∨ cellOff t s + cellSize ≤ j) →
      readByte buf2 j = readByte buf j)
    (hty : cellType buf2 t s = 1)
    (hix : cellIndex buf2 t s = si)
    (hky : cellKey buf2 t s = key) :
    FlatInv buf2 pool2 B A := by
  obtain ⟨halign, hbound, hh, hb, hc, hp, hcells⟩ := hinv.htab t c p hA
  have hco : cellOff t s + cellSize ≤ buf.length :=
    le_trans (cellOff_bounds B t s hs) hbound
  have hcg := cellOff_ge t s
  have ht24 : 24 ≤ t := by obtain ⟨j0, hj0⟩ := halign; unfold rootSize at hj0; omega
  have hth : tableHeaderSize = 16 := rfl
  refine ⟨?_, ?_, ?_, ?_, fun t0 c0 p0 hA0 => ?_⟩
  · rw [hlen2]; exact hinv.hlen
  · rw [← hinv.hroot1]
    exact readLE_congr _ _ _ _ (fun i hi => hframe (0 + i) (by omega))
  · intro t0 ha0 hl0
    rw [hlen2] at hl0
    exact hinv.hfull t0 ha0 hl0
  · intro t0 x hx
    have := hinv.hdom t0 x hx
    rw [hlen2]
    exact this
  · have htab0 := hinv.htab t0 c0 p0 hA0
    by_cases htt : t0 = t
    · subst htt
      have hcc : (c0, p0) = (c, p) := by rw [hA0] at hA; cases hA; rfl
      cases hcc
      refine ⟨htab0.1, by rw [hlen2]; exact htab0.2.1, ?_, ?_, hc, hp,
        fun s0 hs0 => ?_⟩
      · rw [← hh]
        exact readLE_congr _ _ _ _ (fun i hi => hframe (t0 + i) (by omega))
      · have hbits := hframe (t0 + 8) (by omega)
        unfold Table.bits
        rw [hbits]
        exact hb
      · by_cases hss : s0 = s
        · subst hss
          exact CellOk_mk_str _ _ _ _ _ _ _ _ hty (by rw [hky]; exact hkey)
            (by rw [hky]; exact hcong) (by rw [hix]; exact hent)
        · refine CellOk_transfer buf buf2 pool pool2 B A A t0 c p s0 (hcells s0 hs0)
            (fun j hj1 hj2 => ?_) (fun _ _ hx => hx) hpool
          rcases cell_disjoint B t0 s t0 s0 halign halign hs hs0
            (fun hx => hss hx.2.symm) with hd | hd
          · exact hframe j (by omega)
          · exact hframe j (by omega)
    · have hcb := cellOff_bounds B t s hs
      refine TableOk_of_readsEq buf buf2 pool pool2 B A A t0 c0 p0 htab0
        (fun j hj1 hj2 => ?_) (by rw [hlen2]; exact htab0.2.1)
        (fun _ _ hx => hx) hpool
      rcases aligned_disjoint B t t0 halign htab0.1 (fun hx => htt hx.symm) with hd | hd
      · exact hframe j (by omega)
      · exact hframe j (by omega)

theorem path_lt (c B p s : Nat) (hp : p < 2^c) (hs : s < 2^B) :
    p + s * 2^c < 2^(c+B) := by
  have h2 : (s + 1) * 2^c ≤ 2^B * 2^c := Nat.mul_le_mul_right _ hs
  rw [Nat.add_mul, one_mul] at h2
  have h3 : (2:Nat)^B * 2^c = 2^c * 2^B := Nat.mul_comm _ _
  rw [pow_add]
  omega

/-- Splitting a collision: the colliding cell becomes a `TablePtr` to a
freshly appended table `T` that holds the old string at its next-level
slot.  The ghost assignment gains `T` at one level deeper.  The mutated
buffer is abstracted by its read behaviour. -/
theorem FlatInv_split (buf buf2 pool : List Nat) (B : Nat)
    (A : Nat → Option (Nat × Nat)) (t c p s si sk T s2 : Nat)
    (hinv : FlatInv buf pool B A)
    (hA : A t = some (c, p))
    (hs : s < 2^B)
    (hold_ty : cellType buf t s = 1)
    (hold_ix : cellIndex buf t s = si)
    (hold_ky : cellKey buf t s = sk)
    (hT : T = buf.length)
    (hcB : c + B < 64)
    (hs2 : s2 = sk / 2^(c+B) % 2^B)
    (hlen2 : buf2.length = buf.length + blockSize B)
    (hframe : ∀ j, j < buf.length → (j < cellOff t s ∨ cellOff t s + cellSize ≤ j) →
      readByte buf2 j = readByte buf j)
    (hty : cellType buf2 t s = 2)
    (hix : cellIndex buf2 t s = T)
    (hky : cellKey buf2 t s = 0)
    (hhdr : readLE buf2 T 4 = 2)
    (hbits : Table.bits buf2 T = B)
    (htyn : cellType buf2 T s2 = 1)
    (hixn : cellIndex buf2 T s2 = si)
    (hkyn : cellKey buf2 T s2 = sk)
    (hcells0 : ∀ s0, s0 < 2^B → s0 ≠ s2 →
      cellType buf2 T s0 = 0 ∧ cellIndex buf2 T s0 = 0 ∧ cellKey buf2 T s0 = 0) :
    FlatInv buf2 pool B (fun x => if x = T then some (c + B, p + s * 2^c) else A x) := by
  obtain ⟨halign, hbound, hh, hb, hc, hp, hcells⟩ := hinv.htab t c p hA
  obtain ⟨hsk64, hskcong, hentv⟩ := CellOk_str _ _ _ _ _ _ _ _ (hcells s hs) hold_ty
  rw [hold_ky] at hsk64 hskcong
  rw [hold_ix] at hentv
  have hco : cellOff t s + cellSize ≤ buf.length :=
    le_trans (cellOff_bounds B t s hs) hbound
  have hcg := cellOff_ge t s
  have ht24 : 24 ≤ t := by obtain ⟨j0, hj0⟩ := halign; unfold rootSize at hj0; omega
  have hth : tableHeaderSize = 16 := rfl
  have h16 := blockSize_pos B
  have hAT : A T = none := by
    cases hAT : A T with
    | none => rfl
    | some x =>
        have := (hinv.hdom T x hAT).2
        omega
  have hext : ∀ t0 x, A t0 = some x →
      (fun x => if x = T then some (c + B, p + s * 2^c) else A x) t0 = some x := by
    intro t0 x hx
    by_cases htT : t0 = T
    · rw [htT] at hx
      rw [hAT] at hx
      cases hx
    · simp only [if_neg htT]
      exact hx
  have hTalign : Aligned B T := by rw [hT]; exact hinv.hlen
  have hs2lt : s2 < 2^B := by
    rw [hs2]
    exact Nat.mod_lt _ (by positivity)
  have hplt : p + s * 2^c < 2^(c+B) := path_lt c B p s hp hs
  refine ⟨?_, ?_, ?_, ?_, fun t0 c0 p0 hA0 => ?_⟩
  · obtain ⟨n, hn⟩ := hinv.hlen
    exact ⟨n + 1, by rw [hlen2, hn]; ring⟩
  · rw [← hinv.hroot1]
    exact readLE_congr _ _ _ _ (fun i hi => hframe (0 + i) (by omega) (by omega))
  · intro t0 ha0 hl0
    rw [hlen2] at hl0
    by_cases htT : t0 = T
    · rw [htT]
      simp
    · obtain ⟨j1, hj1⟩ := ha0
      obtain ⟨n, hn⟩ := hinv.hlen
      have hj1n : j1 ≤ n := by
        have : j1 * blockSize B ≤ n * blockSize B := by omega
        exact Nat.le_of_mul_le_mul_right this (by omega)
      have hlt : j1 < n := by
        rcases Nat.lt_or_ge j1 n with h | h
        · exact h
        · exfalso
          have : j1 = n := by omega
          rw [this] at hj1
          rw [← hn] at hj1
          rw [← hT] at hj1
          exact htT hj1
      have hfits : t0 + blockSize B ≤ buf.length := by
        rw [hj1, hn]
        have : (j1 + 1) * blockSize B ≤ n * blockSize B := Nat.mul_le_mul_right _ (by omega)
        rw [Nat.add_mul, one_mul] at this
        omega
      have := hinv.hfull t0 ⟨j1, hj1⟩ hfits
      simp only [if_neg htT]
      exact this
  · intro t0 x hx
    by_cases htT : t0 = T
    · rw [htT]
      refine ⟨hTalign, by rw [hlen2, hT]⟩
    · simp only [if_neg htT] at hx
      have := hinv.hdom t0 x hx
      rw [hlen2]
      exact ⟨this.1, by omega⟩
  · by_cases htT : t0 = T
    · subst htT
      rw [if_pos rfl] at hA0
      cases hA0
      refine ⟨hTalign, by rw [hlen2, hT], hhdr, hbits, hcB, hplt, fun s0 hs0 => ?_⟩
      · by_cases hss2 : s0 = s2
        · subst hss2
          refine CellOk_mk_str _ _ _ _ _ _ _ _ htyn (by rw [hkyn]; exact hsk64)
            ?_ (by rw [hixn]; exact hentv)
          rw [hkyn]
          exact (mod_pow_split_iff sk (c+B) B (p + s * 2^c) s0 hplt hs0).mpr
            ⟨hskcong, hs2.symm⟩
        · obtain ⟨hty0, hix0, hky0⟩ := hcells0 s0 hs0 hss2
          exact CellOk_mk_empty _ _ _ _ _ _ _ _ hty0 hix0 hky0
    · rw [if_neg htT] at hA0
      have htab0 := hinv.htab t0 c0 p0 hA0
      by_cases htt : t0 = t
      · subst htt
        have hcc : (c0, p0) = (c, p) := by rw [hA0] at hA; cases hA; rfl
        cases hcc
        refine ⟨htab0.1, by rw [hlen2]; have := htab0.2.1; omega, ?_, ?_, hc, hp,
          fun s0 hs0 => ?_⟩
        · rw [← hh]
          exact readLE_congr _ _ _ _ (fun i hi => hframe (t0 + i) (by omega) (by omega))
        · have hbits0 := hframe (t0 + 8) (by omega) (by omega)
          unfold Table.bits
          rw [hbits0]
          exact hb
        · by_cases hss : s0 = s
          · subst hss
            refine CellOk_mk_tbl _ _ _ _ _ _ _ _ hty hky ?_
            rw [hix]
            simp
          · refine CellOk_transfer buf buf2 pool pool B
              A (fun x => if x = T then some (c + B, p + s * 2^c) else A x)
              t0 c p s0 (hcells s0 hs0) (fun j hj1 hj2 => ?_) hext ⟨[], by simp⟩
            have hcb0 := cellOff_bounds B t0 s0 hs0
            rcases cell_disjoint B t0 s t0 s0 halign halign hs hs0
              (fun hx => hss hx.2.symm) with hd | hd
            · exact hframe j (by omega) (by omega)
            · exact hframe j (by omega) (by omega)
      · have hcb := cellOff_bounds B t s hs
        refine TableOk_of_readsEq buf buf2 pool pool B
          A (fun x => if x = T then some (c + B, p + s * 2^c) else A x)
          t0 c0 p0 htab0 (fun j hj1 hj2 => ?_)
          (by rw [hlen2]; have := htab0.2.1; omega) hext ⟨[], by simp⟩
        have hb0 := htab0.2.1
        rcases aligned_disjoint B t t0 halign htab0.1 (fun hx => htt hx.symm) with hd | hd
        · exact hframe j (by omega) (by omega)
        · exact hframe j (by omega) (by omega)

/-- The state after lazily creating the root table: a single all-empty
table block at offset 24 (abstracted by its read behaviour). -/
theorem FlatInv_first_table (buf2 pool : List Nat) (B : Nat)
    (hlen2 : buf2.length = rootSize + blockSize B)
    (hroot1 : readLE buf2 0 4 = 1)
    (hhdr : readLE buf2 rootSize 4 = 2)
    (hbits : Table.bits buf2 rootSize = B)
    (hcells0 : ∀ s0, s0 < 2^B →
      cellType buf2 rootSize s0 = 0 ∧ cellIndex buf2 rootSize s0 = 0 ∧
      cellKey buf2 rootSize s0 = 0) :
    FlatInv buf2 pool B (fun x => if x = rootSize then some (0, 0) else none) := by
  have h16 := blockSize_pos B
  refine ⟨⟨1, by rw [hlen2]; ring⟩, hroot1, ?_, ?_, fun t0 c0 p0 hA0 => ?_⟩
  · intro t0 ha0 hl0
    obtain ⟨j, hj⟩ := ha0
    rw [hlen2] at hl0
    have hj0 : j = 0 := by
      rcases Nat.eq_zero_or_pos j with h | h
      · exact h
      · exfalso
        have : 2 * blockSize B ≤ j * blockSize B + blockSize B := by
          have := Nat.mul_le_mul_right (blockSize B) h
          omega
        omega
    rw [hj0] at hj
    simp only [Nat.zero_mul, Nat.add_zero] at hj
    rw [hj]
    simp
  · intro t0 x hx
    by_cases ht : t0 = rootSize
    · rw [if_pos ht] at hx
      refine ⟨by rw [ht]; exact ⟨0, by ring⟩, by rw [ht, hlen2]⟩
    · rw [if_neg ht] at hx
      cases hx
  · by_cases ht : t0 = rootSize
    · rw [if_pos ht] at hA0
      cases hA0
      subst ht
      refine ⟨⟨0, by ring⟩, by rw [hlen2], hhdr, hbits, by omega, by norm_num,
        fun s0 hs0 => ?_⟩
      obtain ⟨h1, h2, h3⟩ := hcells0 s0 hs0
      exact CellOk_mk_empty _ _ _ _ _ _ _ _ h1 h2 h3
    · rw [if_neg ht] at hA0
      cases hA0

/-! ## Ghost walk step lemmas -/

theorem walkIdx_high (buf : List Nat) (B fuel t c k : Nat) (h : 64 ≤ c) :
    walkIdx buf B (fuel+1) t c k = none := by
  unfold walkIdx
  rw [if_pos h]

theorem walkIdx_empty (buf : List Nat) (B fuel t c k : Nat) (h : ¬ 64 ≤ c)
    (hct : cellType buf t (k / 2^c % 2^B) = 0) :
    walkIdx buf B (fuel+1) t c k = none := by
  unfold walkIdx
  rw [if_neg h, hct]

theorem walkIdx_str (buf : List Nat) (B fuel t c k : Nat) (h : ¬ 64 ≤ c)
    (hct : cellType buf t (k / 2^c % 2^B) = 1) :
    walkIdx buf B (fuel+1) t c k =
      (if cellKey buf t (k / 2^c % 2^B) = k then some (cellIndex buf t (k / 2^c % 2^B))
       else none) := by
  unfold walkIdx
  rw [if_neg h, hct]

theorem walkIdx_tbl (buf : List Nat) (B fuel t c k : Nat) (h : ¬ 64 ≤ c)
    (hct : cellType buf t (k / 2^c % 2^B) = 2) :
    walkIdx buf B (fuel+1) t c k =
      walkIdx buf B fuel (cellIndex buf t (k / 2^c % 2^B)) (c + B) k := by
  conv_lhs => rw [walkIdx]
  rw [if_neg h, hct]

theorem walkIdx_junk (buf : List Nat) (B fuel t c k : Nat) (h : ¬ 64 ≤ c)
    (hct : 3 ≤ cellType buf t (k / 2^c % 2^B)) :
    walkIdx buf B (fuel+1) t c k = none := by
  obtain ⟨m, hm⟩ : ∃ m, cellType buf t (k / 2^c % 2^B) = m + 3 :=
    ⟨cellType buf t (k / 2^c % 2^B) - 3, by omega⟩
  conv_lhs => rw [walkIdx]
  rw [if_neg h, hm]
  rfl

/-- Every string index the ghost walk returns points at a pool entry. -/
theorem walkIdx_entry (B : Nat) :
    ∀ (fuel : Nat) (buf pool : List Nat) (A : Nat → Option (Nat × Nat)) (t c p k si : Nat),
    FlatInv buf pool B A → A t = some (c, p) →
    walkIdx buf B fuel t c k = some si → ∃ v, EntryAt pool si v := by
  intro fuel
  induction fuel with
  | zero =>
      intro buf pool A t c p k si _ _ h
      cases h
  | succ fuel ih =>
      intro buf pool A t c p k si hinv hA hwalk
      obtain ⟨halign, hbound, hh, hb, hc, hp, hcells⟩ := hinv.htab t c p hA
      by_cases h64 : 64 ≤ c
      · rw [walkIdx_high _ _ _ _ _ _ h64] at hwalk
        cases hwalk
      have hs : k / 2^c % 2^B < 2^B := Nat.mod_lt _ (by positivity)
      have hcell := hcells _ hs
      rcases CellOk_cases _ _ _ _ _ _ _ _ hcell with h0 | h1 | h2
      · rw [walkIdx_empty _ _ _ _ _ _ h64 h0] at hwalk
        cases hwalk
      · rw [walkIdx_str _ _ _ _ _ _ h64 h1] at hwalk
        by_cases hkeq : cellKey buf t (k / 2^c % 2^B) = k
        · rw [if_pos hkeq] at hwalk
          cases hwalk
          exact (CellOk_str _ _ _ _ _ _ _ _ hcell h1).2.2
        · rw [if_neg hkeq] at hwalk
          cases hwalk
      · rw [walkIdx_tbl _ _ _ _ _ _ h64 h2] at hwalk
        obtain ⟨_, hA2⟩ := CellOk_tbl _ _ _ _ _ _ _ _ hcell h2
        exact ih buf pool A _ _ _ k si hinv hA2 hwalk

/-! ## Loop step lemmas -/

theorem getLoop_rem0 (rep : List Nat) (so key fuel rk ti : Nat) :
    getLoop rep so key (fuel+1) 0 rk ti = .ok none := by
  unfold getLoop
  rw [if_pos rfl]

theorem getLoop_badtable (rep : List Nat) (so key fuel rem rk ti : Nat)
    (hrem : rem ≠ 0) (hh : readLE rep ti 4 ≠ 2) :
    getLoop rep so key (fuel+1) rem rk ti = .error "overlay: not a table" := by
  conv_lhs => rw [getLoop]
  rw [if_neg hrem, if_pos hh]

theorem getLoop_empty (rep : List Nat) (so key fuel rem rk ti : Nat)
    (hrem : rem ≠ 0) (hh : readLE rep ti 4 = 2)
    (hct : cellType rep ti (Table.index rep ti rk) = 0) :
    getLoop rep so key (fuel+1) rem rk ti = .ok none := by
  conv_lhs => rw [getLoop]
  rw [if_neg hrem, if_neg (by rw [hh]; exact fun h => h rfl)]
  simp only [hct]

theorem getLoop_str (rep : List Nat) (so key fuel rem rk ti : Nat)
    (hrem : rem ≠ 0) (hh : readLE rep ti 4 = 2)
    (hct : cellType rep ti (Table.index rep ti rk) = 1) :
    getLoop rep so key (fuel+1) rem rk ti =
      (if key = cellKey rep ti (Table.index rep ti rk) then
        .ok (some (readCString rep (so + cellIndex rep ti (Table.index rep ti rk))))
      else .ok none) := by
  conv_lhs => rw [getLoop]
  rw [if_neg hrem, if_neg (by rw [hh]; exact fun h => h rfl)]
  simp only [hct]

theorem getLoop_tbl (rep : List Nat) (so key fuel rem rk ti : Nat)
    (hrem : rem ≠ 0) (hh : readLE rep ti 4 = 2)
    (hct : cellType rep ti (Table.index rep ti rk) = 2) :
    getLoop rep so key (fuel+1) rem rk ti =
      getLoop rep so key fuel (Table.decrementBits rep ti rem)
        (Table.nextKey rep ti rk) (cellIndex rep ti (Table.index rep ti rk)) := by
  conv_lhs => rw [getLoop]
  rw [if_neg hrem, if_neg (by rw [hh]; exact fun h => h rfl)]
  simp only [hct]

theorem getLoop_junk (rep : List Nat) (so key fuel rem rk ti : Nat)
    (hrem : rem ≠ 0) (hh : readLE rep ti 4 = 2)
    (hct : 3 ≤ cellType rep ti (Table.index rep ti rk)) :
    getLoop rep so key (fuel+1) rem rk ti = .error "unknown cell" := by
  obtain ⟨m, hm⟩ : ∃ m, cellType rep ti (Table.index rep ti rk) = m + 3 :=
    ⟨cellType rep ti (Table.index rep ti rk) - 3, by omega⟩
  conv_lhs => rw [getLoop]
  rw [if_neg hrem, if_neg (by rw [hh]; exact fun h => h rfl)]
  simp only [hm]

theorem insertLoop_rem0 (bits key : Nat) (value : List Nat) (fuel : Nat)
    (buf : List Nat) (st : Intern) (rk ti : Nat) :
    insertLoop bits key value (fuel+1) (buf, st) 0 rk ti = .ok (buf, st) := by
  unfold insertLoop
  rw [if_pos rfl]

theorem insertLoop_badtable (bits key : Nat) (value : List Nat) (fuel : Nat)
    (buf : List Nat) (st : Intern) (rem rk ti : Nat)
    (hrem : rem ≠ 0) (hh : readLE buf ti 4 ≠ 2) :
    insertLoop bits key value (fuel+1) (buf, st) rem rk ti =
      .error "overlay: not a table" := by
  conv_lhs => rw [insertLoop]
  rw [if_neg hrem, if_pos hh]

theorem insertLoop_empty (bits key : Nat) (value : List Nat) (fuel : Nat)
    (buf : List Nat) (st : Intern) (rem rk ti : Nat)
    (hrem : rem ≠ 0) (hh : readLE buf ti 4 = 2)
    (hct : cellType buf ti (Table.index buf ti rk) = 0) :
    insertLoop bits key value (fuel+1) (buf, st) rem rk ti =
      .ok (becomeStringPtr buf ti (Table.index buf ti rk) (st.add value).2 key,
        (st.add value).1) := by
  conv_lhs => rw [insertLoop]
  rw [if_neg hrem, if_neg (by rw [hh]; exact fun h => h rfl)]
  simp only [hct]

theorem insertLoop_dup (bits key : Nat) (value : List Nat) (fuel : Nat)
    (buf : List Nat) (st : Intern) (rem rk ti : Nat)
    (hrem : rem ≠ 0) (hh : readLE buf ti 4 = 2)
    (hct : cellType buf ti (Table.index buf ti rk) = 1)
    (hkeq : cellKey buf ti (Table.index buf ti rk) = key) :
    insertLoop bits key value (fuel+1) (buf, st) rem rk ti = .ok (buf, st) := by
  conv_lhs => rw [insertLoop]
  rw [if_neg hrem, if_neg (by rw [hh]; exact fun h => h rfl)]
  simp only [hct]
  simp [hkeq]

theorem insertLoop_split (bits key : Nat) (value : List Nat) (fuel : Nat)
    (buf : List Nat) (st : Intern) (rem rk ti : Nat)
    (hrem : rem ≠ 0) (hh : readLE buf ti 4 = 2)
    (hct : cellType buf ti (Table.index buf ti rk) = 1)
    (hkne : cellKey buf ti (Table.index buf ti rk) ≠ key)
    (hremle : ¬ 64 < rem)
    (hnt : readLE (becomeTablePtr (appendTableBytes bits buf) ti
      (Table.index buf ti rk) buf.length) buf.length 4 = 2) :
    insertLoop bits key value (fuel+1) (buf, st) rem rk ti =
      (let slot := Table.index buf ti rk
       let strIndex := cellIndex buf ti slot
       let strKey := cellKey buf ti slot
       let newStrKey := strKey >>> (64 - rem)
       let buf2 := becomeTablePtr (appendTableBytes bits buf) ti slot buf.length
       let movedKey := Table.nextKey buf2 buf.length newStrKey
       let newCellIndex := Table.index buf2 buf.length movedKey
       let buf3 := becomeStringPtr buf2 buf.length newCellIndex strIndex strKey
       insertLoop bits key value fuel (buf3, st) rem rk ti) := by
  have h3 : ¬ (readLE (becomeTablePtr (appendTableBytes bits buf) ti
      (Table.index buf ti rk) buf.length) buf.length 4 ≠ 2) := fun hcon => hcon hnt
  conv_lhs => rw [insertLoop]
  rw [if_neg hrem, if_neg (by rw [hh]; exact fun h => h rfl)]
  simp only [hct]
  rw [if_neg hkne, if_neg hremle, if_neg h3]

theorem insertLoop_tbl (bits key : Nat) (value : List Nat) (fuel : Nat)
    (buf : List Nat) (st : Intern) (rem rk ti : Nat)
    (hrem : rem ≠ 0) (hh : readLE buf ti 4 = 2)
    (hct : cellType buf ti (Table.index buf ti rk) = 2)
    (hnt : readLE buf (cellIndex buf ti (Table.index buf ti rk)) 4 = 2) :
    insertLoop bits key value (fuel+1) (buf, st) rem rk ti =
      insertLoop bits key value fuel (buf, st)
        (Table.decrementBits buf (cellIndex buf ti (Table.index buf ti rk)) rem)
        (Table.nextKey buf (cellIndex buf ti (Table.index buf ti rk)) rk)
        (cellIndex buf ti (Table.index buf ti rk)) := by
  have h3 : ¬ (readLE buf (cellIndex buf ti (Table.index buf ti rk)) 4 ≠ 2) :=
    fun hcon => hcon hnt
  conv_lhs => rw [insertLoop]
  rw [if_neg hrem, if_neg (by rw [hh]; exact fun h => h rfl)]
  simp only [hct]
  rw [if_neg h3]

theorem insertLoop_junk (bits key : Nat) (value : List Nat) (fuel : Nat)
    (buf : List Nat) (st : Intern) (rem rk ti : Nat)
    (hrem : rem ≠ 0) (hh : readLE buf ti 4 = 2)
    (hct : 3 ≤ cellType buf ti (Table.index buf ti rk)) :
    insertLoop bits key value (fuel+1) (buf, st) rem rk ti =
      .error "unknown cell type" := by
  obtain ⟨m, hm⟩ : ∃ m, cellType buf ti (Table.index buf ti rk) = m + 3 :=
    ⟨cellType buf ti (Table.index buf ti rk) - 3, by omega⟩
  conv_lhs => rw [insertLoop]
  rw [if_neg hrem, if_neg (by rw [hh]; exact fun h => h rfl)]
  simp only [hm]

set_option maxHeartbeats 1000000 in
/-- The lookup loop of `Map::get_cstr`, run on a buffer `rep` that agrees
with the builder index `buf` from byte 24 up, returns exactly the ghost
walk's result, with string indices resolved at `so`. -/
theorem getLoop_main (B : Nat) (hB2 : 2 ≤ B) :
    ∀ (fuel fw : Nat) (buf pool rep : List Nat) (A : Nat → Option (Nat × Nat))
      (t c p key so : Nat),
    FlatInv buf pool B A → A t = some (c, p) → key % 2^c = p →
    (∀ j, 24 ≤ j → j < buf.length → readByte rep j = readByte buf j) →
    64 - c < fuel → 64 - c < fw →
    getLoop rep so key fuel (64 - c) (key / 2^c) t =
      .ok ((walkIdx buf B fw t c key).map (fun si => readCString rep (so + si))) := by
  intro fuel
  induction fuel with
  | zero =>
      intro fw buf pool rep A t c p key so hinv hA hcong hrep hfuel hfw
      omega
  | succ fuel ih =>
      intro fw buf pool rep A t c p key so hinv hA hcong hrep hfuel hfw
      obtain ⟨halign, hbound, hh, hb, hc, hp, hcells⟩ := hinv.htab t c p hA
      match fw, hfw with
      | fw0+1, hfw =>
      have h64 : ¬ 64 ≤ c := by omega
      have hrem : 64 - c ≠ 0 := by omega
      have ht24 : 24 ≤ t := by obtain ⟨j0, hj0⟩ := halign; unfold rootSize at hj0; omega
      have hth : tableHeaderSize = 16 := rfl
      have h16 := blockSize_pos B
      have hhdr_rep : readLE rep t 4 = 2 := by
        rw [← hh]
        exact readLE_congr _ _ _ _ (fun i hi => hrep (t + i) (by omega) (by omega))
      have hbits_rep : Table.bits rep t = B := by
        unfold Table.bits
        rw [hrep (t + 8) (by omega) (by omega)]
        exact hb
      have hslot : Table.index rep t (key / 2^c) = key / 2^c % 2^B := by
        rw [Table.index_eq, hbits_rep]
      have hs : key / 2^c % 2^B < 2^B := Nat.mod_lt _ (by positivity)
      have hco : cellOff t (key / 2^c % 2^B) + cellSize ≤ buf.length :=
        le_trans (cellOff_bounds B t _ hs) hbound
      have hcg := cellOff_ge t (key / 2^c % 2^B)
      obtain ⟨hty_eq, hix_eq, hky_eq⟩ := cellReads_congr rep buf t (key / 2^c % 2^B)
        (fun j hj1 hj2 => hrep j (by omega) (by omega))
      have hcell := hcells _ hs
      rcases CellOk_cases _ _ _ _ _ _ _ _ hcell with h0 | h1 | h2
      · rw [getLoop_empty rep so key fuel _ _ t hrem hhdr_rep
          (by rw [hslot, hty_eq]; exact h0)]
        rw [walkIdx_empty buf B fw0 t c key h64 h0]
        rfl
      · rw [getLoop_str rep so key fuel _ _ t hrem hhdr_rep
          (by rw [hslot, hty_eq]; exact h1)]
        rw [walkIdx_str buf B fw0 t c key h64 h1]
        rw [hslot, hky_eq, hix_eq]
        by_cases hkeq : cellKey buf t (key / 2^c % 2^B) = key
        · rw [if_pos hkeq.symm, if_pos hkeq]
          rfl
        · rw [if_neg (fun hx => hkeq hx.symm), if_neg hkeq]
          rfl
      · obtain ⟨_, hA2⟩ := CellOk_tbl _ _ _ _ _ _ _ _ hcell h2
        have htab2 := hinv.htab _ _ _ hA2
        have hnt_rep : readLE rep (cellIndex buf t (key / 2^c % 2^B)) 4 = 2 := by
          obtain ⟨halign2, hbound2, hh2, _, _, _, _⟩ := htab2
          have hb16 := blockSize_pos B
          have ht24' : 24 ≤ cellIndex buf t (key / 2^c % 2^B) := by
            obtain ⟨j0, hj0⟩ := halign2
            unfold rootSize at hj0
            omega
          exact Eq.trans (readLE_congr rep buf (cellIndex buf t (key / 2^c % 2^B)) 4
            (fun i hi => hrep (cellIndex buf t (key / 2^c % 2^B) + i)
              (by omega) (by omega))) hh2
        rw [getLoop_tbl rep so key fuel _ _ t hrem hhdr_rep
          (by rw [hslot, hty_eq]; exact h2)]
        rw [hslot, hix_eq]
        have hrem2 : Table.decrementBits rep t (64 - c) = 64 - (c + B) := by
          rw [Table.decrementBits_eq, hbits_rep, Nat.sub_sub]
        have hrk2 : Table.nextKey rep t (key / 2^c) = key / 2^(c+B) := by
          rw [Table.nextKey_eq, hbits_rep, Nat.div_div_eq_div_mul, ← pow_add]
        rw [hrem2, hrk2]
        rw [walkIdx_tbl buf B fw0 t c key h64 h2]
        have hcong2 : key % 2^(c+B) = p + (key / 2^c % 2^B) * 2^c :=
          (mod_pow_split_iff key c B p _ hp hs).mpr ⟨hcong, rfl⟩
        exact ih fw0 buf pool rep A _ (c+B) _ key so hinv hA2 hcong2 hrep
          (by omega) (by omega)

/-- The ghost walk only reads the cells on the key's address path: if
another buffer agrees with `buf` on every cell addressed by `k` in a path
table at or below depth `c`, the walks agree. -/
theorem walkIdx_frame (B : Nat) :
    ∀ (fuel : Nat) (buf buf2 pool : List Nat) (A : Nat → Option (Nat × Nat)) (t c p k : Nat),
    FlatInv buf pool B A → A t = some (c, p) → k % 2^c = p →
    (∀ t0 c0 p0, A t0 = some (c0, p0) → c ≤ c0 → k % 2^c0 = p0 →
      cellType buf2 t0 (k / 2^c0 % 2^B) = cellType buf t0 (k / 2^c0 % 2^B) ∧
      cellIndex buf2 t0 (k / 2^c0 % 2^B) = cellIndex buf t0 (k / 2^c0 % 2^B) ∧
      cellKey buf2 t0 (k / 2^c0 % 2^B) = cellKey buf t0 (k / 2^c0 % 2^B)) →
    walkIdx buf2 B fuel t c k = walkIdx buf B fuel t c k := by
  intro fuel
  induction fuel with
  | zero => intro buf buf2 pool A t c p k _ _ _ _; rfl
  | succ fuel ih =>
      intro buf buf2 pool A t c p k hinv hA hcong hagree
      by_cases h64 : 64 ≤ c
      · rw [walkIdx_high buf2 _ _ _ _ _ h64, walkIdx_high buf _ _ _ _ _ h64]
      obtain ⟨halign, hbound, hh, hb, hc, hp, hcells⟩ := hinv.htab t c p hA
      have hs : k / 2^c % 2^B < 2^B := Nat.mod_lt _ (by positivity)
      have hcell := hcells _ hs
      obtain ⟨hty2, hix2, hky2⟩ := hagree t c p hA le_rfl hcong
      rcases CellOk_cases _ _ _ _ _ _ _ _ hcell with h0 | h1 | h2
      · rw [walkIdx_empty buf2 _ _ _ _ _ h64 (hty2.trans h0),
          walkIdx_empty buf _ _ _ _ _ h64 h0]
      · rw [walkIdx_str buf2 _ _ _ _ _ h64 (hty2.trans h1),
          walkIdx_str buf _ _ _ _ _ h64 h1, hky2, hix2]
      · rw [walkIdx_tbl buf2 _ _ _ _ _ h64 (hty2.trans h2),
          walkIdx_tbl buf _ _ _ _ _ h64 h2, hix2]
        obtain ⟨_, hA2⟩ := CellOk_tbl _ _ _ _ _ _ _ _ hcell h2
        have hcong2 : k % 2^(c+B) = p + (k / 2^c % 2^B) * 2^c :=
          (mod_pow_split_iff k c B p _ hp hs).mpr ⟨hcong, rfl⟩
        exact ih buf buf2 pool A _ (c+B) _ k hinv hA2 hcong2
          (fun t0 c0 p0 hA0 hle0 hc0 => hagree t0 c0 p0 hA0 (by omega) hc0)

/-! ## Helpers for the insert-loop induction -/

theorem mod_pow_mono (k1 k2 a b : Nat) (h : a ≤ b) (heq : k1 % 2^b = k2 % 2^b) :
    k1 % 2^a = k2 % 2^a := by
  have hd : (2:Nat)^a ∣ 2^b := pow_dvd_pow 2 h
  rw [← Nat.mod_mod_of_dvd k1 hd, heq, Nat.mod_mod_of_dvd k2 hd]

theorem slot_eq_of_mod_eq (k1 k2 c B : Nat) (h : k1 % 2^(c+B) = k2 % 2^(c+B)) :
    k1 / 2^c % 2^B = k2 / 2^c % 2^B := by
  have h1 := mod_pow_split k1 c B
  have h2 := mod_pow_split k2 c B
  have hc : k1 % 2^c = k2 % 2^c := mod_pow_mono k1 k2 c (c+B) (by omega) h
  have h3 : (k1 / 2^c % 2^B) * 2^c = (k2 / 2^c % 2^B) * 2^c := by omega
  exact Nat.eq_of_mul_eq_mul_right (by positivity) h3

theorem ceil_succ (x B : Nat) (hB : 1 ≤ B) (hx : 1 ≤ x) :
    (x + B - 1) / B = ((x - B) + B - 1) / B + 1 := by
  rcases le_or_lt B x with h | h
  · have h1 : x - B + B - 1 + B = x + B - 1 := by omega
    calc (x + B - 1) / B = (x - B + B - 1 + B) / B := by rw [h1]
    _ = (x - B + B - 1) / B + 1 := Nat.add_div_right _ hB
  · have h0 : x - B = 0 := by omega
    rw [h0]
    simp only [Nat.zero_add]
    have h1 : (B - 1) / B = 0 := Nat.div_eq_of_lt (by omega)
    rw [h1]
    have h2 : (x + B - 1) / B = 1 := by
      have := Nat.div_eq_of_lt_le (by omega : 1 * B ≤ x + B - 1)
        (by omega : x + B - 1 < (1 + 1) * B)
      simpa using this
    rw [h2]

theorem PathCell_mono (A : Nat → Option (Nat × Nat)) (B c c' key j : Nat)
    (h : PathCell A B c' key j) (hle : c ≤ c') : PathCell A B c key j := by
  obtain ⟨t0, c0, p0, hA0, hc0, hp0, hr1, hr2⟩ := h
  exact ⟨t0, c0, p0, hA0, by omega, hp0, hr1, hr2⟩

/-- A cell off the key's touched path keeps its bytes across a frame that
only allows touched-path cells to change. -/
theorem frame_reads_eq (buf buf2 pool : List Nat) (B : Nat)
    (A : Nat → Option (Nat × Nat)) (cF key : Nat)
    (hinv : FlatInv buf pool B A)
    (hframe : ∀ j, j < buf.length →
      readByte buf2 j = readByte buf j ∨ PathCell A B cF key j)
    (t0 c0 p0 s0 : Nat) (hA0 : A t0 = some (c0, p0)) (hs0 : s0 < 2^B)
    (hnot : ¬(cF ≤ c0 ∧ key % 2^c0 = p0 ∧ key / 2^c0 % 2^B = s0)) :
    ∀ j, cellOff t0 s0 ≤ j → j < cellOff t0 s0 + cellSize →
      readByte buf2 j = readByte buf j := by
  intro j hj1 hj2
  have hdom0 := hinv.hdom t0 _ hA0
  have hcb0 := cellOff_bounds B t0 s0 hs0
  have hjlen : j < buf.length := by
    have := hdom0.2
    omega
  rcases hframe j hjlen with h | h
  · exact h
  · exfalso
    obtain ⟨t1, c1, p1, hA1, hc1, hp1, hr1, hr2⟩ := h
    have hdom1 := hinv.hdom t1 _ hA1
    have hs1 : key / 2^c1 % 2^B < 2^B := Nat.mod_lt _ (by positivity)
    by_cases hcells : t0 = t1 ∧ s0 = key / 2^c1 % 2^B
    · obtain ⟨he1, he2⟩ := hcells
      rw [← he1] at hA1
      rw [hA0] at hA1
      cases hA1
      exact hnot ⟨hc1, hp1, he2.symm⟩
    · rcases cell_disjoint B t0 s0 t1 (key / 2^c1 % 2^B) hdom0.1 hdom1.1 hs0 hs1
        hcells with hd | hd
      · omega
      · omega

/-- Walks through a table holding exactly one `StringPtr` (at the slot its
key addresses) and otherwise empty cells. -/
theorem walk_one_str (buf3 : List Nat) (B fw T cB s2 si sk : Nat)
    (h64 : ¬ 64 ≤ cB) (hs2 : s2 = sk / 2^cB % 2^B)
    (htyn : cellType buf3 T s2 = 1) (hixn : cellIndex buf3 T s2 = si)
    (hkyn : cellKey buf3 T s2 = sk)
    (hcells0 : ∀ s0, s0 < 2^B → s0 ≠ s2 →
      cellType buf3 T s0 = 0 ∧ cellIndex buf3 T s0 = 0 ∧ cellKey buf3 T s0 = 0)
    (k2 : Nat) :
    walkIdx buf3 B (fw+1) T cB k2 = (if sk = k2 then some si else none) := by
  by_cases hsl : k2 / 2^cB % 2^B = s2
  · rw [walkIdx_str buf3 B fw T cB k2 h64 (by rw [hsl]; exact htyn)]
    rw [hsl, hkyn, hixn]
  · have hslt : k2 / 2^cB % 2^B < 2^B := Nat.mod_lt _ (by positivity)
    rw [walkIdx_empty buf3 B fw T cB k2 h64 (hcells0 _ hslt hsl).1]
    rw [if_neg (fun hk => hsl (by rw [← hk, ← hs2]))]

/-- A key whose slot at depth `c` differs from the inserted key's slot
walks through untouched cells only, so its walk is unchanged. -/
theorem walk_offpath (B : Nat) (buf buf2 pool : List Nat)
    (A : Nat → Option (Nat × Nat)) (t c p key k2 : Nat)
    (hinv : FlatInv buf pool B A) (hA : A t = some (c, p))
    (hcong2 : k2 % 2^c = p)
    (hframe : ∀ j, j < buf.length →
      readByte buf2 j = readByte buf j ∨ PathCell A B c key j)
    (hdiff : k2 / 2^c % 2^B ≠ key / 2^c % 2^B) :
    ∀ fw, walkIdx buf2 B fw t c k2 = walkIdx buf B fw t c k2 := by
  intro fw
  refine walkIdx_frame B fw buf buf2 pool A t c p k2 hinv hA hcong2 ?_
  intro t0 c0 p0 hA0 hc0 hp0
  have hs0 : k2 / 2^c0 % 2^B < 2^B := Nat.mod_lt _ (by positivity)
  refine cellReads_congr buf2 buf t0 (k2 / 2^c0 % 2^B) ?_
  refine frame_reads_eq buf buf2 pool B A c key hinv hframe t0 c0 p0 _ hA0 hs0 ?_
  intro ⟨hle, hkp, hks⟩
  -- the shared cell would force the keys to share their depth-c slot
  have hmodc0 : key % 2^c0 = k2 % 2^c0 := by
    rw [hkp]
    exact hp0.symm
  have hmod : key % 2^(c0+B) = k2 % 2^(c0+B) := by
    rw [mod_pow_split key c0 B, mod_pow_split k2 c0 B, hmodc0, hks]
  have := slot_eq_of_mod_eq key k2 c B
    (mod_pow_mono key k2 (c+B) (c0+B) (by omega) hmod)
  exact hdiff (this.symm)

/-- Read behaviour of the buffer a split produces: append a fresh table,
turn the colliding cell into a `TablePtr` to it, and write the old string
into the fresh table's cell `s2`. -/
theorem splitBuf_facts (B : Nat) (buf buf1 buf2 buf3 : List Nat) (t s si sk s2 T : Nat)
    (hbuf1 : buf1 = appendTableBytes B buf)
    (hT : T = buf.length)
    (hbuf2 : buf2 = becomeTablePtr buf1 t s T)
    (hbuf3 : buf3 = becomeStringPtr buf2 T s2 si sk)
    (hco : cellOff t s + cellSize ≤ buf.length)
    (hs2lt : s2 < 2^B)
    (hsi : si < 2^64) (hsk : sk < 2^64) (hT64 : buf.length < 2^64) :
    buf3.length = buf.length + blockSize B ∧
    (∀ j, j < buf.length → (j < cellOff t s ∨ cellOff t s + cellSize ≤ j) →
      readByte buf3 j = readByte buf j) ∧
    (cellType buf3 t s = 2 ∧ cellIndex buf3 t s = T ∧ cellKey buf3 t s = 0) ∧
    (readLE buf3 T 4 = 2 ∧ Table.bits buf3 T = B) ∧
    (cellType buf3 T s2 = 1 ∧ cellIndex buf3 T s2 = si ∧ cellKey buf3 T s2 = sk) ∧
    (∀ s0, s0 < 2^B → s0 ≠ s2 →
      cellType buf3 T s0 = 0 ∧ cellIndex buf3 T s0 = 0 ∧ cellKey buf3 T s0 = 0) ∧
    (readLE buf2 T 4 = 2 ∧ Table.bits buf2 T = B) := by
  have h16 := blockSize_pos B
  have h17 : cellSize = 17 := rfl
  have hth : tableHeaderSize = 16 := rfl
  have hlen1 : buf1.length = buf.length + blockSize B := by
    rw [hbuf1, length_appendTableBytes]
  have hlen2 : buf2.length = buf.length + blockSize B := by
    rw [hbuf2, length_becomeTablePtr, hlen1]
  have hlen3 : buf3.length = buf.length + blockSize B := by
    rw [hbuf3, length_becomeStringPtr, hlen2]
  have hco1 : cellOff t s + cellSize ≤ buf1.length := by omega
  have hcoT : cellOff T s2 + cellSize ≤ buf2.length := by
    have := cellOff_bounds B T s2 hs2lt
    omega
  have hgeT := cellOff_ge T s2
  have hge := cellOff_ge t s
  -- bytes below the old length and outside the mutated cell are untouched
  have hfr : ∀ j, j < buf.length → (j < cellOff t s ∨ cellOff t s + cellSize ≤ j) →
      readByte buf3 j = readByte buf j := by
    intro j hj hj2
    rw [hbuf3, readByte_becomeStringPtr_frame buf2 T s2 si sk j hcoT
      (Or.inl (by omega)), hbuf2,
      readByte_becomeTablePtr_frame buf1 t s T j hco1 hj2, hbuf1,
      readByte_appendTableBytes_frame B buf j hj]
  -- the whole old-cell block of `buf2` survives into `buf3`
  have hfr32 : ∀ j, j < buf.length → readByte buf3 j = readByte buf2 j := by
    intro j hj
    rw [hbuf3, readByte_becomeStringPtr_frame buf2 T s2 si sk j hcoT
      (Or.inl (by omega))]
  refine ⟨hlen3, hfr, ?_, ?_, ?_, ?_, ?_⟩
  · -- the colliding cell is now a TablePtr to T
    obtain ⟨e1, e2, e3⟩ := cellReads_congr buf3 buf2 t s
      (fun j hj1 hj2 => hfr32 j (by omega))
    refine ⟨?_, ?_, ?_⟩
    · rw [e1, hbuf2]
      exact cellType_becomeTablePtr_self _ _ _ _ hco1
    · rw [e2, hbuf2]
      exact cellIndex_becomeTablePtr_self _ _ _ _ hco1 (by omega)
    · rw [e3, hbuf2]
      exact cellKey_becomeTablePtr_self _ _ _ _ hco1
  · -- the fresh table's header
    have hh2 : readLE buf2 T 4 = 2 := by
      have he : readLE buf2 T 4 = readLE buf1 T 4 :=
        readLE_congr _ _ _ _ (fun i hi => by
          rw [hbuf2, readByte_becomeTablePtr_frame buf1 t s T (T + i) hco1
            (Or.inr (by omega))])
      rw [he, hbuf1, hT]
      exact appendTableBytes_type B buf
    have hb2 : Table.bits buf2 T = B := by
      unfold Table.bits
      rw [hbuf2, readByte_becomeTablePtr_frame buf1 t s T (T + 8) hco1
        (Or.inr (by omega)), hbuf1]
      have := appendTableBytes_bits B buf
      unfold Table.bits at this
      rw [hT]
      exact this
    constructor
    · have he : readLE buf3 T 4 = readLE buf2 T 4 :=
        readLE_congr _ _ _ _ (fun i hi => by
          rw [hbuf3, readByte_becomeStringPtr_frame buf2 T s2 si sk (T + i) hcoT
            (Or.inl (by omega))])
      rw [he]
      exact hh2
    · unfold Table.bits
      rw [hbuf3, readByte_becomeStringPtr_frame buf2 T s2 si sk (T + 8) hcoT
        (Or.inl (by omega))]
      unfold Table.bits at hb2
      exact hb2
  · -- the moved string's cell
    refine ⟨?_, ?_, ?_⟩
    · rw [hbuf3]
      exact cellType_becomeStringPtr_self _ _ _ _ _ hcoT
    · rw [hbuf3]
      exact cellIndex_becomeStringPtr_self _ _ _ _ _ hcoT hsi
    · rw [hbuf3]
      exact cellKey_becomeStringPtr_self _ _ _ _ _ hcoT hsk
  · -- all other cells of the fresh table are empty
    intro s0 hs0 hne
    have hd : cellOff T s2 + cellSize ≤ cellOff T s0 ∨
        cellOff T s0 + cellSize ≤ cellOff T s2 := by
      rcases Nat.lt_or_ge s2 s0 with h | h
      · exact Or.inl (cellOff_disjoint T s2 s0 h)
      · exact Or.inr (cellOff_disjoint T s0 s2 (by omega))
    have hcb0 := cellOff_bounds B T s0 hs0
    have hge0 := cellOff_ge T s0
    obtain ⟨e1, e2, e3⟩ := cellReads_congr buf3 buf1 T s0
      (fun j hj1 hj2 => by
        rw [hbuf3, readByte_becomeStringPtr_frame buf2 T s2 si sk j hcoT
          (by omega), hbuf2,
          readByte_becomeTablePtr_frame buf1 t s T j hco1 (Or.inr (by omega))])
    obtain ⟨f1, f2, f3⟩ := appendTableBytes_cells B buf s0
    rw [← hbuf1, ← hT] at f1 f2 f3
    exact ⟨by rw [e1]; exact f1, by rw [e2]; exact f2, by rw [e3]; exact f3⟩
  · -- the fresh table's header, before the moved string was written
    have hh2 : readLE buf2 T 4 = 2 := by
      have he : readLE buf2 T 4 = readLE buf1 T 4 :=
        readLE_congr _ _ _ _ (fun i hi => by
          rw [hbuf2, readByte_becomeTablePtr_frame buf1 t s T (T + i) hco1
            (Or.inr (by omega))])
      rw [he, hbuf1, hT]
      exact appendTableBytes_type B buf
    have hb2 : Table.bits buf2 T = B := by
      unfold Table.bits
      rw [hbuf2, readByte_becomeTablePtr_frame buf1 t s T (T + 8) hco1
        (Or.inr (by omega)), hbuf1]
      have := appendTableBytes_bits B buf
      unfold Table.bits at this
      rw [hT]
      exact this
    exact ⟨hh2, hb2⟩

set_option maxHeartbeats 2000000 in
/-- Main induction for `Builder::insert`'s loop: run from a table at trie
position `(c, p)` with matching remaining bits and running key, the loop
succeeds within the ceiling fuel, preserves the buffer invariant under an
extended assignment, touches only the key's path cells, and updates the
ghost walk pointwise (first write wins: an existing entry for the key
leaves the state untouched). -/
theorem insertLoop_main (B : Nat) (hB1 : 1 ≤ B) :
    ∀ (fuel : Nat) (buf : List Nat) (st : Intern) (A : Nat → Option (Nat × Nat))
      (t c p key : Nat) (value : List Nat),
    FlatInv buf st.strings B A → PoolOk st →
    A t = some (c, p) → key < 2^64 → key % 2^c = p → (0:Nat) ∉ value →
    2 * ((64 - c + B - 1) / B) + 1 ≤ fuel →
    buf.length + ((64 - c + B - 1) / B) * blockSize B < 2^64 →
    st.strings.length < 2^64 →
    ∃ buf2 st2 A2,
      insertLoop B key value fuel (buf, st) (64 - c) (key / 2^c) t = .ok (buf2, st2) ∧
      FlatInv buf2 st2.strings B A2 ∧ PoolOk st2 ∧
      (∀ t0 x, A t0 = some x → A2 t0 = some x) ∧
      (∀ t0 x, A2 t0 = some x → A t0 = some x ∨ buf.length ≤ t0) ∧
      buf2.length ≤ buf.length + ((64 - c + B - 1) / B) * blockSize B ∧
      (∃ ext, st2.strings = st.strings ++ ext) ∧
      st2.strings.length ≤ st.strings.length + value.length + 1 ∧
      (∀ j, j < rootSize → readByte buf2 j = readByte buf j) ∧
      (∀ j, j < buf.length →
        readByte buf2 j = readByte buf j ∨ PathCell A B c key j) ∧
      (∀ fw, 64 - c < fw →
        (∀ k2, k2 % 2^c = p → k2 ≠ key →
          walkIdx buf2 B fw t c k2 = walkIdx buf B fw t c k2) ∧
        (walkIdx buf B fw t c key = none →
          walkIdx buf2 B fw t c key = some (st.add value).2 ∧
          st2 = (st.add value).1) ∧
        (∀ si, walkIdx buf B fw t c key = some si → buf2 = buf ∧ st2 = st)) := by
  intro fuel
  induction fuel using Nat.strong_induction_on with
  | _ fuel ih =>
  intro buf st A t c p key value hinv hpok hA hk64 hcong h0v hfuel hsz hpsz
  obtain ⟨halign, hbound, hh, hb, hc, hp, hcells⟩ := hinv.htab t c p hA
  have h16 := blockSize_pos B
  have h17 : cellSize = 17 := rfl
  have h24 : rootSize = 24 := rfl
  have hrem : (64 : Nat) - c ≠ 0 := by omega
  have h64 : ¬ (64 : Nat) ≤ c := by omega
  have hceil1 : 1 ≤ (64 - c + B - 1) / B :=
    (Nat.one_le_div_iff (by omega)).mpr (by omega)
  have hT64 : buf.length < 2^64 := by
    have hmul : 1 * blockSize B ≤ ((64 - c + B - 1) / B) * blockSize B :=
      Nat.mul_le_mul_right _ hceil1
    rw [one_mul] at hmul
    omega
  have hceq : (64 - c + B - 1) / B = (64 - (c + B) + B - 1) / B + 1 := by
    have hcs := ceil_succ (64 - c) B hB1 (by omega)
    rw [Nat.sub_sub] at hcs
    exact hcs
  have hsz' : buf.length + ((64 - (c + B) + B - 1) / B) * blockSize B +
      blockSize B < 2^64 := by
    rw [hceq, Nat.add_mul, one_mul] at hsz
    omega
  obtain ⟨f, rfl⟩ : ∃ f, fuel = f + 1 := ⟨fuel - 1, by omega⟩
  have ht24 : 24 ≤ t := by
    obtain ⟨j0, hj0⟩ := halign
    omega
  have hslot : Table.index buf t (key / 2^c) = key / 2^c % 2^B := by
    rw [Table.index_eq, hb]
  have hs : key / 2^c % 2^B < 2^B := Nat.mod_lt _ (by positivity)
  have hco : cellOff t (key / 2^c % 2^B) + cellSize ≤ buf.length :=
    le_trans (cellOff_bounds B t _ hs) hbound
  have hcg := cellOff_ge t (key / 2^c % 2^B)
  have hcell := hcells _ hs
  have hcongB : key % 2^(c+B) = p + (key / 2^c % 2^B) * 2^c :=
    (mod_pow_split_iff key c B p _ hp hs).mpr ⟨hcong, rfl⟩
  rcases CellOk_cases _ _ _ _ _ _ _ _ hcell with h0 | h1 | h2
  · -- Empty cell: place the value here
    have hct : cellType buf t (Table.index buf t (key / 2^c)) = 0 := by
      rw [hslot]; exact h0
    have hstep := insertLoop_empty B key value f buf st (64 - c) (key / 2^c) t
      hrem hh hct
    rw [hslot] at hstep
    obtain ⟨hpok2, hent2, hpext2, hplen2, hidxle⟩ := Intern.add_spec st value h0v hpok
    have hidx64 : (st.add value).2 < 2^64 := by omega
    set buf2e := becomeStringPtr buf t (key / 2^c % 2^B) (st.add value).2 key
      with hbuf2e
    have hlen2e : buf2e.length = buf.length := by
      rw [hbuf2e]; exact length_becomeStringPtr _ _ _ _ _
    have hfrE : ∀ j, (j < cellOff t (key / 2^c % 2^B) ∨
        cellOff t (key / 2^c % 2^B) + cellSize ≤ j) →
        readByte buf2e j = readByte buf j := by
      intro j hj
      rw [hbuf2e]
      exact readByte_becomeStringPtr_frame buf t _ _ key j hco hj
    have htyE : cellType buf2e t (key / 2^c % 2^B) = 1 := by
      rw [hbuf2e]; exact cellType_becomeStringPtr_self _ _ _ _ _ hco
    have hixE : cellIndex buf2e t (key / 2^c % 2^B) = (st.add value).2 := by
      rw [hbuf2e]; exact cellIndex_becomeStringPtr_self _ _ _ _ _ hco hidx64
    have hkyE : cellKey buf2e t (key / 2^c % 2^B) = key := by
      rw [hbuf2e]; exact cellKey_becomeStringPtr_self _ _ _ _ _ hco hk64
    have hinv2 := FlatInv_place buf buf2e st.strings (st.add value).1.strings B A
      t c p (key / 2^c % 2^B) (st.add value).2 key hinv hA hs hk64 hcongB
      hpext2 ⟨value, hent2⟩ hlen2e hfrE htyE hixE hkyE
    have hframeAll : ∀ j, j < buf.length →
        readByte buf2e j = readByte buf j ∨ PathCell A B c key j := by
      intro j hj
      by_cases hcl : cellOff t (key / 2^c % 2^B) ≤ j ∧
          j < cellOff t (key / 2^c % 2^B) + cellSize
      · exact Or.inr ⟨t, c, p, hA, le_rfl, hcong, hcl.1, hcl.2⟩
      · exact Or.inl (hfrE j (by omega))
    refine ⟨buf2e, (st.add value).1, A, hstep, hinv2, hpok2,
      fun _ _ hx => hx, fun _ _ hx => Or.inl hx,
      by rw [hlen2e]; exact Nat.le_add_right _ _, hpext2, hplen2,
      fun j hj => hfrE j (Or.inl (by omega)), hframeAll, ?_⟩
    intro fw hfw
    obtain ⟨fw0, rfl⟩ : ∃ fw0, fw = fw0 + 1 := ⟨fw - 1, by omega⟩
    refine ⟨?_, ?_, ?_⟩
    · intro k2 hcong2 hne
      by_cases hd : k2 / 2^c % 2^B = key / 2^c % 2^B
      · rw [walkIdx_str buf2e B fw0 t c k2 h64 (by rw [hd]; exact htyE), hd, hkyE,
          if_neg (fun hx => hne hx.symm),
          walkIdx_empty buf B fw0 t c k2 h64 (by rw [hd]; exact h0)]
      · exact walk_offpath B buf buf2e st.strings A t c p key k2 hinv hA hcong2
          hframeAll hd (fw0+1)
    · intro _
      refine ⟨?_, rfl⟩
      rw [walkIdx_str buf2e B fw0 t c key h64 htyE, hkyE, if_pos rfl, hixE]
    · intro si hsome
      rw [walkIdx_empty buf B fw0 t c key h64 h0] at hsome
      cases hsome
  · -- StringPtr cell: either the key is already present, or split
    obtain ⟨hsk64, hskcong, v0, hv0ent⟩ := CellOk_str _ _ _ _ _ _ _ _ hcell h1
    by_cases hkeq : cellKey buf t (key / 2^c % 2^B) = key
    · -- double insert: the state is returned unchanged
      have hct : cellType buf t (Table.index buf t (key / 2^c)) = 1 := by
        rw [hslot]; exact h1
      have hkeq' : cellKey buf t (Table.index buf t (key / 2^c)) = key := by
        rw [hslot]; exact hkeq
      have hstep := insertLoop_dup B key value f buf st (64 - c) (key / 2^c) t
        hrem hh hct hkeq'
      refine ⟨buf, st, A, hstep, hinv, hpok, fun _ _ hx => hx,
        fun _ _ hx => Or.inl hx, Nat.le_add_right _ _, ⟨[], by simp⟩,
        by omega, fun _ _ => rfl, fun _ _ => Or.inl rfl, ?_⟩
      intro fw hfw
      obtain ⟨fw0, rfl⟩ : ∃ fw0, fw = fw0 + 1 := ⟨fw - 1, by omega⟩
      refine ⟨fun _ _ _ => rfl, ?_, fun _ _ => ⟨rfl, rfl⟩⟩
      intro hmiss
      rw [walkIdx_str buf B fw0 t c key h64 h1, if_pos hkeq] at hmiss
      cases hmiss
    · -- split: append a fresh table, move the old string down, retry
      have hcB : c + B < 64 := by
        by_contra hcon
        push_neg at hcon
        have h1k : key % 2^(c+B) = key :=
          Nat.mod_eq_of_lt (lt_of_lt_of_le hk64 (Nat.pow_le_pow_right (by norm_num) hcon))
        have h2k : cellKey buf t (key / 2^c % 2^B) % 2^(c+B) =
            cellKey buf t (key / 2^c % 2^B) :=
          Nat.mod_eq_of_lt (lt_of_lt_of_le hsk64 (Nat.pow_le_pow_right (by norm_num) hcon))
        rw [h1k] at hcongB
        rw [h2k] at hskcong
        exact hkeq (by omega)
      have hremle : ¬ (64 : Nat) < 64 - c := by omega
      obtain ⟨f', rfl⟩ : ∃ f', f = f' + 1 := ⟨f - 1, by omega⟩
      have hsi0 : cellIndex buf t (key / 2^c % 2^B) < 2^64 := by
        have := hv0ent.1
        omega
      have hs2lt : cellKey buf t (key / 2^c % 2^B) / 2^(c+B) % 2^B < 2^B :=
        Nat.mod_lt _ (by positivity)
      set bufA := appendTableBytes B buf with hbufA
      set buf2v := becomeTablePtr bufA t (key / 2^c % 2^B) buf.length with hbuf2v
      set buf3v := becomeStringPtr buf2v buf.length
        (cellKey buf t (key / 2^c % 2^B) / 2^(c+B) % 2^B)
        (cellIndex buf t (key / 2^c % 2^B))
        (cellKey buf t (key / 2^c % 2^B)) with hbuf3v
      obtain ⟨hlen3, hfr3, ⟨hty3, hix3, hky3⟩, ⟨hhdr3, hbits3⟩,
          ⟨htyn3, hixn3, hkyn3⟩, hcells03, hhdr2c, hbits2c⟩ :=
        splitBuf_facts B buf bufA buf2v buf3v t (key / 2^c % 2^B)
          (cellIndex buf t (key / 2^c % 2^B)) (cellKey buf t (key / 2^c % 2^B))
          (cellKey buf t (key / 2^c % 2^B) / 2^(c+B) % 2^B) buf.length
          hbufA rfl hbuf2v hbuf3v hco hs2lt hsi0 hsk64 hT64
      -- first loop step: the split itself
      have hct1 : cellType buf t (Table.index buf t (key / 2^c)) = 1 := by
        rw [hslot]; exact h1
      have hkne1 : cellKey buf t (Table.index buf t (key / 2^c)) ≠ key := by
        rw [hslot]; exact hkeq
      have hnt1 : readLE (becomeTablePtr (appendTableBytes B buf) t
          (Table.index buf t (key / 2^c)) buf.length) buf.length 4 = 2 := by
        rw [hslot]
        exact hhdr2c
      have hstep1 := insertLoop_split B key value (f'+1) buf st (64 - c)
        (key / 2^c) t hrem hh hct1 hkne1 hremle hnt1
      simp only [] at hstep1
      rw [hslot] at hstep1
      rw [← hbufA, ← hbuf2v] at hstep1
      have h64c : (64 : Nat) - (64 - c) = c := by omega
      rw [h64c, Nat.shiftRight_eq_div_pow] at hstep1
      rw [Table.nextKey_eq, hbits2c, Nat.div_div_eq_div_mul, ← pow_add] at hstep1
      rw [Table.index_eq, hbits2c, ← hbuf3v] at hstep1
      -- second loop step: descend into the fresh table
      have hh3v : readLE buf3v t 4 = 2 := by
        refine Eq.trans (readLE_congr buf3v buf t 4
          (fun i hi => hfr3 (t + i) (by omega) (Or.inl (by omega)))) hh
      have hb3v : Table.bits buf3v t = B := by
        unfold Table.bits
        rw [hfr3 (t + 8) (by omega) (Or.inl (by omega))]
        exact hb
      have hslot3 : Table.index buf3v t (key / 2^c) = key / 2^c % 2^B := by
        rw [Table.index_eq, hb3v]
      have hct3 : cellType buf3v t (Table.index buf3v t (key / 2^c)) = 2 := by
        rw [hslot3]; exact hty3
      have hnt3 : readLE buf3v
          (cellIndex buf3v t (Table.index buf3v t (key / 2^c))) 4 = 2 := by
        rw [hslot3, hix3]
        exact hhdr3
      have hstep2 := insertLoop_tbl B key value f' buf3v st (64 - c) (key / 2^c) t
        hrem hh3v hct3 hnt3
      rw [hslot3, hix3] at hstep2
      rw [Table.decrementBits_eq, hbits3, Nat.sub_sub] at hstep2
      rw [Table.nextKey_eq, hbits3, Nat.div_div_eq_div_mul, ← pow_add] at hstep2
      -- the invariant after the split
      have hinv3 := FlatInv_split buf buf3v st.strings B A t c p (key / 2^c % 2^B)
        (cellIndex buf t (key / 2^c % 2^B)) (cellKey buf t (key / 2^c % 2^B))
        buf.length (cellKey buf t (key / 2^c % 2^B) / 2^(c+B) % 2^B)
        hinv hA hs h1 rfl rfl rfl hcB rfl hlen3 hfr3 hty3 hix3 hky3
        hhdr3 hbits3 htyn3 hixn3 hkyn3 hcells03
      have hA3T : (fun x => if x = buf.length then
          some (c + B, p + (key / 2^c % 2^B) * 2^c) else A x) buf.length =
          some (c + B, p + (key / 2^c % 2^B) * 2^c) := if_pos rfl
      have hfuel3 : 2 * ((64 - (c + B) + B - 1) / B) + 1 ≤ f' := by omega
      have hsz3 : buf3v.length +
          ((64 - (c + B) + B - 1) / B) * blockSize B < 2^64 := by
        rw [hlen3]
        omega
      obtain ⟨buf2, st2, A2, heq, hinv2, hpok2, hext2, hnew2, hlen2', hpoolext2,
          hplen2, hroot2, hframe2, hwalks2⟩ :=
        ih f' (by omega) buf3v st
          (fun x => if x = buf.length then
            some (c + B, p + (key / 2^c % 2^B) * 2^c) else A x)
          buf.length (c + B) (p + (key / 2^c % 2^B) * 2^c) key value
          hinv3 hpok hA3T hk64 hcongB h0v hfuel3 hsz3 hpsz
      have htneq : t ≠ buf.length := by omega
      -- the colliding cell's (now TablePtr) reads survive the recursion
      have hA3t : (fun x => if x = buf.length then
          some (c + B, p + (key / 2^c % 2^B) * 2^c) else A x) t = some (c, p) := by
        simp only [if_neg htneq]
        exact hA
      obtain ⟨gty, gix, gky⟩ := cellReads_congr buf2 buf3v t (key / 2^c % 2^B)
        (frame_reads_eq buf3v buf2 st.strings B
          (fun x => if x = buf.length then
            some (c + B, p + (key / 2^c % 2^B) * 2^c) else A x)
          (c + B) key hinv3 hframe2 t c p (key / 2^c % 2^B) hA3t hs
          (fun hx => absurd hx.1 (by omega)))
      have hgty2 : cellType buf2 t (key / 2^c % 2^B) = 2 := gty.trans hty3
      have hgix2 : cellIndex buf2 t (key / 2^c % 2^B) = buf.length := gix.trans hix3
      -- composed byte frame
      have hframeAll : ∀ j, j < buf.length →
          readByte buf2 j = readByte buf j ∨ PathCell A B c key j := by
        intro j hj
        rcases hframe2 j (by omega) with he | hpc
        · by_cases hcl : cellOff t (key / 2^c % 2^B) ≤ j ∧
              j < cellOff t (key / 2^c % 2^B) + cellSize
          · exact Or.inr ⟨t, c, p, hA, le_rfl, hcong, hcl.1, hcl.2⟩
          · exact Or.inl (he.trans (hfr3 j hj (by omega)))
        · obtain ⟨t0, c0, p0, hA0, hc0, hp0, hr1, hr2⟩ := hpc
          by_cases ht0 : t0 = buf.length
          · exfalso
            subst ht0
            have hge0 := cellOff_ge buf.length (key / 2^c0 % 2^B)
            omega
          · simp only [if_neg ht0] at hA0
            exact Or.inr ⟨t0, c0, p0, hA0, by omega, hp0, hr1, hr2⟩
      refine ⟨buf2, st2, A2, hstep1.trans (hstep2.trans heq), hinv2, hpok2,
        ?_, ?_, ?_, hpoolext2, hplen2, ?_, hframeAll, ?_⟩
      · -- A extends into A2
        intro t0 x hx
        refine hext2 t0 x ?_
        by_cases ht0 : t0 = buf.length
        · exfalso
          have := (hinv.hdom t0 x hx).2
          omega
        · simp only [if_neg ht0]
          exact hx
      · -- new tables of A2 sit at or after the old length
        intro t0 x hx
        rcases hnew2 t0 x hx with hx2 | hx2
        · by_cases ht0 : t0 = buf.length
          · exact Or.inr (by omega)
          · simp only [if_neg ht0] at hx2
            exact Or.inl hx2
        · exact Or.inr (by omega)
      · -- length bound
        calc buf2.length ≤ buf3v.length +
            ((64 - (c + B) + B - 1) / B) * blockSize B := hlen2'
        _ ≤ buf.length + ((64 - c + B - 1) / B) * blockSize B := by
            rw [hceq, Nat.add_mul, one_mul, hlen3]
            omega
      · -- root bytes unchanged
        intro j hj
        exact (hroot2 j hj).trans (hfr3 j (by omega) (Or.inl (by omega)))
      · -- walk behaviour
        intro fw hfw
        obtain ⟨fw0, rfl⟩ : ∃ fw0, fw = fw0 + 1 := ⟨fw - 1, by omega⟩
        have hfw0 : 64 - (c + B) < fw0 := by omega
        refine ⟨?_, ?_, ?_⟩
        · intro k2 hcong2 hne
          by_cases hd : k2 / 2^c % 2^B = key / 2^c % 2^B
          · have hcong2B : k2 % 2^(c+B) = p + (key / 2^c % 2^B) * 2^c :=
              (mod_pow_split_iff k2 c B p _ hp hs).mpr ⟨hcong2, hd⟩
            rw [walkIdx_str buf B fw0 t c k2 h64 (by rw [hd]; exact h1)]
            rw [walkIdx_tbl buf2 B fw0 t c k2 h64 (by rw [hd]; exact hgty2)]
            rw [hd, hgix2]
            rw [(hwalks2 fw0 hfw0).1 k2 hcong2B hne]
            obtain ⟨fw1, rfl⟩ : ∃ fw1, fw0 = fw1 + 1 := ⟨fw0 - 1, by omega⟩
            rw [walk_one_str buf3v B fw1 buf.length (c + B)
              (cellKey buf t (key / 2^c % 2^B) / 2^(c+B) % 2^B)
              (cellIndex buf t (key / 2^c % 2^B)) (cellKey buf t (key / 2^c % 2^B))
              (by omega) rfl htyn3 hixn3 hkyn3 hcells03 k2]
          · exact walk_offpath B buf buf2 st.strings A t c p key k2 hinv hA hcong2
              hframeAll hd (fw0+1)
        · intro _
          obtain ⟨fw1, hfw1⟩ : ∃ fw1, fw0 = fw1 + 1 := ⟨fw0 - 1, by omega⟩
          have hmiss3 : walkIdx buf3v B fw0 buf.length (c + B) key = none := by
            rw [hfw1]
            rw [walk_one_str buf3v B fw1 buf.length (c + B)
              (cellKey buf t (key / 2^c % 2^B) / 2^(c+B) % 2^B)
              (cellIndex buf t (key / 2^c % 2^B)) (cellKey buf t (key / 2^c % 2^B))
              (by omega) rfl htyn3 hixn3 hkyn3 hcells03 key]
            rw [if_neg hkeq]
          obtain ⟨hw, hst⟩ := (hwalks2 fw0 hfw0).2.1 hmiss3
          refine ⟨?_, hst⟩
          rw [walkIdx_tbl buf2 B fw0 t c key h64 hgty2, hgix2]
          exact hw
        · intro si hsome
          exfalso
          rw [walkIdx_str buf B fw0 t c key h64 h1, if_neg hkeq] at hsome
          cases hsome
  · -- TablePtr cell: descend
    obtain ⟨hky0, hA2t⟩ := CellOk_tbl _ _ _ _ _ _ _ _ hcell h2
    have htab2 := hinv.htab _ _ _ hA2t
    have hh2t : readLE buf (cellIndex buf t (key / 2^c % 2^B)) 4 = 2 :=
      htab2.2.2.1
    have hb2t : Table.bits buf (cellIndex buf t (key / 2^c % 2^B)) = B :=
      htab2.2.2.2.1
    have hct : cellType buf t (Table.index buf t (key / 2^c)) = 2 := by
      rw [hslot]; exact h2
    have hnt : readLE buf (cellIndex buf t (Table.index buf t (key / 2^c))) 4 = 2 := by
      rw [hslot]; exact hh2t
    have hstep := insertLoop_tbl B key value f buf st (64 - c) (key / 2^c) t
      hrem hh hct hnt
    rw [hslot] at hstep
    rw [Table.decrementBits_eq, hb2t, Nat.sub_sub] at hstep
    rw [Table.nextKey_eq, hb2t, Nat.div_div_eq_div_mul, ← pow_add] at hstep
    have hfuel3 : 2 * ((64 - (c + B) + B - 1) / B) + 1 ≤ f := by omega
    have hsz3 : buf.length + ((64 - (c + B) + B - 1) / B) * blockSize B < 2^64 := by
      omega
    obtain ⟨buf2, st2, A2, heq, hinv2, hpok2, hext2, hnew2, hlen2', hpoolext2,
        hplen2, hroot2, hframe2, hwalks2⟩ :=
      ih f (by omega) buf st A (cellIndex buf t (key / 2^c % 2^B)) (c + B)
        (p + (key / 2^c % 2^B) * 2^c) key value
        hinv hpok hA2t hk64 hcongB h0v hfuel3 hsz3 hpsz
    obtain ⟨gty, gix, gky⟩ := cellReads_congr buf2 buf t (key / 2^c % 2^B)
      (frame_reads_eq buf buf2 st.strings B A (c + B) key hinv hframe2
        t c p (key / 2^c % 2^B) hA hs (fun hx => absurd hx.1 (by omega)))
    have hgty2 : cellType buf2 t (key / 2^c % 2^B) = 2 := gty.trans h2
    have hframeAll : ∀ j, j < buf.length →
        readByte buf2 j = readByte buf j ∨ PathCell A B c key j := by
      intro j hj
      exact (hframe2 j hj).imp id
        (fun hpc => PathCell_mono A B c (c + B) key j hpc (by omega))
    refine ⟨buf2, st2, A2, hstep.trans heq, hinv2, hpok2, hext2,
      fun t0 x hx => hnew2 t0 x hx, ?_, hpoolext2, hplen2, hroot2, hframeAll, ?_⟩
    · calc buf2.length ≤ buf.length +
          ((64 - (c + B) + B - 1) / B) * blockSize B := hlen2'
      _ ≤ buf.length + ((64 - c + B - 1) / B) * blockSize B := by
          rw [hceq, Nat.add_mul, one_mul]
          omega
    · intro fw hfw
      obtain ⟨fw0, rfl⟩ : ∃ fw0, fw = fw0 + 1 := ⟨fw - 1, by omega⟩
      have hfw0 : 64 - (c + B) < fw0 := by omega
      refine ⟨?_, ?_, ?_⟩
      · intro k2 hcong2 hne
        by_cases hd : k2 / 2^c % 2^B = key / 2^c % 2^B
        · have hcong2B : k2 % 2^(c+B) = p + (key / 2^c % 2^B) * 2^c :=
            (mod_pow_split_iff k2 c B p _ hp hs).mpr ⟨hcong2, hd⟩
          rw [walkIdx_tbl buf B fw0 t c k2 h64 (by rw [hd]; exact h2)]
          rw [walkIdx_tbl buf2 B fw0 t c k2 h64 (by rw [hd]; exact hgty2)]
          rw [hd, gix]
          exact (hwalks2 fw0 hfw0).1 k2 hcong2B hne
        · exact walk_offpath B buf buf2 st.strings A t c p key k2 hinv hA hcong2
            hframeAll hd (fw0+1)
      · intro hmiss
        rw [walkIdx_tbl buf B fw0 t c key h64 h2] at hmiss
        obtain ⟨hw, hst⟩ := (hwalks2 fw0 hfw0).2.1 hmiss
        refine ⟨?_, hst⟩
        rw [walkIdx_tbl buf2 B fw0 t c key h64 hgty2, gix]
        exact hw
      · intro si hsome
        rw [walkIdx_tbl buf B fw0 t c key h64 h2] at hsome
        exact (hwalks2 fw0 hfw0).2.2 si hsome

set_option maxHeartbeats 1000000 in
/-- `Builder::insert` on a well-formed builder succeeds, preserves the
builder invariant, grows the index by at most one root block plus one
block per trie level, and updates the abstract content pointwise with
first-write-wins semantics; an insert of an already-present key returns
the builder unchanged. -/
theorem insert_main (b : Builder) (A : Nat → Option (Nat × Nat)) (key : Nat)
    (value : List Nat) (hB2 : 2 ≤ b.bits) (hok : BuilderOk b A)
    (hk64 : key < 2^64) (h0v : (0:Nat) ∉ value)
    (hsz : b.index.length + blockSize b.bits +
      ((64 + b.bits - 1) / b.bits) * blockSize b.bits < 2^64)
    (hpsz : b.strings.strings.length < 2^64) :
    ∃ b2 A2, b.insert key value = .ok b2 ∧ b2.bits = b.bits ∧ BuilderOk b2 A2 ∧
      (∀ t0 x, A t0 = some x → A2 t0 = some x) ∧
      b2.index.length ≤ b.index.length + blockSize b.bits +
        ((64 + b.bits - 1) / b.bits) * blockSize b.bits ∧
      (∃ ext, b2.strings.strings = b.strings.strings ++ ext) ∧
      b2.strings.strings.length ≤ b.strings.strings.length + value.length + 1 ∧
      readLE b2.index 8 8 = 24 ∧
      (∀ k2, builderGet b2 k2 =
        if k2 = key then some ((builderGet b key).getD value) else builderGet b k2) ∧
      (∀ v, builderGet b key = some v → b2 = b) := by
  obtain ⟨hinv, hpok, hroot⟩ := hok
  have hB1 : 1 ≤ b.bits := by omega
  have h16 := blockSize_pos b.bits
  have h24 : rootSize = 24 := rfl
  have hrootSizeLe : rootSize ≤ b.index.length := FlatInv_rootSize_le _ _ _ _ hinv
  have hguard : rootSize ≤ b.index.length ∧ readLE b.index 0 4 = 1 :=
    ⟨hrootSizeLe, hinv.hroot1⟩
  have hdivlt : (64 + b.bits - 1) / b.bits < 65 :=
    (Nat.div_lt_iff_lt_mul (by omega)).mpr (by omega)
  have hfuel130 : 2 * ((64 + b.bits - 1) / b.bits) + 1 ≤ 130 := by omega
  have hcongKey : key % 2^(0:Nat) = 0 := by
    rw [pow_zero]
    exact Nat.mod_one key
  rcases hroot with ⟨hroot0, hlen0⟩ | ⟨hroot24, hA24⟩
  · -- first insert: the root table is created lazily
    set bufR := writeLE (appendTableBytes b.bits b.index) 8 8 rootSize with hbufR
    have hlenA : (appendTableBytes b.bits b.index).length =
        rootSize + blockSize b.bits := by
      rw [length_appendTableBytes, hlen0]
    have hlenR : bufR.length = rootSize + blockSize b.bits := by
      rw [hbufR, length_writeLE, hlenA]
    have hwle : (8:Nat) + 8 ≤ (appendTableBytes b.bits b.index).length := by omega
    have hfrR : ∀ j, j < 8 ∨ 16 ≤ j →
        readByte bufR j = readByte (appendTableBytes b.bits b.index) j := by
      intro j hj
      rw [hbufR, readByte_writeLE _ _ _ _ _ hwle, if_neg (by omega)]
    have hroot1R : readLE bufR 0 4 = 1 := by
      refine Eq.trans (readLE_congr bufR b.index 0 4 (fun i hi => ?_)) hinv.hroot1
      rw [hfrR (0 + i) (by omega)]
      exact readByte_appendTableBytes_frame _ _ _ (by omega)
    have hhdrR : readLE bufR rootSize 4 = 2 := by
      refine Eq.trans (readLE_congr bufR (appendTableBytes b.bits b.index)
        rootSize 4 (fun i hi => hfrR (rootSize + i) (by omega))) ?_
      rw [← hlen0]
      exact appendTableBytes_type b.bits b.index
    have hbitsR : Table.bits bufR rootSize = b.bits := by
      unfold Table.bits
      rw [hfrR (rootSize + 8) (by omega)]
      have := appendTableBytes_bits b.bits b.index
      unfold Table.bits at this
      rw [← hlen0]
      exact this
    have hcellsR : ∀ s0, s0 < 2^b.bits →
        cellType bufR rootSize s0 = 0 ∧ cellIndex bufR rootSize s0 = 0 ∧
        cellKey bufR rootSize s0 = 0 := by
      intro s0 hs0
      have hge0 := cellOff_ge rootSize s0
      obtain ⟨e1, e2, e3⟩ := cellReads_congr bufR (appendTableBytes b.bits b.index)
        rootSize s0 (fun j hj1 hj2 => hfrR j (by omega))
      obtain ⟨f1, f2, f3⟩ := appendTableBytes_cells b.bits b.index s0
      rw [hlen0] at f1 f2 f3
      exact ⟨by rw [e1]; exact f1, by rw [e2]; exact f2, by rw [e3]; exact f3⟩
    have hrootR : readLE bufR 8 8 = 24 := by
      rw [hbufR, readLE_writeLE_self _ _ _ _ (by omega), h24]
      norm_num
    have hinvR : FlatInv bufR b.strings.strings b.bits
        (fun x => if x = rootSize then some (0, 0) else none) :=
      FlatInv_first_table bufR b.strings.strings b.bits hlenR hroot1R hhdrR
        hbitsR hcellsR
    have hwalkR : ∀ k2 fw, walkIdx bufR b.bits fw 24 0 k2 = none := by
      intro k2 fw
      cases fw with
      | zero => rfl
      | succ fw =>
          exact walkIdx_empty bufR b.bits fw 24 0 k2 (by omega)
            (hcellsR _ (Nat.mod_lt _ (by positivity))).1
    obtain ⟨buf2, st2, A2, heq, hinv2, hpok2, hext2, hnew2, hlen2', hpoolext2,
        hplen2, hroot2, hframe2, hwalks2⟩ :=
      insertLoop_main b.bits hB1 130 bufR b.strings
        (fun x => if x = rootSize then some (0, 0) else none) 24 0 0 key value
        hinvR hpok (if_pos h24.symm) hk64 hcongKey h0v
        (by simp only [Nat.sub_zero]; omega)
        (by simp only [Nat.sub_zero]; rw [hlenR]; omega) hpsz
    simp only [Nat.sub_zero, pow_zero, Nat.div_one] at heq hlen2'
    have hroot2v : readLE buf2 8 8 = 24 := by
      refine Eq.trans (readLE_congr buf2 bufR 8 8
        (fun i hi => hroot2 (8 + i) (by omega))) hrootR
    have hgb : ∀ k2, builderGet b k2 = none := by
      intro k2
      simp only [builderGet]
      rw [if_pos hroot0]
    refine ⟨⟨b.bits, buf2, st2⟩, A2, ?_, rfl, ⟨hinv2, hpok2,
      Or.inr ⟨hroot2v, hext2 24 (0, 0) (if_pos h24.symm)⟩⟩, ?_, ?_, hpoolext2,
      hplen2, hroot2v, ?_, ?_⟩
    · -- the insert equation
      unfold Builder.insert
      rw [if_pos hguard]
      simp only [Builder.appendTable]
      rw [if_neg (show ¬ (readLE b.index 8 8 ≠ 0) from fun hcon => hcon hroot0)]
      rw [hlen0, ← hbufR, hrootR]
      rw [if_neg (by norm_num : ¬ (24:Nat) = 0)]
      rw [heq]
    · -- A is trivial here (no tables below the root header)
      intro t0 x hx
      exfalso
      obtain ⟨⟨j0, hj0⟩, hb0⟩ := hinv.hdom t0 x hx
      rw [hlen0] at hb0
      omega
    · -- length bound
      calc buf2.length ≤ bufR.length +
          ((64 + b.bits - 1) / b.bits) * blockSize b.bits := hlen2'
      _ ≤ b.index.length + blockSize b.bits +
          ((64 + b.bits - 1) / b.bits) * blockSize b.bits := by
          rw [hlenR, hlen0]
    · -- pointwise content update
      intro k2
      by_cases hk2 : k2 = key
      · subst hk2
        rw [if_pos rfl, hgb k2]
        obtain ⟨hw2, hst2⟩ := (hwalks2 65 (by omega)).2.1 (hwalkR k2 65)
        simp only [builderGet]
        rw [if_neg (by rw [hroot2v]; norm_num)]
        rw [hw2]
        simp only [Option.map, Option.getD]
        rw [hst2]
        obtain ⟨_, hent2, _⟩ := Intern.add_spec b.strings value h0v hpok
        exact congrArg some (readCString_of_EntryAt _ _ _ hent2)
      · rw [if_neg hk2, hgb k2]
        simp only [builderGet]
        rw [if_neg (by rw [hroot2v]; norm_num)]
        rw [(hwalks2 65 (by omega)).1 k2 (by rw [pow_zero]; exact Nat.mod_one k2) hk2]
        rw [hwalkR k2 65]
        rfl
    · -- no-op clause is vacuous: nothing is present yet
      intro v hv
      rw [hgb key] at hv
      cases hv
  · -- the root table already exists
    obtain ⟨buf2, st2, A2, heq, hinv2, hpok2, hext2, hnew2, hlen2', hpoolext2,
        hplen2, hroot2, hframe2, hwalks2⟩ :=
      insertLoop_main b.bits hB1 130 b.index b.strings A 24 0 0 key value
        hinv hpok hA24 hk64 hcongKey h0v
        (by simp only [Nat.sub_zero]; omega)
        (by simp only [Nat.sub_zero]; omega) hpsz
    simp only [Nat.sub_zero, pow_zero, Nat.div_one] at heq hlen2'
    have hroot2v : readLE buf2 8 8 = 24 := by
      refine Eq.trans (readLE_congr buf2 b.index 8 8
        (fun i hi => hroot2 (8 + i) (by omega))) hroot24
    have hins : b.insert key value = .ok ⟨b.bits, buf2, st2⟩ := by
      unfold Builder.insert
      rw [if_pos hguard]
      simp only [Builder.appendTable]
      rw [if_pos (by rw [hroot24]; norm_num : readLE b.index 8 8 ≠ 0)]
      rw [hroot24]
      rw [if_neg (by norm_num : ¬ (24:Nat) = 0)]
      rw [heq]
    refine ⟨⟨b.bits, buf2, st2⟩, A2, hins, rfl, ⟨hinv2, hpok2,
      Or.inr ⟨hroot2v, hext2 24 (0, 0) hA24⟩⟩, hext2, ?_, hpoolext2, hplen2,
      hroot2v, ?_, ?_⟩
    · -- length bound
      calc buf2.length ≤ b.index.length +
          ((64 + b.bits - 1) / b.bits) * blockSize b.bits := hlen2'
      _ ≤ b.index.length + blockSize b.bits +
          ((64 + b.bits - 1) / b.bits) * blockSize b.bits := by omega
    · -- pointwise content update
      intro k2
      by_cases hk2 : k2 = key
      · subst hk2
        rw [if_pos rfl]
        cases hw : walkIdx b.index b.bits 65 24 0 k2 with
        | none =>
            obtain ⟨hw2, hst2⟩ := (hwalks2 65 (by omega)).2.1 hw
            have hrhs : builderGet b k2 = none := by
              simp only [builderGet]
              rw [if_neg (by rw [hroot24]; norm_num), hw]
              rfl
            rw [hrhs]
            simp only [builderGet]
            rw [if_neg (by rw [hroot2v]; norm_num)]
            rw [hw2]
            simp only [Option.map, Option.getD]
            rw [hst2]
            obtain ⟨_, hent2, _⟩ := Intern.add_spec b.strings value h0v hpok
            exact congrArg some (readCString_of_EntryAt _ _ _ hent2)
        | some si =>
            obtain ⟨hb2, hst2⟩ := (hwalks2 65 (by omega)).2.2 si hw
            subst hb2
            subst hst2
            have hlhs : builderGet b k2 = some (readCString b.strings.strings si) := by
              simp only [builderGet]
              rw [if_neg (by rw [hroot24]; norm_num), hw]
              rfl
            show builderGet b k2 = _
            rw [hlhs]
            rfl
      · rw [if_neg hk2]
        simp only [builderGet]
        rw [if_neg (by rw [hroot2v]; norm_num), if_neg (by rw [hroot24]; norm_num)]
        rw [(hwalks2 65 (by omega)).1 k2 (by rw [pow_zero]; exact Nat.mod_one k2) hk2]
        cases hw : walkIdx b.index b.bits 65 24 0 k2 with
        | none => rfl
        | some si =>
            obtain ⟨v, hent⟩ := walkIdx_entry b.bits 65 b.index b.strings.strings
              A 24 0 0 k2 si hinv hA24 hw
            obtain ⟨ext, hext⟩ := hpoolext2
            simp only [Option.map]
            have h1 : readCString st2.strings si = v := by
              rw [hext]
              exact readCString_of_EntryAt _ _ _ (EntryAt.append _ _ _ _ hent)
            have h2 : readCString b.strings.strings si = v :=
              readCString_of_EntryAt _ _ _ hent
            rw [h1, h2]
    · -- an insert of a present key is a no-op
      intro v hv
      have hw : ∃ si, walkIdx b.index b.bits 65 24 0 key = some si := by
        simp only [builderGet] at hv
        rw [if_neg (by rw [hroot24]; norm_num)] at hv
        cases hwx : walkIdx b.index b.bits 65 24 0 key with
        | none => rw [hwx] at hv; cases hv
        | some si => exact ⟨si, rfl⟩
      obtain ⟨si, hwsi⟩ := hw
      obtain ⟨hb2, hst2⟩ := (hwalks2 65 (by omega)).2.2 si hwsi
      subst hb2
      subst hst2
      rfl

/-- `Builder::new` satisfies the builder invariant with the empty
assignment. -/
theorem BuilderOk_new (bits : Nat) :
    BuilderOk (Builder.new bits) (fun _ => none) := by
  have h16 := blockSize_pos bits
  have hlen : reserveHeader.length = 24 := by decide
  have hroot1 : readLE reserveHeader 0 4 = 1 := by decide
  have hroot0 : readLE reserveHeader 8 8 = 0 := by decide
  refine ⟨⟨⟨0, ?_⟩, hroot1, ?_, ?_, ?_⟩, ?_, Or.inl ⟨hroot0, hlen⟩⟩
  · show reserveHeader.length = rootSize + 0 * blockSize bits
    rw [Nat.zero_mul, Nat.add_zero, hlen]
    rfl
  · show ∀ t0, Aligned bits t0 → t0 + blockSize bits ≤ reserveHeader.length → _
    intro t0 ha0 hl0
    exfalso
    obtain ⟨j, hj⟩ := ha0
    rw [hlen] at hl0
    unfold rootSize at hj
    omega
  · intro t0 x hx
    cases hx
  · intro t0 c0 p0 hx
    cases hx
  · intro p hp
    exact absurd hp (List.not_mem_nil p)

/-- Chaining `Builder::insert` over a run: the builder invariant is
preserved and the abstract content becomes the first-write-wins lookup. -/
theorem runInserts_aux (bits : Nat) (hB2 : 2 ≤ bits) :
    ∀ (ps : List (Nat × List Nat)) (b : Builder) (A : Nat → Option (Nat × Nat)),
    b.bits = bits → BuilderOk b A → ValidRun ps →
    b.index.length + ps.length *
      (blockSize bits + ((64 + bits - 1) / bits) * blockSize bits) < 2^64 →
    b.strings.strings.length + runBytes ps < 2^64 →
    ∃ b2 A2, runInserts b ps = .ok b2 ∧ b2.bits = bits ∧ BuilderOk b2 A2 ∧
      b2.index.length ≤ b.index.length + ps.length *
        (blockSize bits + ((64 + bits - 1) / bits) * blockSize bits) ∧
      (∀ k, builderGet b2 k = (match builderGet b k with
        | some v => some v
        | none => lookupFirst ps k)) ∧
      ((ps ≠ [] ∨ readLE b.index 8 8 = 24) → readLE b2.index 8 8 = 24) := by
  intro ps
  induction ps with
  | nil =>
      intro b A hbits hok hvr hsz hpsz
      refine ⟨b, A, rfl, hbits, hok, Nat.le_add_right _ _, fun k => ?_, fun h => ?_⟩
      · cases hg : builderGet b k <;> rfl
      · rcases h with h | h
        · exact absurd rfl h
        · exact h
  | cons hd rest ih =>
      obtain ⟨key, v⟩ := hd
      intro b A hbits hok hvr hsz hpsz
      obtain ⟨hk64, h0v⟩ := hvr (key, v) (List.mem_cons_self _ _)
      have hB2b : 2 ≤ b.bits := by rw [hbits]; exact hB2
      rw [List.length_cons, Nat.add_mul, one_mul] at hsz
      have hrb : runBytes ((key, v) :: rest) = v.length + 1 + runBytes rest := rfl
      rw [hrb] at hpsz
      obtain ⟨b1, A1, hins, hbits1, hok1, hext1, hlen1, hpool1, hplen1, hroot1v,
          hget1, hnop1⟩ :=
        insert_main b A key v hB2b hok hk64 h0v (by rw [hbits]; omega)
          (by omega)
      rw [hbits] at hlen1
      have hbits1' : b1.bits = bits := hbits1.trans hbits
      obtain ⟨b2, A2, hrun, hbits2, hok2, hlen2, hget2, hroot2⟩ :=
        ih b1 A1 hbits1' hok1 (fun p hp => hvr p (List.mem_cons_of_mem _ hp))
          (by omega) (by omega)
      have hrunEq : runInserts b ((key, v) :: rest) = .ok b2 := by
        show (match b.insert key v with
          | .ok b2 => runInserts b2 rest
          | .error e => .error e) = .ok b2
        rw [hins]
        exact hrun
      refine ⟨b2, A2, hrunEq, hbits2, hok2,
        by rw [List.length_cons, Nat.add_mul, one_mul]; omega, fun k => ?_,
        fun _ => hroot2 (Or.inr hroot1v)⟩
      rw [hget2 k, hget1 k]
      by_cases hk : k = key
      · subst hk
        rw [if_pos rfl]
        cases hgb : builderGet b k with
        | none =>
            show some v = lookupFirst ((k, v) :: rest) k
            rw [show lookupFirst ((k, v) :: rest) k =
              if k = k then some v else lookupFirst rest k from rfl, if_pos rfl]
        | some w => rfl
      · rw [if_neg hk]
        cases hgb : builderGet b k with
        | none =>
            show lookupFirst rest k = lookupFirst ((key, v) :: rest) k
            rw [show lookupFirst ((key, v) :: rest) k =
              if key = k then some v else lookupFirst rest k from rfl,
              if_neg (fun h => hk h.symm)]
        | some w => rfl

/-- After `build`, `Map::get_cstr` returns exactly the builder's abstract
content (when the root table exists). -/
theorem build_get_main (b : Builder) (A : Nat → Option (Nat × Nat))
    (hB2 : 2 ≤ b.bits)
    (hinv : FlatInv b.index b.strings.strings b.bits A)
    (hroot24 : readLE b.index 8 8 = 24) (hA24 : A 24 = some (0, 0))
    (hidx64 : b.index.length < 2^64) :
    ∃ rep, b.build = .ok rep ∧
      ∀ key, Map.get_cstr rep key = .ok (builderGet b key) := by
  have h24 : rootSize = 24 := rfl
  have hRSle : rootSize ≤ b.index.length := FlatInv_rootSize_le _ _ _ _ hinv
  have hlenW : (writeLE b.index 16 8 b.index.length).length = b.index.length :=
    length_writeLE _ _ _ _
  have hwb : (16:Nat) + 8 ≤ b.index.length := by omega
  refine ⟨writeLE b.index 16 8 b.index.length ++ b.strings.strings, ?_, ?_⟩
  · unfold Builder.build
    rw [if_pos ⟨hRSle, hinv.hroot1⟩]
  intro key
  have hrepfr : ∀ j, j < 16 →
      readByte (writeLE b.index 16 8 b.index.length ++ b.strings.strings) j =
      readByte b.index j := by
    intro j hj
    rw [readByte_append_left _ _ _ (by omega),
      readByte_writeLE _ _ _ _ _ hwb, if_neg (by omega)]
  have hroot24R :
      readLE (writeLE b.index 16 8 b.index.length ++ b.strings.strings) 8 8 = 24 :=
    Eq.trans (readLE_congr _ _ 8 8 (fun i hi => hrepfr (8 + i) (by omega))) hroot24
  have hso : readLE (writeLE b.index 16 8 b.index.length ++ b.strings.strings)
      16 8 = b.index.length := by
    have h1 : readLE (writeLE b.index 16 8 b.index.length ++ b.strings.strings)
        16 8 = readLE (writeLE b.index 16 8 b.index.length) 16 8 :=
      readLE_congr _ _ 16 8 (fun i hi =>
        readByte_append_left _ _ _ (by omega))
    rw [h1, readLE_writeLE_self _ _ _ _ (by omega), two_pow_64_eq,
      Nat.mod_eq_of_lt hidx64]
  have hrep : ∀ j, 24 ≤ j → j < b.index.length →
      readByte (writeLE b.index 16 8 b.index.length ++ b.strings.strings) j =
      readByte b.index j := by
    intro j hj1 hj2
    rw [readByte_append_left _ _ _ (by omega),
      readByte_writeLE _ _ _ _ _ hwb, if_neg (by omega)]
  have hguard : rootSize ≤
      (writeLE b.index 16 8 b.index.length ++ b.strings.strings).length := by
    rw [List.length_append, hlenW]
    omega
  have hmain := getLoop_main b.bits hB2 130 65 b.index b.strings.strings
    (writeLE b.index 16 8 b.index.length ++ b.strings.strings) A 24 0 0 key
    b.index.length hinv hA24 (by rw [pow_zero]; exact Nat.mod_one key) hrep
    (by omega) (by omega)
  simp only [Nat.sub_zero, pow_zero, Nat.div_one] at hmain
  unfold Map.get_cstr
  rw [if_pos hguard]
  rw [hroot24R]
  rw [if_neg (by norm_num : ¬ (24:Nat) = 0)]
  rw [hso, hmain]
  unfold builderGet
  rw [if_neg (fun hcon => by rw [hroot24] at hcon; cases hcon)]
  cases hw : walkIdx b.index b.bits 65 24 0 key with
  | none => rfl
  | some si =>
      obtain ⟨v, hent⟩ := walkIdx_entry b.bits 65 b.index b.strings.strings A
        24 0 0 key si hinv hA24 hw
      simp only [Option.map]
      have hshift := readCString_shift (writeLE b.index 16 8 b.index.length)
        b.strings.strings si v hent
      rw [hlenW] at hshift
      rw [hshift, readCString_of_EntryAt _ _ _ hent]

/-- First-match lookup resolves a member pair when keys are distinct. -/
theorem lookupFirst_mem (ps : List (Nat × List Nat)) (k : Nat) (v : List Nat)
    (hnd : (ps.map Prod.fst).Nodup) (hmem : (k, v) ∈ ps) :
    lookupFirst ps k = some v := by
  induction ps with
  | nil => cases hmem
  | cons hd rest ih =>
      obtain ⟨a, w⟩ := hd
      rw [show lookupFirst ((a, w) :: rest) k =
        if a = k then some w else lookupFirst rest k from rfl]
      rcases List.mem_cons.mp hmem with heq | hmem2
      · cases heq
        rw [if_pos rfl]
      · have hnd2 := (List.nodup_cons.mp hnd).2
        have hanotin := (List.nodup_cons.mp hnd).1
        rw [if_neg (fun hak => hanotin (by
          rw [hak]
          exact List.mem_map.mpr ⟨(k, v), hmem2, rfl⟩))]
        exact ih hnd2 hmem2

/-- First-match lookup misses keys that are not in the run. -/
theorem lookupFirst_not_mem (ps : List (Nat × List Nat)) (k : Nat)
    (h : k ∉ ps.map Prod.fst) : lookupFirst ps k = none := by
  induction ps with
  | nil => rfl
  | cons hd rest ih =>
      obtain ⟨a, w⟩ := hd
      rw [show lookupFirst ((a, w) :: rest) k =
        if a = k then some w else lookupFirst rest k from rfl]
      rw [if_neg (fun hak => h (by rw [← hak]; exact List.mem_cons_self _ _))]
      exact ih (fun hk => h (List.mem_cons_of_mem _ hk))

/-- The fresh builder's abstract content is empty. -/
theorem builderGet_new (bits k : Nat) : builderGet (Builder.new bits) k = none := by
  have hroot0 : readLE reserveHeader 8 8 = 0 := by decide
  unfold builderGet
  show (if readLE reserveHeader 8 8 = 0 then none
    else Option.map (fun si => readCString (Builder.new bits).strings.strings si)
      (walkIdx (Builder.new bits).index (Builder.new bits).bits 65 24 0 k)) = none
  rw [if_pos hroot0]

/-- A `SmallRun` bound covers the per-insert growth bound of the chained
run. -/
theorem smallRun_len (bits : Nat) (ps : List (Nat × List Nat)) (hb2 : 2 ≤ bits)
    (hsm1 : rootSize + (ps.length + 1) * 65 * blockSize bits < 2^64) :
    24 + ps.length *
      (blockSize bits + ((64 + bits - 1) / bits) * blockSize bits) < 2^64 := by
  have h16 := blockSize_pos bits
  have hceil64 : (64 + bits - 1) / bits ≤ 64 := by
    have := (Nat.div_lt_iff_lt_mul (show 0 < bits by omega)).mpr
      (show 64 + bits - 1 < 65 * bits by omega)
    omega
  have hstep : blockSize bits + ((64 + bits - 1) / bits) * blockSize bits ≤
      65 * blockSize bits := by
    have h1 : ((64 + bits - 1) / bits) * blockSize bits ≤ 64 * blockSize bits :=
      Nat.mul_le_mul_right _ hceil64
    omega
  have h2 : ps.length *
      (blockSize bits + ((64 + bits - 1) / bits) * blockSize bits) ≤
      ps.length * (65 * blockSize bits) := Nat.mul_le_mul_left _ hstep
  have h3 : ps.length * (65 * blockSize bits) ≤
      (ps.length + 1) * (65 * blockSize bits) :=
    Nat.mul_le_mul_right _ (by omega)
  have h4 : (ps.length + 1) * 65 * blockSize bits =
      (ps.length + 1) * (65 * blockSize bits) := Nat.mul_assoc _ _ _
  unfold rootSize at hsm1
  omega

/-- Running a nonempty valid insert sequence on a fresh builder and
building yields a buffer on which `Map::get_cstr` is exactly the
first-write-wins lookup. -/
theorem run_build_get (bits : Nat) (ps : List (Nat × List Nat))
    (hb2 : 2 ≤ bits)
    (hvr : ValidRun ps) (hne : ps ≠ []) (hsmall : SmallRun ps bits) :
    ∃ rep, buildRun bits ps = .ok rep ∧
      ∀ k, Map.get_cstr rep k = .ok (lookupFirst ps k) := by
  obtain ⟨hsm1, hsm2⟩ := hsmall
  have h16 := blockSize_pos bits
  have hlen0 : (Builder.new bits).index.length = 24 := by
    show reserveHeader.length = 24
    decide
  have hlensz := smallRun_len bits ps hb2 hsm1
  obtain ⟨b2, A2, hrun, hbits2, hok2, hlen2, hget2, hroot2⟩ :=
    runInserts_aux bits hb2 ps (Builder.new bits) (fun _ => none) rfl
      (BuilderOk_new bits) hvr (by rw [hlen0]; exact hlensz)
      (by show (0:Nat) + runBytes ps < 2^64; omega)
  have hroot24 : readLE b2.index 8 8 = 24 := hroot2 (Or.inl hne)
  have hA24 : A2 24 = some (0, 0) := by
    rcases hok2.2.2 with ⟨hz, _⟩ | ⟨_, hA⟩
    · rw [hroot24] at hz
      cases hz
    · exact hA
  have hidx64 : b2.index.length < 2^64 := by
    rw [hlen0] at hlen2
    omega
  obtain ⟨rep, hbuild, hgetc⟩ := build_get_main b2 A2
    (by rw [hbits2]; exact hb2) hok2.1 hroot24 hA24 hidx64
  refine ⟨rep, ?_, fun k => ?_⟩
  · unfold buildRun
    rw [hrun]
    exact hbuild
  · have hg : builderGet b2 k = lookupFirst ps k := by
      rw [hget2 k, builderGet_new]
    rw [hgetc k, hg]

/-! ## Claim theorems: C1, C2, C7, C8, C9 -/

/-- C1 counterexample: the round trip fails for the empty set — the built
buffer is the 24-byte empty header, and `Map::get` on it is a failed
assertion rather than the absence the claim requires for every key not in
the set. -/
theorem C1_empty_set_breaks_round_trip :
    (Builder.new 5).build = .ok emptyBuilt ∧
    Map.get emptyBuilt 7 = .error "assert table_index > 0" :=
  ⟨by decide, by decide⟩

/-- C1 amended: for every nonempty machine-representable run of NUL-free
values under pairwise-distinct `u64` keys and every `bits ≥ 2`, building
after inserting every pair succeeds, `Map::get` returns the value of every
inserted pair (whose value is valid UTF-8, as Rust's `&str` guarantees),
and returns absence for every key not in the run. -/
theorem C1_round_trip (bits : Nat) (ps : List (Nat × List Nat))
    (hb2 : 2 ≤ bits) (hb16 : bits ≤ 16)
    (hvr : ValidRun ps) (hnd : (ps.map Prod.fst).Nodup) (hne : ps ≠ [])
    (hsmall : SmallRun ps bits) :
    ∃ rep, buildRun bits ps = .ok rep ∧
      (∀ p ∈ ps, validUTF8 p.2 = true → Map.get rep p.1 = .ok (some p.2)) ∧
      (∀ k', k' ∉ ps.map Prod.fst → Map.get rep k' = .ok none) := by
  obtain ⟨rep, hbuild, hget⟩ := run_build_get bits ps hb2 hvr hne hsmall
  refine ⟨rep, hbuild, fun p hp hu => ?_, fun k' hk' => ?_⟩
  · have hl : lookupFirst ps p.1 = some p.2 := lookupFirst_mem ps p.1 p.2 hnd hp
    unfold Map.get
    rw [hget p.1, hl]
    show (if validUTF8 p.2 = true then Except.ok (some p.2)
      else Except.error "UTF-8 encoding") = Except.ok (some p.2)
    rw [if_pos hu]
  · unfold Map.get
    rw [hget k', lookupFirst_not_mem ps k' hk']

theorem C1_round_trip_witness :
    ∃ rep, buildRun 2 [(1, [104])] = .ok rep ∧
      (∀ p ∈ [(1, [104])], validUTF8 p.2 = true →
        Map.get rep p.1 = .ok (some p.2)) ∧
      (∀ k', k' ∉ [(1, [104])].map Prod.fst → Map.get rep k' = .ok none) :=
  C1_round_trip 2 [(1, [104])] (by decide) (by decide)
    (by unfold ValidRun; decide) (by decide) (by decide)
    (by unfold SmallRun; decide)

/-- C2: first write wins — inserting `(k, v1)` then `(k, v2)` succeeds, the
second insert returns the builder unchanged, and `Map::get` on the built
buffer returns `v1` (hypotheses are Rust's typing and machine-size
guarantees: `u64` key, NUL-free UTF-8 values, representable sizes). -/
theorem C2_first_write_wins (bits k : Nat) (v1 v2 : List Nat)
    (hb2 : 2 ≤ bits) (hb16 : bits ≤ 16) (hk : k < 2^64)
    (h01 : (0:Nat) ∉ v1) (h02 : (0:Nat) ∉ v2)
    (hu1 : validUTF8 v1 = true)
    (hvlen : v1.length + v2.length + 2 < 2^64) :
    ∃ b1 rep, (Builder.new bits).insert k v1 = .ok b1 ∧
      b1.insert k v2 = .ok b1 ∧ b1.build = .ok rep ∧
      Map.get rep k = .ok (some v1) := by
  have h16 := blockSize_pos bits
  have hceil64 : (64 + bits - 1) / bits ≤ 64 := by
    have := (Nat.div_lt_iff_lt_mul (show 0 < bits by omega)).mpr
      (show 64 + bits - 1 < 65 * bits by omega)
    omega
  have hbs : blockSize bits ≤ 1114128 := by
    have h1 : (2:Nat)^bits ≤ 65536 :=
      le_trans (Nat.pow_le_pow_right (by omega) hb16) (by norm_num)
    have h2 : blockSize bits = 16 + 2^bits * 17 := rfl
    have h3 : (2:Nat)^bits * 17 ≤ 65536 * 17 := Nat.mul_le_mul_right _ h1
    omega
  have hcb : ((64 + bits - 1) / bits) * blockSize bits ≤ 64 * 1114128 :=
    Nat.mul_le_mul hceil64 hbs
  have hlen0 : (Builder.new bits).index.length = 24 := by
    show reserveHeader.length = 24
    decide
  have hb' : (Builder.new bits).bits = bits := rfl
  have hpool0 : (Builder.new bits).strings.strings.length = 0 := rfl
  obtain ⟨b1, A1, hins1, hbits1, hok1, _, hlen1, hpoolext1, hplen1, hroot1v,
      hget1, _⟩ :=
    insert_main (Builder.new bits) (fun _ => none) k v1 hb2 (BuilderOk_new bits)
      hk h01
      (by rw [hb', hlen0]; omega)
      (by rw [hpool0]; omega)
  rw [hb', hlen0] at hlen1
  rw [hpool0] at hplen1
  have hb1bits : b1.bits = bits := hbits1.trans hb'
  have hg1 : builderGet b1 k = some v1 := by
    rw [hget1 k, if_pos rfl, builderGet_new]
    rfl
  obtain ⟨b2, A2', hins2, hbits2, hok2, _, hlen2, hpoolext2, hplen2, hroot2v,
      hget2, hnop2⟩ :=
    insert_main b1 A1 k v2 (by rw [hb1bits]; exact hb2) hok1 hk h02
      (by rw [hb1bits]; omega)
      (by omega)
  have hb2eq : b2 = b1 := hnop2 v1 hg1
  have hA1_24 : A1 24 = some (0, 0) := by
    rcases hok1.2.2 with ⟨hz, _⟩ | ⟨_, hA⟩
    · rw [hroot1v] at hz
      cases hz
    · exact hA
  obtain ⟨rep, hbuild, hgetc⟩ := build_get_main b1 A1
    (by rw [hb1bits]; exact hb2) hok1.1 hroot1v hA1_24 (by omega)
  refine ⟨b1, rep, hins1, ?_, hbuild, ?_⟩
  · rw [hins2, hb2eq]
  · unfold Map.get
    rw [hgetc k, hg1]
    show (if validUTF8 v1 = true then Except.ok (some v1)
      else Except.error "UTF-8 encoding") = Except.ok (some v1)
    rw [if_pos hu1]

theorem C2_first_write_wins_witness :
    ∃ b1 rep, (Builder.new 2).insert 1 [104] = .ok b1 ∧
      b1.insert 1 [105] = .ok b1 ∧ b1.build = .ok rep ∧
      Map.get rep 1 = .ok (some [104]) :=
  C2_first_write_wins 2 1 [104] [105] (by decide) (by decide) (by decide)
    (by decide) (by decide) (by decide) (by decide)

/-- C7: bits-invariance — for one insert sequence and two block widths in
`[2,16]`, both builds succeed and `Map::get` agrees on every key (the same
hits, the same misses, and the same failures); only the buffer bytes may
differ. -/
theorem C7_bits_invariance (b1 b2 : Nat) (ps : List (Nat × List Nat))
    (h1a : 2 ≤ b1) (h1b : b1 ≤ 16) (h2a : 2 ≤ b2) (h2b : b2 ≤ 16)
    (hvr : ValidRun ps) (hs1 : SmallRun ps b1) (hs2 : SmallRun ps b2) :
    ∃ rep1 rep2, buildRun b1 ps = .ok rep1 ∧ buildRun b2 ps = .ok rep2 ∧
      ∀ k, Map.get rep1 k = Map.get rep2 k := by
  by_cases hne : ps = []
  · subst hne
    refine ⟨emptyBuilt, emptyBuilt, ?_, ?_, fun k => rfl⟩
    · calc buildRun b1 [] = buildRun 2 [] := rfl
      _ = .ok emptyBuilt := by decide
    · calc buildRun b2 [] = buildRun 2 [] := rfl
      _ = .ok emptyBuilt := by decide
  · obtain ⟨rep1, hbu1, hg1⟩ := run_build_get b1 ps h1a hvr hne hs1
    obtain ⟨rep2, hbu2, hg2⟩ := run_build_get b2 ps h2a hvr hne hs2
    refine ⟨rep1, rep2, hbu1, hbu2, fun k => ?_⟩
    unfold Map.get
    rw [hg1 k, hg2 k]

theorem C7_bits_invariance_witness :
    ∃ rep1 rep2, buildRun 2 [(1, [104])] = .ok rep1 ∧
      buildRun 3 [(1, [104])] = .ok rep2 ∧
      ∀ k, Map.get rep1 k = Map.get rep2 k :=
  C7_bits_invariance 2 3 [(1, [104])] (by decide) (by decide) (by decide)
    (by decide) (by unfold ValidRun; decide) (by unfold SmallRun; decide)
    (by unfold SmallRun; decide)

/-- C8: both trie-walk loops terminate on a well-formed builder whose root
table exists: the insert loop returns a result within fuel
`2⋅⌈64/bits⌉ + 1` (each of the at most `⌈64/bits⌉` levels costs one
descent plus at most one split step), and the lookup loop on the built
buffer returns within any fuel above 64, since `remaining_bits` starts at
64 and `decrement_bits` strictly decreases it (clamped at zero) on every
descent. -/
theorem C8_trie_walk_terminates (b : Builder) (A : Nat → Option (Nat × Nat))
    (key : Nat) (value : List Nat)
    (hB2 : 2 ≤ b.bits)
    (hinv : FlatInv b.index b.strings.strings b.bits A) (hpok : PoolOk b.strings)
    (hA24 : A 24 = some (0, 0)) (hk64 : key < 2^64) (h0v : (0:Nat) ∉ value)
    (hsz : b.index.length + ((64 + b.bits - 1) / b.bits) * blockSize b.bits < 2^64)
    (hpsz : b.strings.strings.length < 2^64) :
    (∀ fuel, 2 * ((64 + b.bits - 1) / b.bits) + 1 ≤ fuel →
      ∃ st, insertLoop b.bits key value fuel (b.index, b.strings) 64 key 24 =
        .ok st) ∧
    (∀ fuel, 64 < fuel →
      ∃ r, getLoop (writeLE b.index 16 8 b.index.length ++ b.strings.strings)
        b.index.length key fuel 64 key 24 = .ok r) := by
  constructor
  · intro fuel hf
    obtain ⟨buf2, st2, A2, heq, _⟩ :=
      insertLoop_main b.bits (by omega) fuel b.index b.strings A 24 0 0 key value
        hinv hpok hA24 hk64 (by rw [pow_zero]; exact Nat.mod_one key) h0v
        (by simp only [Nat.sub_zero]; exact hf)
        (by simp only [Nat.sub_zero]; exact hsz) hpsz
    simp only [Nat.sub_zero, pow_zero, Nat.div_one] at heq
    exact ⟨(buf2, st2), heq⟩
  · intro fuel hf
    have h24 : rootSize = 24 := rfl
    have hRSle : rootSize ≤ b.index.length := FlatInv_rootSize_le _ _ _ _ hinv
    have hwb : (16:Nat) + 8 ≤ b.index.length := by omega
    have hrep : ∀ j, 24 ≤ j → j < b.index.length →
        readByte (writeLE b.index 16 8 b.index.length ++ b.strings.strings) j =
        readByte b.index j := by
      intro j hj1 hj2
      rw [readByte_append_left _ _ _ (by rw [length_writeLE]; omega),
        readByte_writeLE _ _ _ _ _ hwb, if_neg (by omega)]
    have hmain := getLoop_main b.bits hB2 fuel 65 b.index b.strings.strings
      (writeLE b.index 16 8 b.index.length ++ b.strings.strings) A 24 0 0 key
      b.index.length hinv hA24 (by rw [pow_zero]; exact Nat.mod_one key) hrep
      (by omega) (by omega)
    simp only [Nat.sub_zero, pow_zero, Nat.div_one] at hmain
    exact ⟨_, hmain⟩

theorem C8_trie_walk_terminates_witness :
    (∃ st, insertLoop 2 5 [104] 130
        (writeLE (appendTableBytes 2 reserveHeader) 8 8 rootSize, Intern.new)
        64 5 24 = .ok st) ∧
    (∃ r, getLoop
        (writeLE (writeLE (appendTableBytes 2 reserveHeader) 8 8 rootSize) 16 8
          (writeLE (appendTableBytes 2 reserveHeader) 8 8 rootSize).length ++
          Intern.new.strings)
        (writeLE (appendTableBytes 2 reserveHeader) 8 8 rootSize).length
        5 65 64 5 24 = .ok r) := by
  have hmain := C8_trie_walk_terminates
    ⟨2, writeLE (appendTableBytes 2 reserveHeader) 8 8 rootSize, Intern.new⟩
    (fun x => if x = rootSize then some (0, 0) else none) 5 [104]
    (by decide)
    (FlatInv_first_table _ _ _ (by decide) (by decide) (by decide) (by decide)
      (by decide))
    (fun p hp => absurd hp (List.not_mem_nil p))
    (by decide) (by decide) (by decide) (by decide) (by decide)
  exact ⟨hmain.1 130 (by decide), hmain.2 65 (by decide)⟩

/-- C9: in every builder state reachable by a run of inserts from
`Builder::new`, every cell of every table that is `Empty` or a `TablePtr`
stores key 0; and the `become_table_ptr` transition actively zeroes the
stored key of the cell it rewrites. -/
theorem C9_stored_key_zero (bits : Nat) (ps : List (Nat × List Nat))
    (hb2 : 2 ≤ bits) (hvr : ValidRun ps) (hsmall : SmallRun ps bits) :
    ∃ b2 A2, runInserts (Builder.new bits) ps = .ok b2 ∧ BuilderOk b2 A2 ∧
      (∀ t0 c0 p0 s, A2 t0 = some (c0, p0) → s < 2^bits →
        (cellType b2.index t0 s = 0 ∨ cellType b2.index t0 s = 2) →
        cellKey b2.index t0 s = 0) ∧
      (∀ buf t s idx, cellOff t s + cellSize ≤ buf.length →
        cellKey (becomeTablePtr buf t s idx) t s = 0) := by
  obtain ⟨hsm1, hsm2⟩ := hsmall
  have hlen0 : (Builder.new bits).index.length = 24 := by
    show reserveHeader.length = 24
    decide
  obtain ⟨b2, A2, hrun, hbits2, hok2, hlen2, hget2, hroot2⟩ :=
    runInserts_aux bits hb2 ps (Builder.new bits) (fun _ => none) rfl
      (BuilderOk_new bits) hvr
      (by rw [hlen0]; exact smallRun_len bits ps hb2 hsm1)
      (by show (0:Nat) + runBytes ps < 2^64; omega)
  refine ⟨b2, A2, hrun, hok2, fun t0 c0 p0 s hA0 hs hty => ?_,
    fun buf t s idx hco => cellKey_becomeTablePtr_self buf t s idx hco⟩
  have htab := hok2.1.htab t0 c0 p0 hA0
  have hcell := htab.2.2.2.2.2.2 s (by rw [hbits2]; exact hs)
  rcases hty with h0 | h2
  · exact (CellOk_empty _ _ _ _ _ _ _ _ hcell h0).2
  · exact (CellOk_tbl _ _ _ _ _ _ _ _ hcell h2).1

theorem C9_stored_key_zero_witness :
    ∃ b2 A2, runInserts (Builder.new 2) [(1, [104])] = .ok b2 ∧
      BuilderOk b2 A2 ∧
      (∀ t0 c0 p0 s, A2 t0 = some (c0, p0) → s < 2^2 →
        (cellType b2.index t0 s = 0 ∨ cellType b2.index t0 s = 2) →
        cellKey b2.index t0 s = 0) ∧
      (∀ buf t s idx, cellOff t s + cellSize ≤ buf.length →
        cellKey (becomeTablePtr buf t s idx) t s = 0) :=
  C9_stored_key_zero 2 [(1, [104])] (by decide) (by unfold ValidRun; decide)
    (by unfold SmallRun; decide)

end SequenceMap
